import Mathlib

/-!
Verification development for the rattler package-manager core.

This file gives a shallow embedding of three subsystems of the repository:

* the clobber registry (`crates/rattler/src/install/clobber_registry.rs`),
* the JLAP incremental repodata patching engine
  (`crates/rattler_repodata_gateway/src/fetch/jlap/mod.rs`),
* the candidate-construction phase of the resolvo solver front-end
  (`crates/rattler_solve/src/resolvo/mod.rs`),

together with theorems settling the specification claims about them.

Modelling conventions: Rust `HashMap` is embedded as an association list with
single-binding insert semantics (`insertA`); iteration order over a map is
taken to be insertion order (each map entry of the clobber registry touches a
disjoint set of file-system keys, so the order is immaterial, which is part of
what is proved).  `PathBuf` becomes `String`.  Machine integers that cannot
overflow in the modelled code paths become `Nat`.
-/

deriving instance DecidableEq for Except

/-- Association-list lookup: first binding wins (maps built with `insertA` have
at most one binding per key). -/
def lookupA {β : Type} : List (String × β) → String → Option β
  | [], _ => none
  | (k, v) :: rest, key => if k = key then some v else lookupA rest key

/-- Association-list insert with `HashMap::insert` semantics: replaces the
binding if the key is present, otherwise appends a new binding. -/
def insertA {β : Type} : List (String × β) → String → β → List (String × β)
  | [], key, v => [(key, v)]
  | (k, w) :: rest, key, v =>
    if k = key then (k, v) :: rest else (k, w) :: insertA rest key v

/-- Association-list removal of a key (used to model `fs::rename`). -/
def eraseA {β : Type} : List (String × β) → String → List (String × β)
  | [], _ => []
  | (k, v) :: rest, key =>
    if k = key then eraseA rest key else (k, v) :: eraseA rest key

/-- State of `ClobberRegistry` (clobber_registry.rs lines 16-21).  The
`drop_bomb` field is a runtime-only assertion device and is not part of the
functional state. -/
structure ClobberRegistry where
  paths_registry : List (String × Nat)
  clobbers : List (String × List Nat)
  package_names : List String
deriving DecidableEq

/-- Registry with no recorded paths, `ClobberRegistry::default`. -/
def emptyRegistry : ClobberRegistry := ⟨[], [], []⟩

/-- Name mangling for a displaced file, `ClobberRegistry::clobber_name`
(lines 87-96).  The source appends `__clobber-from-<name>` to the file name
component; for a relative path written as a string without a trailing
separator this equals appending to the whole string. -/
def clobberNameOf (path pkgName : String) : String :=
  path ++ "__clobber-from-" ++ pkgName

/-- Modelled `clobbers.entry(path).or_insert_with(|| seed).push(idx)`
(clobber_registry.rs lines 130-133). -/
def pushClobber (cl : List (String × List Nat)) (path : String)
    (seed : List Nat) (idx : Nat) : List (String × List Nat) :=
  match lookupA cl path with
  | some l => insertA cl path (l ++ [idx])
  | none => insertA cl path (seed ++ [idx])

/-- Body of the per-path loop of `ClobberRegistry::register_paths`
(lines 119-139).  The accumulator carries the registry and the `clobber_paths`
rename map returned to the linker. -/
def registerPathsStep (name_idx : Nat) (name : String)
    (st : ClobberRegistry × List (String × String)) (path : String) :
    ClobberRegistry × List (String × String) :=
  let reg := st.1
  let renames := st.2
  match lookupA reg.paths_registry path with
  | some e =>
    if e = name_idx then
      -- A name cannot appear twice in an environment: self-clobber is skipped.
      (reg, renames)
    else
      let new_path := clobberNameOf path name
      ({ reg with clobbers := pushClobber reg.clobbers path [e] name_idx },
       insertA renames path new_path)
  | none =>
    ({ reg with paths_registry := insertA reg.paths_registry path name_idx },
     renames)

/-- Name-index resolution at the top of `register_paths` (lines 112-117): an
already-registered name reuses its index, otherwise the name is appended. -/
def resolveNameIdx (reg : ClobberRegistry) (name : String) : ClobberRegistry × Nat :=
  match reg.package_names.findIdx? (fun n => n == name) with
  | some idx => (reg, idx)
  | none =>
    ({ reg with package_names := reg.package_names ++ [name] },
     reg.package_names.length)

/-- Embedding of `ClobberRegistry::register_paths` (lines 104-142).  The
`paths` argument is the list of relative paths of the package's `PathsJson`.
Note `package_names[name_idx] = name` in the source, so the clobber name is
formed directly from `name`. -/
def registerPaths (reg : ClobberRegistry) (name : String) (paths : List String) :
    ClobberRegistry × List (String × String) :=
  let (reg', name_idx) := resolveNameIdx reg name
  paths.foldl (registerPathsStep name_idx name) (reg', [])

/-- One entry of `paths_data.paths` of a prefix record: a relative path plus
the optional original path recorded for displaced files. -/
structure PathsEntry where
  relative_path : String
  original_path : Option String
deriving DecidableEq

/-- The slice of `PrefixRecord` that the clobber registry reads and rewrites:
the package name, the `files` list and `paths_data.paths`. -/
structure PrefixRecord where
  name : String
  files : List String
  paths_data : List PathsEntry
deriving DecidableEq

instance : Inhabited PrefixRecord := ⟨⟨"", [], []⟩⟩

/-- Embedding of `rename_path_in_prefix_record` (clobber_registry.rs lines
234-271): rewrite `old_path` to `new_path` in `files` and in
`paths_data.paths`, setting `original_path` on the rewritten entry when the
new path is a clobber name and clearing it otherwise. -/
def renamePathInPrefixRecord (record : PrefixRecord)
    (old_path new_path : String) (new_path_is_clobber : Bool) : PrefixRecord :=
  { record with
    files := record.files.map (fun p => if p = old_path then new_path else p),
    paths_data := record.paths_data.map (fun e =>
      if e.relative_path = old_path then
        { e with
          relative_path := new_path,
          original_path := if new_path_is_clobber then some old_path else none }
      else e) }

/-- On-disk state threaded through `unclobber`: `fs` maps a prefix-relative
path to the name of the package whose file currently sits there (file bytes
are a function of the writing package and the path it was linked from), and
`meta` records the `conda-meta` prefix-record rewrites, keyed by package
name. -/
structure UcState where
  fs : List (String × String)
  meta : List (String × PrefixRecord)
deriving DecidableEq

/-- Modelled `std::fs::rename`: fails when the source path does not exist,
otherwise moves the binding to the destination. -/
def fsRename (fs : List (String × String)) (src dst : String) :
    Except String (List (String × String)) :=
  match lookupA fs src with
  | none => Except.error "rename: source not found"
  | some v => Except.ok (insertA (eraseA fs src) dst v)

/-- Body of the per-path loop of `ClobberRegistry::unclobber` (lines 157-227)
for one `clobbers` entry `(path, clobbered_by)`.  Mirrors the source exactly:
project the sorted names onto the clobbering packages, take the last element
as winner, do nothing when the winner is the provisional holder
(`clobbered_by_names[0]`), otherwise displace the holder's file (only when the
canonical file exists) and move the winner's clobber file into place,
rewriting both prefix records. -/
def unclobberEntry (reg : ClobberRegistry) (sortedRecords : List PrefixRecord)
    (st : UcState) (path : String) (clobbered_by : List Nat) :
    Except String UcState :=
  let sortedNames := sortedRecords.map PrefixRecord.name
  let clobberedByNames := clobbered_by.map (fun idx => reg.package_names.getD idx "")
  let sortedClobberedBy := sortedNames.enum.filter (fun q => clobberedByNames.contains q.2)
  match sortedClobberedBy.getLast? with
  | none => Except.error "No winner found"
  | some winner =>
    if winner.2 = clobberedByNames.headD "" then Except.ok st
    else
      let afterLoser : Except String UcState :=
        if (lookupA st.fs path).isSome then
          let loserName := clobberedByNames.headD ""
          let loserPath := clobberNameOf path loserName
          match fsRename st.fs path loserPath with
          | Except.error e => Except.error e
          | Except.ok fs1 =>
            match sortedClobberedBy.find? (fun q => q.2 == loserName) with
            | none => Except.error "loser not found"
            | some loser =>
              let loserRecord :=
                renamePathInPrefixRecord (sortedRecords.getD loser.1 default)
                  path loserPath true
              Except.ok { fs := fs1, meta := insertA st.meta loserRecord.name loserRecord }
        else Except.ok st
      match afterLoser with
      | Except.error e => Except.error e
      | Except.ok st1 =>
        let winnerPath := clobberNameOf path winner.2
        match fsRename st1.fs winnerPath path with
        | Except.error e => Except.error e
        | Except.ok fs2 =>
          let winnerRecord :=
            renamePathInPrefixRecord (sortedRecords.getD winner.1 default)
              winnerPath path false
          Except.ok { fs := fs2, meta := insertA st1.meta winnerRecord.name winnerRecord }

/-- Fold of `unclobberEntry` over the `clobbers` entries, propagating the
first error, as the `?` operator does in the source loop. -/
def unclobberGo (reg : ClobberRegistry) (sortedRecords : List PrefixRecord) :
    List (String × List Nat) → UcState → Except String UcState
  | [], st => Except.ok st
  | (path, cb) :: rest, st =>
    match unclobberEntry reg sortedRecords st path cb with
    | Except.error e => Except.error e
    | Except.ok st1 => unclobberGo reg sortedRecords rest st1

/-- Embedding of `ClobberRegistry::unclobber` (lines 145-231). -/
def unclobber (reg : ClobberRegistry) (sortedRecords : List PrefixRecord)
    (st : UcState) : Except String UcState :=
  unclobberGo reg sortedRecords reg.clobbers st

/-- A package as the install driver sees it: a name and the relative paths it
contributes (its `PathsJson`). -/
structure Pkg where
  name : String
  paths : List String
deriving DecidableEq

/-- Linking step of installing one package: every path the registry asked to
rename is written at its clobber name, every other path at its canonical
name.  The value records which package wrote the file. -/
def linkFiles (fs : List (String × String)) (k : Pkg)
    (renames : List (String × String)) : List (String × String) :=
  k.paths.foldl (fun fs p =>
    match lookupA renames p with
    | some q => insertA fs q k.name
    | none => insertA fs p k.name) fs

/-- Installing one package: register its paths, then link its files honouring
the returned renames. -/
def installPkg (st : ClobberRegistry × List (String × String)) (k : Pkg) :
    ClobberRegistry × List (String × String) :=
  let (reg, renames) := registerPaths st.1 k.name k.paths
  (reg, linkFiles st.2 k renames)

/-- Sequential execution of the Install operations of a transaction, in the
given order (the install loop is sequential by design). -/
def installAll (pkgs : List Pkg) : ClobberRegistry × List (String × String) :=
  pkgs.foldl installPkg (emptyRegistry, [])

/-- Whole pipeline for the determinism claim: run all installs, then the
post-process with the given sorted prefix records. -/
def runInstall (pkgs : List Pkg) (sortedRecords : List PrefixRecord) :
    Except String UcState :=
  let (reg, fs) := installAll pkgs
  unclobber reg sortedRecords { fs := fs, meta := [] }

/-! Specification-side functions for the clobber claims.  These follow the
wording of the specification (§4.G) and are compared with the embedded code
above. -/

/-- Packages contributing a given path, in install order. -/
def contributorsOf (pkgs : List Pkg) (p : String) : List Pkg :=
  pkgs.filter (fun k => k.paths.contains p)

/-- Names of the packages contributing a given path, in install order. -/
def contribNames (pkgs : List Pkg) (p : String) : List String :=
  (contributorsOf pkgs p).map Pkg.name

/-- Every path contributed by some package of the set. -/
def allPaths (pkgs : List Pkg) : List String :=
  (pkgs.map Pkg.paths).flatten

/-- Winner for a clobbered path per §4.G: project the sorted names onto the
clobbering set (order of the sorted names), take the last element. -/
def winnerFor (sortedNames : List String) (cns : List String) : Option String :=
  (sortedNames.filter (fun n => cns.contains n)).getLast?

/-- Description of the disk state of one path's file family right after all
installs: the canonical file holds the first contributor's payload, and each
later contributor's payload sits at its clobber name. -/
def InitAt (l : List Pkg) (p : String) (key v : String) : Prop :=
  (key = p ∧ (contribNames l p).head? = some v)
  ∨ (∃ n, n ∈ (contribNames l p).tail ∧ key = clobberNameOf p n ∧ v = n)

/-- Description of the disk state of one path's file family after the
post-process: the canonical file holds the winner's payload, every losing
contributor's payload sits at its clobber name. -/
def FinalAt (l : List Pkg) (sortedNames : List String) (p : String)
    (key v : String) : Prop :=
  (key = p ∧ winnerFor sortedNames (contribNames l p) = some v)
  ∨ (∃ n, n ∈ contribNames l p ∧ winnerFor sortedNames (contribNames l p) ≠ some n ∧
      key = clobberNameOf p n ∧ v = n)

/-- Mixed description used while walking the `clobbers` entries: paths still
pending hold their install-time family, the already processed ones their
final family. -/
def MixedAt (l : List Pkg) (sortedNames : List String) (pending : List String)
    (p : String) (key v : String) : Prop :=
  (p ∈ pending ∧ InitAt l p key v)
  ∨ (p ∉ pending ∧ FinalAt l sortedNames p key v)

/-- The file system is exactly a union of per-path file families. -/
def FsMixed (l : List Pkg) (sortedNames : List String) (pending : List String)
    (fs : List (String × String)) : Prop :=
  ∀ key v, lookupA fs key = some v ↔
    ∃ p, p ∈ allPaths l ∧ MixedAt l sortedNames pending p key v

/-- Well-formedness of a package set for the clobber analysis: distinct
package names, duplicate-free path lists, and no collisions between clobber
names and real paths (true of any real package layout; `__clobber-from-` is
reserved). -/
structure WellSep (L : List Pkg) : Prop where
  namesNodup : (L.map Pkg.name).Nodup
  pathsNodup : ∀ k ∈ L, k.paths.Nodup
  disj : ∀ p ∈ allPaths L, ∀ n ∈ L.map Pkg.name, clobberNameOf p n ∉ allPaths L
  inj : ∀ p₁ ∈ allPaths L, ∀ n₁ ∈ L.map Pkg.name, ∀ p₂ ∈ allPaths L,
      ∀ n₂ ∈ L.map Pkg.name,
      clobberNameOf p₁ n₁ = clobberNameOf p₂ n₂ → p₁ = p₂ ∧ n₁ = n₂

/-! JLAP embedding (`rattler_repodata_gateway/src/fetch/jlap/mod.rs`).
Cryptography and JSON deserialization are external crates: the keyed
Blake2b-256 MAC (`blake2b_256_hash_with_key`, lines 549-554) and the two
serde parsers are taken as parameters of the embedding; every claim holds for
all instantiations.  Strings are byte sequences via UTF-8. -/

/-- Errors of the JLAP module (jlap/mod.rs lines 117-159).  `HTTP` carries
the status code of the underlying `reqwest` error, when any. -/
inductive JLAPError where
  | JSONParse
  | JSONPatch
  | HTTP (status : Option Nat)
  | FileSystem
  | NoPatchesFound
  | NoHashFound
  | HashesNotMatching
  | ChecksumMismatch
  | HexParse
deriving DecidableEq

/-- Modelled from the spec: `JLAPFooter` of `fetch/cache.rs` (a repository
file not under `src/`): the footer is `{url, latest}` with `latest` an
optional Blake2b-256 digest (§3, "the `footer` is `{url, latest: hash}`"). -/
structure JLAPFooter where
  url : String
  latest : Option (List Nat)
deriving DecidableEq

/-- Modelled from the spec: `JLAPState` of `fetch/cache.rs` (a repository
file not under `src/`): `{jlap_position, iv, footer}` where the position is a
byte offset and `iv` is kept as a hex string (§4.C). -/
structure JLAPState where
  pos : Nat
  iv : String
  footer : JLAPFooter
deriving DecidableEq

/-- One line of the patch section of a JLAP response (jlap/mod.rs lines
163-185).  The RFC-6902 operation list is opaque to the claims and kept as an
abstract payload. -/
structure Patch where
  toHash : Option (List Nat)
  fromHash : Option (List Nat)
  ops : List String
deriving DecidableEq

/-- Value of a hexadecimal digit, as `hex::decode` accepts them. -/
def hexDigitVal (c : Char) : Option Nat :=
  if '0' ≤ c ∧ c ≤ '9' then some (c.toNat - 48)
  else if 'a' ≤ c ∧ c ≤ 'f' then some (c.toNat - 87)
  else if 'A' ≤ c ∧ c ≤ 'F' then some (c.toNat - 55)
  else none

/-- Hex decoding of a character list: requires even length and only hex
digits, as `hex::decode` does (an empty string decodes to the empty byte
sequence). -/
def hexDecodeChars : List Char → Option (List Nat)
  | [] => some []
  | [_] => none
  | c1 :: c2 :: rest =>
    match hexDigitVal c1, hexDigitVal c2, hexDecodeChars rest with
    | some h, some lo, some bs => some ((16 * h + lo) :: bs)
    | _, _, _ => none

/-- Modelled `hex::decode` on a string. -/
def hexDecode (s : String) : Option (List Nat) := hexDecodeChars s.data

/-- Lowercase hex digit for a value below 16. -/
def hexDigitChar (n : Nat) : Char :=
  if n < 10 then Char.ofNat (48 + n) else Char.ofNat (87 + n)

/-- Modelled `hex::encode` / `format!("{:x}", digest)`: two lowercase hex
digits per byte. -/
def hexEncode (bs : List Nat) : String :=
  String.mk (bs.foldr
    (fun b acc => hexDigitChar (b / 16 % 16) :: hexDigitChar (b % 16) :: acc) [])

/-- Modelled `parse_digest_from_hex::<Blake2b256>(line).unwrap_or_default()`
(jlap/mod.rs lines 243-244): a 64-hex-digit line parses to its 32 bytes,
anything else yields the all-zero digest. -/
def parseDigestHexD (s : String) : List Nat :=
  match hexDecode s with
  | some bs => if bs.length = 32 then bs else List.replicate 32 0
  | none => List.replicate 32 0

/-- Accumulatorless newline split on character lists. -/
def splitNlChars : List Char → List Char → List (List Char)
  | [], acc => [acc.reverse]
  | c :: rest, acc =>
    if c = '\n' then acc.reverse :: splitNlChars rest []
    else splitNlChars rest (c :: acc)

/-- Modelled `response.split('\n')`: splits on every newline, keeping empty
pieces, and yields one empty piece for the empty string. -/
def splitNl (s : String) : List String :=
  (splitNlChars s.data []).map String.mk

/-- UTF-8 encoding of one character (the `str::as_bytes` view). -/
def charUtf8Bytes (c : Char) : List Nat :=
  let n := c.toNat
  if n < 128 then [n]
  else if n < 2048 then [192 + n / 64, 128 + n % 64]
  else if n < 65536 then [224 + n / 4096, 128 + n / 64 % 64, 128 + n % 64]
  else [240 + n / 262144, 128 + n / 4096 % 64, 128 + n / 64 % 64, 128 + n % 64]

/-- Modelled `line.as_bytes()`: the UTF-8 bytes of a string. -/
def strBytes (s : String) : List Nat := (s.data.map charUtf8Bytes).flatten

/-- Embedding of `get_bytes_offset` (jlap/mod.rs lines 360-371): the summed
byte length, newline included, of every line before the footer. -/
def getBytesOffset (lines : List String) : Nat :=
  if 2 ≤ lines.length then
    ((lines.take (lines.length - 2)).map (fun x => (strBytes x).length + 1)).sum
  else 0

/-- The parsed JLAP response, struct `JLAP` (jlap/mod.rs lines 191-214). -/
structure JLAPModel where
  initialization_vector : List Nat
  patches : List Patch
  footer : JLAPFooter
  checksum : List Nat
  bytes_offset : Nat
  lines : List String
  offset : Nat
deriving DecidableEq

/-- Modelled `patch_lines.map(parse_patch_json).collect::<Result<Vec<_>,_>>()`
(lines 252-254): parse every patch line, stopping at the first failure. -/
def collectPatches (patchParse : String → Option Patch) :
    List String → Except JLAPError (List Patch)
  | [] => Except.ok []
  | s :: rest =>
    match patchParse s with
    | none => Except.error JLAPError.JSONParse
    | some p =>
      match collectPatches patchParse rest with
      | Except.error e => Except.error e
      | Except.ok ps => Except.ok (p :: ps)

/-- Embedding of `JLAP::new` (jlap/mod.rs lines 225-277), parameterized by
the serde parsers for the footer and the patch lines. -/
def jlapNew (footerParse : String → Option JLAPFooter)
    (patchParse : String → Option Patch) (response : String)
    (initialization_vector : List Nat) : Except JLAPError JLAPModel :=
  let lines := splitNl response
  let length := lines.length
  if 2 < length then
    let ivAndOffset :=
      match hexDecode (lines.getD 0 "") with
      | some value => (1, value)
      | none => (0, initialization_vector)
    let offset := ivAndOffset.1
    let iv := ivAndOffset.2
    let checksum := parseDigestHexD (lines.getD (length - 1) "")
    let bytes_offset := getBytesOffset lines
    match footerParse (lines.getD (length - 2) "") with
    | none => Except.error JLAPError.JSONParse
    | some footer =>
      match collectPatches patchParse ((lines.take (length - 2)).drop offset) with
      | Except.error e => Except.error e
      | Except.ok patches =>
        if patches.isEmpty then Except.error JLAPError.NoPatchesFound
        else Except.ok ⟨iv, patches, footer, checksum, bytes_offset, lines, offset⟩
  else Except.error JLAPError.NoPatchesFound

/-- Embedding of `JLAP::get_state` (jlap/mod.rs lines 314-324): advance the
position by the byte offset and render the initialization vector (either the
overriding value computed by `validate_checksum` or the one of the
response). -/
def jlapGetState (j : JLAPModel) (position : Nat) (iv : Option (List Nat)) :
    JLAPState :=
  let ivStr :=
    match iv with
    | some value => hexEncode value
    | none => hexEncode j.initialization_vector
  ⟨position + j.bytes_offset, ivStr, j.footer⟩

/-- Running keyed-hash chain over the patch lines: element `i` is
`mac(bytes(line i), s (i-1))` with `s 0` the initialization vector, exactly
the `iv_values` vector of `validate_checksum`. -/
def chainMac (mac : List Nat → List Nat → List Nat) (iv : List Nat) :
    List (List Nat) → List (List Nat)
  | [] => []
  | d :: rest => mac d iv :: chainMac mac (mac d iv) rest

/-- Embedding of `JLAP::validate_checksum` (jlap/mod.rs lines 327-357),
parameterized by the keyed MAC (`blake2b_256_hash_with_key`). -/
def validateChecksum (mac : List Nat → List Nat → List Nat) (j : JLAPModel) :
    Except JLAPError (List Nat) :=
  let patchLines := (j.lines.take (j.lines.length - 2)).drop j.offset
  let ivValues := chainMac mac j.initialization_vector (patchLines.map strBytes)
  match ivValues.getLast? with
  | none => Except.error JLAPError.NoPatchesFound
  | some newIv =>
    if newIv ≠ j.checksum then Except.error JLAPError.ChecksumMismatch
    else Except.ok newIv

/-- Embedding of `get_position_and_initialization_vector` (jlap/mod.rs lines
531-547): defaults are position 0 and a 32-byte zero vector; a state whose
`iv` fails to decode as hex is a corrupted cache. -/
def getPositionAndIv (state : Option JLAPState) : Except JLAPError (Nat × List Nat) :=
  match state with
  | some st =>
    match hexDecode st.iv with
    | some value => Except.ok (st.pos, value)
    | none => Except.error JLAPError.HexParse
  | none => Except.ok (0, List.replicate 32 0)

/-- Status-carrying model of a failed `reqwest` request. -/
structure HttpError where
  status : Option Nat
deriving DecidableEq

/-- The `Range` header value `bytes=<pos>-` built by `fetch_jlap_with_retry`
(line 454). -/
def rangeHeaderFor (position : Nat) : String :=
  "bytes=" ++ toString position ++ "-"

/-- Embedding of `fetch_jlap_with_retry` (jlap/mod.rs lines 449-471).  The
HTTP layer (`fetch_jlap`, which issues GET with the given `Range` header) is
a parameter mapping the range header to either the response text or an
error; the returned list records the range header of every request made, in
order, so the retry discipline is observable.  The status comparison uses
`unwrap_or_default()`, whose default status is 200. -/
def fetchJlapWithRetry (fetchFn : String → Except HttpError String)
    (position : Nat) : Except JLAPError (String × Nat) × List String :=
  let range := rangeHeaderFor position
  match fetchFn range with
  | Except.ok response => (Except.ok (response, position), [range])
  | Except.error error =>
    if error.status.getD 200 = 416 ∧ position ≠ 0 then
      match fetchFn "bytes=0-" with
      | Except.ok response => (Except.ok (response, 0), [range, "bytes=0-"])
      | Except.error error2 =>
        (Except.error (JLAPError.HTTP error2.status), [range, "bytes=0-"])
    else (Except.error (JLAPError.HTTP error.status), [range])

/-- Embedding of `patch_repo_data` (jlap/mod.rs lines 392-422).  The
repo-data state contributes its `jlap` descriptor and `blake2_hash`; the
application of the found patches to the cached file (`JLAP::apply`) is a
parameter returning unit or the error it would surface. -/
def patchRepoData (footerParse : String → Option JLAPFooter)
    (patchParse : String → Option Patch)
    (mac : List Nat → List Nat → List Nat)
    (applyFn : List Patch → List Nat → Except JLAPError Unit)
    (fetchFn : String → Except HttpError String)
    (jlapDescriptor : Option JLAPState) (blake2Hash : Option (List Nat)) :
    Except JLAPError JLAPState :=
  match getPositionAndIv jlapDescriptor with
  | Except.error e => Except.error e
  | Except.ok (position0, initialization_vector) =>
    match (fetchJlapWithRetry fetchFn position0).1 with
    | Except.error e => Except.error e
    | Except.ok (responseText, position) =>
      match jlapNew footerParse patchParse responseText initialization_vector with
      | Except.error e => Except.error e
      | Except.ok jlap =>
        let hash := blake2Hash.getD (List.replicate 32 0)
        let latestHash := jlap.footer.latest.getD (List.replicate 32 0)
        if latestHash = hash then Except.ok (jlapGetState jlap position none)
        else
          match validateChecksum mac jlap with
          | Except.error e => Except.error e
          | Except.ok newIv =>
            match applyFn jlap.patches hash with
            | Except.error e => Except.error e
            | Except.ok _ => Except.ok (jlapGetState jlap position (some newIv))

/-! Candidate construction of the resolvo solver front-end
(`rattler_solve/src/resolvo/mod.rs`, `CondaDependencyProvider::from_solver_task`,
lines 244-397).  The model keeps, of a `RepoDataRecord`, the fields that
phase reads: package name (normalized), channel, archive file name and
timestamp.  Timestamps are integers (nanosecond UTC instants order exactly as
their integer values). -/

/-- Archive flavour of a record file, `rattler_conda_types::ArchiveType`.
The derived order on the Rust enum puts `.conda` above `.tar.bz2`. -/
inductive ArchiveType where
  | tarBz2
  | conda
deriving DecidableEq

/-- Rank giving the derived `Ord` of `ArchiveType`. -/
def ArchiveType.rank : ArchiveType → Nat
  | .tarBz2 => 0
  | .conda => 1

/-- The `archive_type.cmp(prev_archive_type)` comparison: `.conda` is the
better type. -/
def archiveCmp (a b : ArchiveType) : Ordering := compare a.rank b.rank

/-- Suffix test over the character lists of two strings. -/
def strEndsWith (s suffix : String) : Bool := suffix.data.isSuffixOf s.data

/-- Removal of the last `n` characters of a string. -/
def strDropRight (s : String) (n : Nat) : String :=
  String.mk (s.data.take (s.data.length - n))

/-- Modelled from the spec: `ArchiveType::split_str` of `rattler_conda_types`
(not under `src/`): split a file name into stem and archive type by its
extension, recognizing `.conda` and `.tar.bz2` (identity for dedup across
archive types uses the file stem, §3). -/
def splitArchive (file_name : String) : Option (String × ArchiveType) :=
  if strEndsWith file_name ".conda" then
    some (strDropRight file_name 6, ArchiveType.conda)
  else if strEndsWith file_name ".tar.bz2" then
    some (strDropRight file_name 8, ArchiveType.tarBz2)
  else none

/-- The record slice read by candidate construction. -/
structure RDRecord where
  name : String
  channel : String
  file_name : String
  timestamp : Option Int
deriving DecidableEq

/-- Modelled `SolveError::DuplicateRecords` (defined in
`rattler_solve/src/lib.rs` of the repository; the claims only exercise this
variant). -/
inductive SolveError where
  | duplicateRecords (file_name : String)
deriving DecidableEq

/-- Channel priority configuration (`rattler_solve::ChannelPriority`). -/
inductive ChannelPriority where
  | strict
  | disabled
deriving DecidableEq

/-- The `excluded` test of the dedup loop (lines 262-264): the record is
dropped by `exclude_newer` iff its timestamp is strictly later than the
cutoff. -/
def recordExcluded (excludeNewer : Option Int) (r : RDRecord) : Bool :=
  match excludeNewer, r.timestamp with
  | some cutoff, some ts => cutoff < ts
  | _, _ => false

/-- Modelled `ArchiveType::split_str(..).unwrap_or((file_name, TarBz2))`
(lines 266-267). -/
def splitOrDefault (file_name : String) : String × ArchiveType :=
  (splitArchive file_name).getD (file_name, ArchiveType.tarBz2)

/-- Body of the archive-type dedup loop (lines 260-310) for one record.  The
state is the `ordered_repodata` vector and the `package_to_type` map from
file stem to (archive type, index into the vector, excluded flag). -/
def dedupStep (excludeNewer : Option Int)
    (st : List RDRecord × List (String × (ArchiveType × Nat × Bool)))
    (record : RDRecord) :
    Except SolveError (List RDRecord × List (String × (ArchiveType × Nat × Bool))) :=
  let ordered := st.1
  let packageToType := st.2
  let excluded := recordExcluded excludeNewer record
  let split := splitOrDefault record.file_name
  let file_name := split.1
  let archive_type := split.2
  match lookupA packageToType file_name with
  | none =>
    let idx := ordered.length
    Except.ok (ordered ++ [record],
      insertA packageToType file_name (archive_type, idx, excluded))
  | some (prevType, idx, prevExcluded) =>
    if prevExcluded ∧ ¬excluded then
      -- The previous record would have been excluded, the current will not be.
      Except.ok (ordered.set idx record,
        insertA packageToType file_name (archive_type, idx, false))
    else if excluded ∧ ¬prevExcluded then
      -- Keep the previous, non-excluded record regardless of type.
      Except.ok (ordered, packageToType)
    else
      match archiveCmp archive_type prevType with
      | Ordering.gt =>
        Except.ok (ordered.set idx record,
          insertA packageToType file_name (archive_type, idx, excluded))
      | Ordering.lt => Except.ok (ordered, packageToType)
      | Ordering.eq => Except.error (SolveError.duplicateRecords record.file_name)

/-- Fold of `dedupStep` over the records of one repodata set. -/
def dedupGo (excludeNewer : Option Int) :
    List RDRecord → List RDRecord × List (String × (ArchiveType × Nat × Bool)) →
    Except SolveError (List RDRecord × List (String × (ArchiveType × Nat × Bool)))
  | [], st => Except.ok st
  | r :: rest, st =>
    match dedupStep excludeNewer st r with
    | Except.error e => Except.error e
    | Except.ok st1 => dedupGo excludeNewer rest st1

/-- The `ordered_repodata` result of the dedup loop for one repodata set. -/
def dedupRecords (excludeNewer : Option Int) (records : List RDRecord) :
    Except SolveError (List RDRecord) :=
  match dedupGo excludeNewer records ([], []) with
  | Except.error e => Except.error e
  | Except.ok st => Except.ok st.1

/-- A channel-specific match spec, i.e. a member of `channel_specific_specs`
(lines 235-238): a spec with a name and a channel (base url plus optional
display name). -/
structure ChannelSpec where
  name : String
  channelBaseUrl : String
  channelName : Option String
deriving DecidableEq

/-- Reason attached to an entry of the excluded list.  The source formats a
human-readable string; the constructor identifies which of the three messages
is produced and the values interpolated into it. -/
inductive ExcludeReason where
  | afterCutoff (cutoff : Int)
  | notInRequestedChannel (channelName : String)
  | strictPriority (channel : String)
deriving DecidableEq

/-- State threaded by the exclusion loop: every interned candidate in order,
the excluded list with reasons, the dependencies-available hints, and the
`package_name_found_in_channel` map. -/
structure CandState where
  candidates : List RDRecord
  excluded : List (RDRecord × ExcludeReason)
  hintAvailable : List RDRecord
  firstChannel : List (String × String)
deriving DecidableEq

/-- The strict-channel-priority block (lines 364-393): a record from a
different channel than the first seen for its name is excluded; otherwise
the first-seen channel map is maintained and the record flows on to the
hint push. -/
def strictCheck (channelPriority : ChannelPriority) (st : CandState)
    (record : RDRecord) : CandState :=
  match lookupA st.firstChannel record.name, channelPriority with
  | some first_channel, ChannelPriority.strict =>
    if first_channel ≠ record.channel then
      { st with excluded :=
          st.excluded ++ [(record, ExcludeReason.strictPriority record.channel)] }
    else { st with hintAvailable := st.hintAvailable ++ [record] }
  | _, _ =>
    { st with
      firstChannel := insertA st.firstChannel record.name record.channel,
      hintAvailable := st.hintAvailable ++ [record] }

/-- The `exclude_newer` filter (lines 320-331): push an excluded entry when
the record's timestamp is strictly later than the cutoff; the loop does not
`continue` here. -/
def cutoffCheck (excludeNewer : Option Int) (st : CandState) (record : RDRecord) :
    CandState :=
  match excludeNewer, record.timestamp with
  | some cutoff, some ts =>
    if cutoff < ts then
      { st with excluded :=
          st.excluded ++ [(record, ExcludeReason.afterCutoff cutoff)] }
    else st
  | _, _ => st

/-- Body of the exclusion loop (lines 312-396) for one record: intern the
candidate, apply the `exclude_newer` filter (no `continue`), then the
channel-specific-spec filter (`continue` on exclusion), then the
strict-channel-priority filter. -/
def candStep (channelSpecificSpecs : List ChannelSpec) (excludeNewer : Option Int)
    (channelPriority : ChannelPriority) (st : CandState) (record : RDRecord) :
    CandState :=
  let st1 := { st with candidates := st.candidates ++ [record] }
  let st2 := cutoffCheck excludeNewer st1 record
  match
    (if channelSpecificSpecs.isEmpty then none
     else channelSpecificSpecs.find? (fun spec => spec.name == record.name)) with
  | some spec =>
    if record.channel ≠ spec.channelBaseUrl then
      { st2 with excluded := st2.excluded ++
          [(record, ExcludeReason.notInRequestedChannel
              (spec.channelName.getD spec.channelBaseUrl))] }
    else strictCheck channelPriority st2 record
  | none => strictCheck channelPriority st2 record

/-- Fold of `candStep` over a record list. -/
def candGo (channelSpecificSpecs : List ChannelSpec) (excludeNewer : Option Int)
    (channelPriority : ChannelPriority) (records : List RDRecord)
    (st : CandState) : CandState :=
  records.foldl (candStep channelSpecificSpecs excludeNewer channelPriority) st

/-- Candidate construction over the repodata sets: dedup each set, then run
the exclusion loop over its surviving records, sharing the first-seen-channel
map across all sets (lines 244-397). -/
def fromSolverTask (channelSpecificSpecs : List ChannelSpec)
    (excludeNewer : Option Int) (channelPriority : ChannelPriority) :
    List (List RDRecord) → CandState → Except SolveError CandState
  | [], st => Except.ok st
  | records :: rest, st =>
    match dedupRecords excludeNewer records with
    | Except.error e => Except.error e
    | Except.ok ordered =>
      fromSolverTask channelSpecificSpecs excludeNewer channelPriority rest
        (candGo channelSpecificSpecs excludeNewer channelPriority ordered st)

/-- The empty candidate state. -/
def emptyCandState : CandState := ⟨[], [], [], []⟩

/-- Modelled from the spec: the resolvo solver (an external crate) never
selects a candidate that is on the excluded list of its `Candidates`; a
record is selectable in a solution only if it was interned and never
excluded. -/
def SelectableIn (st : CandState) (r : RDRecord) : Prop :=
  r ∈ st.candidates ∧ ∀ reason, (r, reason) ∉ st.excluded

/-- Channel of the first record of a given name, in record order - the
specification-side reading of "the first channel in which any record of this
name appeared". -/
def firstChannelOf (records : List RDRecord) (n : String) : Option String :=
  (records.find? (fun r => r.name == n)).map RDRecord.channel

/-! Concrete instantiations of the abstract parameters (a serde footer
parser, a serde patch parser, a keyed MAC, a patch applier and an HTTP
layer), used to evaluate the theorems on closed inputs. -/

/-- Test footer parser: recognizes the single line `F`. -/
def fpStub : String → Option JLAPFooter :=
  fun s => if s = "F" then some ⟨"repodata.json", some (List.replicate 32 1)⟩ else none

/-- Test patch parser: recognizes the lines `P` and `Q`. -/
def ppStub : String → Option Patch :=
  fun s => if s = "P" ∨ s = "Q" then some ⟨none, none, []⟩ else none

/-- Test MAC: a 32-byte digest mixing data and key sums. -/
def macStub : List Nat → List Nat → List Nat :=
  fun d k => List.replicate 32 ((d.sum + 2 * k.sum + 1) % 256)

/-- Test patch applier that always succeeds. -/
def applyOkStub : List Patch → List Nat → Except JLAPError Unit :=
  fun _ _ => Except.ok ()

/-- Scripted HTTP layer for the retry claim: maps a `Range` header to a
scripted outcome. -/
def fetchScript (script : List (String × Except HttpError String)) :
    String → Except HttpError String :=
  fun range => (lookupA script range).getD (Except.error ⟨none⟩)

/-- The lines of a response between the optional leading iv line and the
footer, i.e. the patch segment the parser will consume. -/
def responsePatchSegment (response : String) : List String :=
  let lines := splitNl response
  let offset : Nat :=
    match hexDecode (lines.getD 0 "") with
    | some _ => 1
    | none => 0
  (lines.take (lines.length - 2)).drop offset

/-- Footer line (second to last) of a response. -/
def responseFooterLine (response : String) : String :=
  (splitNl response).getD ((splitNl response).length - 2) ""

/-- Last line of a response (holding the terminal checksum). -/
def responseLastLine (response : String) : String :=
  (splitNl response).getD ((splitNl response).length - 1) ""

/-- The patch lines a parsed JLAP response will validate. -/
def patchLinesOf (j : JLAPModel) : List String :=
  (j.lines.take (j.lines.length - 2)).drop j.offset

/-- Summed byte length of a list of lines, one trailing newline each. -/
def lineByteLenSum (ls : List String) : Nat :=
  (ls.map (fun x => (strBytes x).length + 1)).sum

/-- Concrete response for the checksum witness: one patch line `P`, footer
`F`, and the matching terminal checksum under `macStub`. -/
def respWit : String := "P\nF\n" ++ hexEncode (List.replicate 32 81)

/-- The parsed model of `respWit`. -/
def jWit : JLAPModel :=
  ⟨List.replicate 32 0, [⟨none, none, []⟩],
   ⟨"repodata.json", some (List.replicate 32 1)⟩,
   List.replicate 32 81, 2, splitNl respWit, 0⟩

/-- File stem of a record, identity for the archive-type dedup. -/
def stemOf (r : RDRecord) : String := (splitOrDefault r.file_name).1

/-- Archive type of a record. -/
def typeOf (r : RDRecord) : ArchiveType := (splitOrDefault r.file_name).2

/-- Invariant tying `ordered_repodata` to `package_to_type` during the dedup
loop: every held record's stem maps to its own slot with its type and
exclusion flag, and every map entry points at a slot holding a record of
that stem. -/
def DedupInv (ex : Option Int) (ordered : List RDRecord)
    (ptt : List (String × (ArchiveType × Nat × Bool))) : Prop :=
  (∀ r idx, ordered[idx]? = some r →
    lookupA ptt (stemOf r) = some (typeOf r, idx, recordExcluded ex r))
  ∧ (∀ s t idx b, lookupA ptt s = some (t, idx, b) →
      ∃ r, ordered[idx]? = some r ∧ stemOf r = s)

/-- Characterization of the `register_paths` loop after a set `done` of
paths has been processed, relative to the starting registry `reg` and the
resolved name index `i`: paths not yet processed are untouched; a processed
path owned by another package keeps its owner, gains the registering index at
the end of its `clobbers` list (seeded with the owner if absent) and maps to
its clobber name in the returned renames; a processed path owned by the same
index, or not owned, produces no rename and no `clobbers` entry, an unowned
one is recorded under the registering index. -/
def RegChar (reg : ClobberRegistry) (i : Nat) (name : String) (done : List String)
    (st : ClobberRegistry × List (String × String)) : Prop :=
  st.1.package_names = reg.package_names ∧
  ∀ x,
    (x ∉ done →
      lookupA st.1.paths_registry x = lookupA reg.paths_registry x ∧
      lookupA st.1.clobbers x = lookupA reg.clobbers x ∧
      lookupA st.2 x = none) ∧
    (x ∈ done →
      (∀ e, lookupA reg.paths_registry x = some e → e ≠ i →
        lookupA st.1.paths_registry x = some e ∧
        lookupA st.1.clobbers x =
          some ((lookupA reg.clobbers x).getD [e] ++ [i]) ∧
        lookupA st.2 x = some (clobberNameOf x name)) ∧
      (lookupA reg.paths_registry x = some i →
        lookupA st.1.paths_registry x = some i ∧
        lookupA st.1.clobbers x = lookupA reg.clobbers x ∧
        lookupA st.2 x = none) ∧
      (lookupA reg.paths_registry x = none →
        lookupA st.1.paths_registry x = some i ∧
        lookupA st.1.clobbers x = lookupA reg.clobbers x ∧
        lookupA st.2 x = none))

/-- Invariant of the registry and file system after installing a list of
packages in order: the package names are registered in install order, the
owner map points at each path's first contributor, the `clobbers` map holds
exactly the multi-contributor paths with all contributor indices in order,
its keys are duplicate-free, and the file system is the union of the
install-time file families. -/
def InstallInv (l : List Pkg) (st : ClobberRegistry × List (String × String)) : Prop :=
  st.1.package_names = l.map Pkg.name
  ∧ (∀ p, (contributorsOf l p = [] → lookupA st.1.paths_registry p = none)
      ∧ (∀ k0 rest0, contributorsOf l p = k0 :: rest0 →
          ∃ e, lookupA st.1.paths_registry p = some e ∧ e < l.length ∧
            l[e]? = some k0))
  ∧ (∀ p, ((contributorsOf l p).length ≤ 1 → lookupA st.1.clobbers p = none)
      ∧ (2 ≤ (contributorsOf l p).length →
          ∃ idxs, lookupA st.1.clobbers p = some idxs ∧
            (∀ j ∈ idxs, j < l.length) ∧
            idxs.map (fun j => (l.map Pkg.name).getD j "") = contribNames l p))
  ∧ (st.1.clobbers.map Prod.fst).Nodup
  ∧ (∀ x v, lookupA st.2 x = some v ↔ ∃ p, p ∈ allPaths l ∧ InitAt l p x v)

/-!
Theorems.  First generic lemmas about the association-list model, then the
claims, grouped by subsystem.
-/

theorem lookupA_insertA_self {β : Type} (l : List (String × β)) (k : String) (v : β) :
    lookupA (insertA l k v) k = some v := by
  induction l with
  | nil => simp [insertA, lookupA]
  | cons kv rest ih =>
    obtain ⟨k', w⟩ := kv
    by_cases h : k' = k
    · subst h; simp [insertA, lookupA]
    · simp [insertA, lookupA, h, ih]

theorem lookupA_insertA_ne {β : Type} (l : List (String × β)) (k k' : String) (v : β)
    (h : k ≠ k') : lookupA (insertA l k v) k' = lookupA l k' := by
  induction l with
  | nil => simp [insertA, lookupA, h]
  | cons kv rest ih =>
    obtain ⟨k0, w⟩ := kv
    by_cases h0 : k0 = k
    · subst h0; simp [insertA, lookupA, h]
    · simp [insertA, lookupA, h0, ih]

theorem lookupA_eraseA_self {β : Type} (l : List (String × β)) (k : String) :
    lookupA (eraseA l k) k = none := by
  induction l with
  | nil => simp [eraseA, lookupA]
  | cons kv rest ih =>
    obtain ⟨k0, w⟩ := kv
    by_cases h0 : k0 = k
    · subst h0; simp [eraseA, lookupA, ih]
    · simp [eraseA, lookupA, h0, ih]

theorem lookupA_eraseA_ne {β : Type} (l : List (String × β)) (k k' : String)
    (h : k ≠ k') : lookupA (eraseA l k) k' = lookupA l k' := by
  induction l with
  | nil => simp [eraseA, lookupA]
  | cons kv rest ih =>
    obtain ⟨k0, w⟩ := kv
    by_cases h0 : k0 = k
    · subst h0; simp [eraseA, lookupA, h, ih]
    · simp only [eraseA, lookupA, if_neg h0]
      by_cases h1 : k0 = k'
      · simp [lookupA, h1]
      · simp [lookupA, h1, ih]

/-- C6: `fetch_jlap_with_retry` issues one ranged request at `bytes=<pos>-`;
it retries, exactly once and at `bytes=0-`, if and only if that request
failed with HTTP status 416 and the position is positive, returning the
retried response with position 0 on success; every other failure - and a
failure of the retry itself - surfaces as a fatal JLAP HTTP error with no
further request. -/
theorem c6_fetch_retry (fetchFn : String → Except HttpError String) (position : Nat) :
    (∀ resp, fetchFn (rangeHeaderFor position) = Except.ok resp →
      fetchJlapWithRetry fetchFn position =
        (Except.ok (resp, position), [rangeHeaderFor position]))
    ∧ (∀ err, fetchFn (rangeHeaderFor position) = Except.error err →
        ((err.status.getD 200 = 416 ∧ position ≠ 0) →
          (∀ resp2, fetchFn "bytes=0-" = Except.ok resp2 →
            fetchJlapWithRetry fetchFn position =
              (Except.ok (resp2, 0), [rangeHeaderFor position, "bytes=0-"]))
          ∧ (∀ err2, fetchFn "bytes=0-" = Except.error err2 →
              fetchJlapWithRetry fetchFn position =
                (Except.error (JLAPError.HTTP err2.status),
                 [rangeHeaderFor position, "bytes=0-"])))
        ∧ (¬(err.status.getD 200 = 416 ∧ position ≠ 0) →
            fetchJlapWithRetry fetchFn position =
              (Except.error (JLAPError.HTTP err.status), [rangeHeaderFor position])))
    ∧ ((fetchJlapWithRetry fetchFn position).2.length = 2 ↔
        ∃ err, fetchFn (rangeHeaderFor position) = Except.error err ∧
          err.status.getD 200 = 416 ∧ 0 < position) := by
  refine ⟨?_, ?_, ?_⟩
  · intro resp h
    simp [fetchJlapWithRetry, h]
  · intro err h
    constructor
    · intro hcond
      constructor
      · intro resp2 h2
        simp [fetchJlapWithRetry, h, hcond, h2]
      · intro err2 h2
        simp [fetchJlapWithRetry, h, hcond, h2]
    · intro hcond
      simp [fetchJlapWithRetry, h, hcond]
  · constructor
    · intro hlen
      simp only [fetchJlapWithRetry] at hlen
      cases hf : fetchFn (rangeHeaderFor position) with
      | ok resp => rw [hf] at hlen; simp at hlen
      | error err =>
        by_cases hcond : err.status.getD 200 = 416 ∧ position ≠ 0
        · exact ⟨err, rfl, hcond.1, Nat.pos_of_ne_zero hcond.2⟩
        · rw [hf] at hlen; simp [hcond] at hlen
    · rintro ⟨err, hf, hst, hpos⟩
      have hcond : err.status.getD 200 = 416 ∧ position ≠ 0 :=
        ⟨hst, Nat.pos_iff_ne_zero.mp hpos⟩
      simp only [fetchJlapWithRetry, hf, if_pos hcond]
      cases fetchFn "bytes=0-" <;> simp

/-- C6 witness: a scripted 416 on `bytes=7-` followed by a success on
`bytes=0-` yields the retried response with position reset to 0 and exactly
two requests. -/
theorem c6_fetch_retry_witness :
    fetchJlapWithRetry
        (fetchScript [("bytes=7-", Except.error ⟨some 416⟩),
                      ("bytes=0-", Except.ok "resp")]) 7 =
      (Except.ok ("resp", 0), ["bytes=7-", "bytes=0-"]) := by
  have h := c6_fetch_retry
    (fetchScript [("bytes=7-", Except.error ⟨some 416⟩), ("bytes=0-", Except.ok "resp")]) 7
  exact ((h.2.1 ⟨some 416⟩ rfl).1 (by decide)).1 "resp" rfl

/-- C10 (amended): `JLAP::new` rejects every response of at most two lines
with `NoPatchesFound`, and rejects every response whose patch segment (the
lines between the optional leading hex iv line and the footer) is empty and
whose footer line parses, again with `NoPatchesFound`; in particular the
up-to-date-client response `iv, footer, checksum` is rejected.  (A response
with an empty patch segment whose footer line does not parse yields the JSON
parse error instead - see the counterexample.) -/
theorem c10_no_patches (fp : String → Option JLAPFooter) (pp : String → Option Patch)
    (response : String) (iv0 : List Nat) :
    ((splitNl response).length ≤ 2 →
      jlapNew fp pp response iv0 = Except.error JLAPError.NoPatchesFound)
    ∧ (responsePatchSegment response = [] →
        (∃ f, fp (responseFooterLine response) = some f) →
        jlapNew fp pp response iv0 = Except.error JLAPError.NoPatchesFound) := by
  constructor
  · intro hlen
    simp only [jlapNew]
    rw [if_neg (by omega)]
  · intro hseg hf
    obtain ⟨f, hf⟩ := hf
    by_cases hlen : 2 < (splitNl response).length
    · simp only [responseFooterLine] at hf
      simp only [responsePatchSegment] at hseg
      simp only [jlapNew]
      rw [if_pos hlen]
      cases hhex : hexDecode ((splitNl response).getD 0 "") with
      | some v =>
        rw [hhex] at hseg
        simp only [hhex, hf, hseg, collectPatches]
        simp
      | none =>
        rw [hhex] at hseg
        simp only [hhex, hf, hseg, collectPatches]
        simp
    · simp only [jlapNew]
      rw [if_neg hlen]

/-- C10 witness: the well-formed up-to-date response consisting of exactly an
iv line, a footer line and a checksum line is rejected with
`NoPatchesFound`. -/
theorem c10_no_patches_witness :
    responsePatchSegment "00\nF\n1234" = [] ∧
    jlapNew fpStub ppStub "00\nF\n1234" [] = Except.error JLAPError.NoPatchesFound := by
  refine ⟨by decide, ?_⟩
  exact (c10_no_patches fpStub ppStub "00\nF\n1234" []).2 (by decide)
    ⟨⟨"repodata.json", some (List.replicate 32 1)⟩, by decide⟩

/-- C10 counterexample: a response whose segment between the leading hex iv
line and the footer/checksum lines is empty but whose footer line does not
parse is rejected with the JSON parse error, not with `NoPatchesFound` as the
claim states. -/
theorem c10_counterexample :
    responsePatchSegment "00\nX\nff" = [] ∧
    jlapNew fpStub ppStub "00\nX\nff" (List.replicate 32 0) =
      Except.error JLAPError.JSONParse ∧
    JLAPError.JSONParse ≠ JLAPError.NoPatchesFound := by decide

theorem collectPatches_length (pp : String → Option Patch) :
    ∀ ls ps, collectPatches pp ls = Except.ok ps → ps.length = ls.length := by
  intro ls
  induction ls with
  | nil =>
    intro ps h
    simp only [collectPatches] at h
    cases h
    rfl
  | cons s rest ih =>
    intro ps h
    simp only [collectPatches] at h
    cases hp : pp s with
    | none => rw [hp] at h; exact absurd h (by simp)
    | some p =>
      rw [hp] at h
      cases hr : collectPatches pp rest with
      | error e => rw [hr] at h; exact absurd h (by simp)
      | ok ps' =>
        rw [hr] at h
        cases h
        simp [ih ps' hr]

theorem chainMac_length (mac : List Nat → List Nat → List Nat) :
    ∀ ds iv, (chainMac mac iv ds).length = ds.length := by
  intro ds
  induction ds with
  | nil => intro iv; rfl
  | cons d rest ih => intro iv; simp [chainMac, ih]

/-- Inversion of a successful `JLAP::new`: the parsed model records the
response lines, the checksum is the parsed last line, the patch lines are
non-empty and they all parsed. -/
theorem jlapNew_ok_inv (fp : String → Option JLAPFooter) (pp : String → Option Patch)
    (response : String) (iv0 : List Nat) (j : JLAPModel)
    (h : jlapNew fp pp response iv0 = Except.ok j) :
    j.lines = splitNl response ∧
    j.checksum = parseDigestHexD (responseLastLine response) ∧
    patchLinesOf j ≠ [] ∧
    collectPatches pp (patchLinesOf j) = Except.ok j.patches ∧
    2 < (splitNl response).length ∧
    j.bytes_offset = getBytesOffset (splitNl response) := by
  simp only [jlapNew] at h
  by_cases hlen : 2 < (splitNl response).length
  · rw [if_pos hlen] at h
    cases hhex : hexDecode ((splitNl response).getD 0 "") with
    | some v =>
      rw [hhex] at h
      cases hfp : fp ((splitNl response).getD ((splitNl response).length - 2) "") with
      | none => rw [hfp] at h; exact absurd h (by simp)
      | some f =>
        rw [hfp] at h
        cases hcp : collectPatches pp (((splitNl response).take ((splitNl response).length - 2)).drop 1) with
        | error e => rw [hcp] at h; exact absurd h (by simp)
        | ok ps =>
          rw [hcp] at h
          dsimp only at h
          by_cases hemp : ps.isEmpty
          · rw [if_pos hemp] at h; exact absurd h (by simp)
          · rw [if_neg hemp] at h
            cases h
            refine ⟨rfl, rfl, ?_, hcp, hlen, rfl⟩
            intro hcon
            rw [patchLinesOf] at hcon
            simp only at hcon
            rw [hcon] at hcp
            simp only [collectPatches] at hcp
            cases hcp
            simp at hemp
    | none =>
      rw [hhex] at h
      cases hfp : fp ((splitNl response).getD ((splitNl response).length - 2) "") with
      | none => rw [hfp] at h; exact absurd h (by simp)
      | some f =>
        rw [hfp] at h
        cases hcp : collectPatches pp (((splitNl response).take ((splitNl response).length - 2)).drop 0) with
        | error e => rw [hcp] at h; exact absurd h (by simp)
        | ok ps =>
          rw [hcp] at h
          dsimp only at h
          by_cases hemp : ps.isEmpty
          · rw [if_pos hemp] at h; exact absurd h (by simp)
          · rw [if_neg hemp] at h
            cases h
            refine ⟨rfl, rfl, ?_, hcp, hlen, rfl⟩
            intro hcon
            rw [patchLinesOf] at hcon
            simp only at hcon
            rw [hcon] at hcp
            simp only [collectPatches] at hcp
            cases hcp
            simp at hemp
  · rw [if_neg hlen] at h
    exact absurd h (by simp)

/-- C4: for a parsed JLAP response, `validate_checksum` chains the keyed MAC
over exactly the patch lines (each state keyed by the previous one, seeded
with the initialization vector in effect), returns `ChecksumMismatch` if and
only if the final chain value differs from the checksum parsed off the last
response line, and returns that final value otherwise; and `patch_repo_data`
propagates the error with the patch application never invoked (the
conclusion holds for every `applyFn`). -/
theorem c4_checksum (fp : String → Option JLAPFooter) (pp : String → Option Patch)
    (mac : List Nat → List Nat → List Nat)
    (fetchFn : String → Except HttpError String)
    (desc : Option JLAPState) (bh : Option (List Nat))
    (p0 : Nat) (iv0 : List Nat) (resp : String) (pos : Nat) (j : JLAPModel)
    (hpi : getPositionAndIv desc = Except.ok (p0, iv0))
    (hfetch : (fetchJlapWithRetry fetchFn p0).1 = Except.ok (resp, pos))
    (hnew : jlapNew fp pp resp iv0 = Except.ok j) :
    j.checksum = parseDigestHexD (responseLastLine resp)
    ∧ (∃ sN,
        (chainMac mac j.initialization_vector ((patchLinesOf j).map strBytes)).getLast?
          = some sN
        ∧ (sN = j.checksum → validateChecksum mac j = Except.ok sN)
        ∧ (sN ≠ j.checksum →
            validateChecksum mac j = Except.error JLAPError.ChecksumMismatch))
    ∧ (validateChecksum mac j = Except.error JLAPError.ChecksumMismatch ↔
        (chainMac mac j.initialization_vector ((patchLinesOf j).map strBytes)).getLast?
          ≠ some j.checksum)
    ∧ (∀ e applyFn, validateChecksum mac j = Except.error e →
        j.footer.latest.getD (List.replicate 32 0) ≠ bh.getD (List.replicate 32 0) →
        patchRepoData fp pp mac applyFn fetchFn desc bh = Except.error e) := by
  obtain ⟨hlines, hck, hne, hcp, -, -⟩ := jlapNew_ok_inv fp pp resp iv0 j hnew
  have hchain_ne :
      (chainMac mac j.initialization_vector ((patchLinesOf j).map strBytes)) ≠ [] := by
    intro hcon
    have := chainMac_length mac ((patchLinesOf j).map strBytes) j.initialization_vector
    rw [hcon] at this
    simp at this
    exact hne (by simpa using this.symm)
  obtain ⟨sN, hlast⟩ := Option.ne_none_iff_exists'.mp
    (mt List.getLast?_eq_none_iff.mp hchain_ne)
  have hval : validateChecksum mac j =
      (if sN ≠ j.checksum then Except.error JLAPError.ChecksumMismatch
       else Except.ok sN) := by
    have hplEq : (j.lines.take (j.lines.length - 2)).drop j.offset = patchLinesOf j := rfl
    simp only [validateChecksum, hplEq]
    rw [hlast]
  refine ⟨hck, ⟨sN, hlast, ?_, ?_⟩, ?_, ?_⟩
  · intro hEq; rw [hval, if_neg (by simpa using hEq)]
  · intro hNe; rw [hval, if_pos hNe]
  · constructor
    · intro hv
      rw [hval] at hv
      by_cases hNe : sN = j.checksum
      · rw [if_neg (by simpa using hNe)] at hv; exact absurd hv (by simp)
      · rw [hlast]; simpa using hNe
    · intro hv
      rw [hlast] at hv
      rw [hval, if_pos (by simpa using hv)]
  · intro e applyFn hv hne2
    simp only [patchRepoData, hpi]
    cases hfr : (fetchJlapWithRetry fetchFn p0).1 with
    | error e2 => rw [hfr] at hfetch; exact absurd hfetch (by simp)
    | ok pr =>
      rw [hfr] at hfetch
      cases hfetch
      simp only [hnew]
      rw [if_neg hne2, hv]

/-- C4 witness: on the concrete response `respWit` the chain value matches
the terminal checksum and `validate_checksum` returns it. -/
theorem c4_checksum_witness :
    validateChecksum macStub jWit = Except.ok (List.replicate 32 81) := by
  obtain ⟨-, hex, -, -⟩ := c4_checksum fpStub ppStub macStub
    (fetchScript [("bytes=0-", Except.ok respWit)]) none none 0 (List.replicate 32 0)
    respWit 0 jWit (by decide) (by decide) (by decide)
  obtain ⟨sN, hlast, hok, -⟩ := hex
  have hcomp : (chainMac macStub jWit.initialization_vector
      ((patchLinesOf jWit).map strBytes)).getLast? = some (List.replicate 32 81) := by
    decide
  rw [hcomp] at hlast
  injection hlast with h81
  rw [← h81] at hok
  exact hok (by decide)

/-- C5 (amended): on a successful run of `patch_repo_data`, the returned
position is the (possibly retry-reset) request position plus the byte length,
trailing newlines included, of all newly consumed lines before the footer -
that is, the patch lines plus the leading initialization-vector line when the
response carries one (the claim's "patch lines only" accounting is refuted by
the counterexample); the returned `iv` is the final running hash when patches
were applied, and the initialization vector in effect for the response when
the run returned early because `footer.latest` equals the current repodata
hash. -/
theorem c5_state (fp : String → Option JLAPFooter) (pp : String → Option Patch)
    (mac : List Nat → List Nat → List Nat)
    (applyFn : List Patch → List Nat → Except JLAPError Unit)
    (fetchFn : String → Except HttpError String)
    (desc : Option JLAPState) (bh : Option (List Nat))
    (p0 : Nat) (iv0 : List Nat) (resp : String) (pos : Nat) (j : JLAPModel)
    (hpi : getPositionAndIv desc = Except.ok (p0, iv0))
    (hfetch : (fetchJlapWithRetry fetchFn p0).1 = Except.ok (resp, pos))
    (hnew : jlapNew fp pp resp iv0 = Except.ok j) :
    j.bytes_offset = lineByteLenSum ((splitNl resp).take ((splitNl resp).length - 2))
    ∧ (j.footer.latest.getD (List.replicate 32 0) = bh.getD (List.replicate 32 0) →
        patchRepoData fp pp mac applyFn fetchFn desc bh =
          Except.ok ⟨pos + j.bytes_offset, hexEncode j.initialization_vector, j.footer⟩)
    ∧ (∀ sN, j.footer.latest.getD (List.replicate 32 0) ≠ bh.getD (List.replicate 32 0) →
        validateChecksum mac j = Except.ok sN →
        applyFn j.patches (bh.getD (List.replicate 32 0)) = Except.ok () →
        patchRepoData fp pp mac applyFn fetchFn desc bh =
          Except.ok ⟨pos + j.bytes_offset, hexEncode sN, j.footer⟩) := by
  obtain ⟨hlines, hck, hne, hcp, hlen, hbo⟩ := jlapNew_ok_inv fp pp resp iv0 j hnew
  have hpipe : ∀ z, patchRepoData fp pp mac applyFn fetchFn desc bh = z ↔
      ((if j.footer.latest.getD (List.replicate 32 0) = bh.getD (List.replicate 32 0)
        then Except.ok (jlapGetState j pos none)
        else
          match validateChecksum mac j with
          | Except.error e => Except.error e
          | Except.ok newIv =>
            match applyFn j.patches (bh.getD (List.replicate 32 0)) with
            | Except.error e => Except.error e
            | Except.ok _ => Except.ok (jlapGetState j pos (some newIv))) = z) := by
    intro z
    simp only [patchRepoData, hpi]
    cases hfr : (fetchJlapWithRetry fetchFn p0).1 with
    | error e2 => rw [hfr] at hfetch; exact absurd hfetch (by simp)
    | ok pr =>
      rw [hfr] at hfetch
      cases hfetch
      simp only [hnew]
  refine ⟨?_, ?_, ?_⟩
  · rw [hbo, getBytesOffset, if_pos (by omega), lineByteLenSum]
  · intro hEq
    rw [hpipe, if_pos hEq]
    simp [jlapGetState]
  · intro sN hNe hval happ
    rw [hpipe, if_neg hNe, hval, happ]
    simp [jlapGetState]

/-- C5 witness: a partial response with no leading iv line: the new position
advances by exactly the patch-line bytes and the new iv is the final running
hash. -/
theorem c5_state_witness :
    patchRepoData fpStub ppStub macStub applyOkStub
        (fetchScript [("bytes=0-", Except.ok respWit)]) none none =
      Except.ok ⟨0 + jWit.bytes_offset, hexEncode (List.replicate 32 81), jWit.footer⟩ := by
  have h := c5_state fpStub ppStub macStub applyOkStub
    (fetchScript [("bytes=0-", Except.ok respWit)]) none none 0 (List.replicate 32 0)
    respWit 0 jWit (by decide) (by decide) (by decide)
  exact h.2.2 (List.replicate 32 81) (by decide) (by decide) (by decide)

/-- C5 counterexample: when the response carries a leading iv line, the new
position also counts that line's bytes: here the request position is 0, the
patch lines (segment between iv line and footer) total 2 bytes with
newlines, yet the returned position is 5 (iv line `00` plus newline adds 3),
contradicting the claim's "old position plus the byte length of all newly
consumed patch lines". -/
theorem c5_counterexample :
    (patchRepoData fpStub ppStub macStub applyOkStub
        (fetchScript [("bytes=0-", Except.ok ("00\n" ++ respWit))]) none
        none).toOption.map JLAPState.pos = some 5 ∧
    lineByteLenSum (responsePatchSegment ("00\n" ++ respWit)) = 2 ∧
    (5 : Nat) ≠ 0 + 2 := by decide


theorem cutoffCheck_fc (ex : Option Int) (st : CandState) (x : RDRecord) :
    (cutoffCheck ex st x).firstChannel = st.firstChannel := by
  cases ex <;> cases ht : x.timestamp <;> simp only [cutoffCheck, ht] <;> try rfl
  split <;> rfl

theorem cutoffCheck_excl_sub (ex : Option Int) (st : CandState) (x : RDRecord)
    (e : RDRecord × ExcludeReason) (h : e ∈ st.excluded) :
    e ∈ (cutoffCheck ex st x).excluded := by
  cases ex <;> cases ht : x.timestamp <;> simp only [cutoffCheck, ht] <;> try exact h
  split
  · simp [h]
  · exact h

theorem strictCheck_fc_ne (cp : ChannelPriority) (st : CandState) (x : RDRecord)
    (n : String) (hne : n ≠ x.name) :
    lookupA (strictCheck cp st x).firstChannel n = lookupA st.firstChannel n := by
  simp only [strictCheck]
  cases hl : lookupA st.firstChannel x.name with
  | some c =>
    cases cp with
    | strict =>
      dsimp only
      split <;> rfl
    | disabled =>
      dsimp only
      exact lookupA_insertA_ne _ _ _ _ (fun h => hne h.symm)
  | none =>
    cases cp <;> dsimp only <;>
      exact lookupA_insertA_ne _ _ _ _ (fun h => hne h.symm)

theorem strictCheck_excl_sub (cp : ChannelPriority) (st : CandState) (x : RDRecord)
    (e : RDRecord × ExcludeReason) (h : e ∈ st.excluded) :
    e ∈ (strictCheck cp st x).excluded := by
  simp only [strictCheck]
  cases hl : lookupA st.firstChannel x.name with
  | some c =>
    cases cp with
    | strict =>
      dsimp only
      split
      · simp [h]
      · exact h
    | disabled => exact h
  | none => cases cp <;> exact h

theorem candStep_excl_mono (specs : List ChannelSpec) (ex : Option Int)
    (cp : ChannelPriority) (st : CandState) (x : RDRecord)
    (e : RDRecord × ExcludeReason) (h : e ∈ st.excluded) :
    e ∈ (candStep specs ex cp st x).excluded := by
  simp only [candStep]
  have h1 : e ∈ (cutoffCheck ex { st with candidates := st.candidates ++ [x] } x).excluded :=
    cutoffCheck_excl_sub ex _ x e h
  split
  · split
    · simp [h1]
    · exact strictCheck_excl_sub cp _ x e h1
  · exact strictCheck_excl_sub cp _ x e h1

theorem candGo_excl_mono (specs : List ChannelSpec) (ex : Option Int)
    (cp : ChannelPriority) (e : RDRecord × ExcludeReason) :
    ∀ (records : List RDRecord) (st : CandState), e ∈ st.excluded →
      e ∈ (candGo specs ex cp records st).excluded := by
  intro records
  induction records with
  | nil => intro st h; exact h
  | cons x rest ih =>
    intro st h
    exact ih (candStep specs ex cp st x) (candStep_excl_mono specs ex cp st x e h)


theorem candStep_nil_eq (ex : Option Int) (cp : ChannelPriority)
    (st : CandState) (x : RDRecord) :
    candStep [] ex cp st x =
      strictCheck cp (cutoffCheck ex { st with candidates := st.candidates ++ [x] } x) x := rfl

theorem candStep_nil_fc_ne (ex : Option Int) (cp : ChannelPriority)
    (st : CandState) (x : RDRecord) (n : String) (hne : n ≠ x.name) :
    lookupA (candStep [] ex cp st x).firstChannel n = lookupA st.firstChannel n := by
  rw [candStep_nil_eq, strictCheck_fc_ne cp _ x n hne, cutoffCheck_fc]

theorem candStep_nil_fc_self (ex : Option Int) (st : CandState) (x : RDRecord) :
    lookupA (candStep [] ex ChannelPriority.strict st x).firstChannel x.name =
      some ((lookupA st.firstChannel x.name).getD x.channel) := by
  rw [candStep_nil_eq]
  simp only [strictCheck, cutoffCheck_fc]
  cases hl : lookupA st.firstChannel x.name with
  | some c =>
    dsimp only
    split
    · simpa using hl
    · simpa using hl
  | none =>
    simp [lookupA_insertA_self, cutoffCheck_fc]

theorem candStep_nil_strict_excl (ex : Option Int) (st : CandState) (x : RDRecord)
    (c : String) (hc : lookupA st.firstChannel x.name = some c)
    (hne : c ≠ x.channel) :
    (x, ExcludeReason.strictPriority x.channel) ∈
      (candStep [] ex ChannelPriority.strict st x).excluded := by
  rw [candStep_nil_eq]
  simp only [strictCheck, cutoffCheck_fc, hc]
  rw [if_pos hne]
  simp


theorem firstChannelOf_cons_self (x : RDRecord) (rest : List RDRecord) (n : String)
    (h : x.name = n) : firstChannelOf (x :: rest) n = some x.channel := by
  simp only [firstChannelOf]
  rw [List.find?_cons_of_pos _ (by simp [h])]
  rfl

theorem firstChannelOf_cons_ne (x : RDRecord) (rest : List RDRecord) (n : String)
    (h : x.name ≠ n) : firstChannelOf (x :: rest) n = firstChannelOf rest n := by
  simp only [firstChannelOf]
  rw [List.find?_cons_of_neg _ (by simp [h])]

theorem candGo_strict_core (ex : Option Int) (r : RDRecord) (c : String)
    (hne : r.channel ≠ c) :
    ∀ (records : List RDRecord) (st : CandState), r ∈ records →
      (lookupA st.firstChannel r.name = some c ∨
        (lookupA st.firstChannel r.name = none ∧
          firstChannelOf records r.name = some c)) →
      (r, ExcludeReason.strictPriority r.channel) ∈
        (candGo [] ex ChannelPriority.strict records st).excluded := by
  intro records
  induction records with
  | nil => intro st hmem; exact absurd hmem (by simp)
  | cons x rest ih =>
    intro st hmem hfc
    rcases hfc with hsome | ⟨hnone, hfirst⟩
    · by_cases hxr : x = r
      · subst hxr
        have hstep := candStep_nil_strict_excl ex st x c hsome (fun h => hne h.symm)
        exact candGo_excl_mono [] ex ChannelPriority.strict _ rest _ hstep
      · have hmem' : r ∈ rest := by
          rcases List.mem_cons.mp hmem with h | h
          · exact absurd h.symm hxr
          · exact h
        apply ih _ hmem'
        left
        by_cases hname : r.name = x.name
        · rw [hname, candStep_nil_fc_self]
          rw [← hname, hsome]
          rfl
        · rw [candStep_nil_fc_ne ex ChannelPriority.strict st x r.name hname]
          exact hsome
    · by_cases hname : x.name = r.name
      · have hc : c = x.channel := by
          rw [firstChannelOf_cons_self x rest r.name hname] at hfirst
          exact (Option.some_inj.mp hfirst).symm
        have hxr : x ≠ r := by
          intro hxr
          subst hxr
          exact hne (hc ▸ rfl)
        have hmem' : r ∈ rest := by
          rcases List.mem_cons.mp hmem with h | h
          · exact absurd h.symm hxr
          · exact h
        apply ih _ hmem'
        left
        rw [← hname, candStep_nil_fc_self]
        rw [hname, hnone]
        rw [hc]
        rfl
      · have hmem' : r ∈ rest := by
          rcases List.mem_cons.mp hmem with h | h
          · exact absurd (h ▸ rfl) hname
          · exact h
        apply ih _ hmem'
        right
        constructor
        · rw [candStep_nil_fc_ne ex ChannelPriority.strict st x r.name (fun h => hname h.symm)]
          exact hnone
        · rw [firstChannelOf_cons_ne x rest r.name hname] at hfirst
          exact hfirst

/-- C7 (amended): with strict channel priority and no channel-specific specs
in play, every candidate record whose channel differs from the channel of
the first record of its name (in the given record order) is pushed on the
excluded list with the strict-channel-priority reason, and is therefore not
selectable in any solution (the resolvo solver, modelled from the spec,
never selects an excluded candidate).  When a channel-specific spec matches
the name, the record that first carries the name may be skipped before it
can register its channel, and the claim fails as stated - see the
counterexample. -/
theorem c7_strict_priority (ex : Option Int) (records : List RDRecord)
    (r : RDRecord) (c : String)
    (hmem : r ∈ records)
    (hfirst : firstChannelOf records r.name = some c)
    (hne : r.channel ≠ c) :
    (r, ExcludeReason.strictPriority r.channel) ∈
      (candGo [] ex ChannelPriority.strict records emptyCandState).excluded
    ∧ ¬ SelectableIn (candGo [] ex ChannelPriority.strict records emptyCandState) r := by
  have h := candGo_strict_core ex r c hne records emptyCandState hmem
    (Or.inr ⟨rfl, hfirst⟩)
  exact ⟨h, fun hsel => hsel.2 _ h⟩

/-- C7 witness: two records of `foo` in channel order; the one from the
later channel is excluded by strict priority. -/
theorem c7_strict_priority_witness :
    ((⟨"foo", "chanB", "foo-2.conda", none⟩ : RDRecord),
      ExcludeReason.strictPriority "chanB") ∈
      (candGo [] none ChannelPriority.strict
        [⟨"foo", "chanA", "foo-1.conda", none⟩, ⟨"foo", "chanB", "foo-2.conda", none⟩]
        emptyCandState).excluded :=
  (c7_strict_priority none
    [⟨"foo", "chanA", "foo-1.conda", none⟩, ⟨"foo", "chanB", "foo-2.conda", none⟩]
    ⟨"foo", "chanB", "foo-2.conda", none⟩ "chanA"
    (by decide) (by decide) (by decide)).1

/-- C7 counterexample: a channel-specific spec binding `foo` to `chanB`
makes the first-appearing record (from `chanA`) be skipped before it can
register its channel, so the `chanB` record - whose channel differs from the
first channel in which a record of the name appeared - is NOT excluded,
refuting the claim as stated. -/
theorem c7_counterexample :
    firstChannelOf
        [(⟨"foo", "chanA", "foo-1.conda", none⟩ : RDRecord),
         ⟨"foo", "chanB", "foo-2.conda", none⟩] "foo" = some "chanA" ∧
    (⟨"foo", "chanB", "foo-2.conda", none⟩ : RDRecord).channel ≠ "chanA" ∧
    (⟨"foo", "chanB", "foo-2.conda", none⟩ : RDRecord) ∈
      (candGo [⟨"foo", "chanB", none⟩] none ChannelPriority.strict
        [⟨"foo", "chanA", "foo-1.conda", none⟩, ⟨"foo", "chanB", "foo-2.conda", none⟩]
        emptyCandState).candidates ∧
    (candGo [⟨"foo", "chanB", none⟩] none ChannelPriority.strict
        [⟨"foo", "chanA", "foo-1.conda", none⟩, ⟨"foo", "chanB", "foo-2.conda", none⟩]
        emptyCandState).excluded =
      [(⟨"foo", "chanA", "foo-1.conda", none⟩,
        ExcludeReason.notInRequestedChannel "chanB")] := by decide

theorem dedupStep_lookup_none (ex : Option Int) (ordered : List RDRecord)
    (ptt : List (String × (ArchiveType × Nat × Bool))) (x : RDRecord)
    (h : lookupA ptt (stemOf x) = none) :
    dedupStep ex (ordered, ptt) x =
      Except.ok (ordered ++ [x],
        insertA ptt (stemOf x) (typeOf x, ordered.length, recordExcluded ex x)) := by
  simp only [dedupStep]
  rw [show lookupA ptt (splitOrDefault x.file_name).1 = none from h]
  rfl

theorem dedupStep_lookup_some (ex : Option Int) (ordered : List RDRecord)
    (ptt : List (String × (ArchiveType × Nat × Bool))) (x : RDRecord)
    (t : ArchiveType) (idx : Nat) (b : Bool)
    (h : lookupA ptt (stemOf x) = some (t, idx, b)) :
    dedupStep ex (ordered, ptt) x =
      (if b ∧ ¬(recordExcluded ex x) then
        Except.ok (ordered.set idx x, insertA ptt (stemOf x) (typeOf x, idx, false))
      else if (recordExcluded ex x) ∧ ¬b then Except.ok (ordered, ptt)
      else
        match archiveCmp (typeOf x) t with
        | Ordering.gt =>
          Except.ok (ordered.set idx x,
            insertA ptt (stemOf x) (typeOf x, idx, recordExcluded ex x))
        | Ordering.lt => Except.ok (ordered, ptt)
        | Ordering.eq => Except.error (SolveError.duplicateRecords x.file_name)) := by
  simp only [dedupStep]
  rw [show lookupA ptt (splitOrDefault x.file_name).1 = some (t, idx, b) from h]
  rfl

theorem dedupInv_replace (ex : Option Int) (x : RDRecord) (ordered : List RDRecord)
    (ptt : List (String × (ArchiveType × Nat × Bool)))
    (t0 : ArchiveType) (idx0 : Nat) (b0 : Bool) (flag : Bool)
    (hInv : DedupInv ex ordered ptt)
    (hl : lookupA ptt (stemOf x) = some (t0, idx0, b0))
    (hflag : flag = recordExcluded ex x) :
    DedupInv ex (ordered.set idx0 x) (insertA ptt (stemOf x) (typeOf x, idx0, flag)) := by
  obtain ⟨h1, h2⟩ := hInv
  obtain ⟨r0, hr0, hstem0⟩ := h2 (stemOf x) t0 idx0 b0 hl
  have hidx0 : idx0 < ordered.length := (List.getElem?_eq_some.mp hr0).1
  constructor
  · intro r idx hr
    by_cases hii : idx0 = idx
    · subst hii
      rw [List.getElem?_set_eq hidx0] at hr
      cases hr
      rw [lookupA_insertA_self, hflag]
    · rw [List.getElem?_set_ne hii] at hr
      have hold := h1 r idx hr
      have hne : stemOf r ≠ stemOf x := by
        intro he
        rw [he, hl] at hold
        injection hold with hold2
        cases hold2
        exact hii rfl
      rw [lookupA_insertA_ne _ _ _ _ (fun hh => hne hh.symm)]
      exact hold
  · intro s t i b hs
    by_cases hsx : s = stemOf x
    · subst hsx
      rw [lookupA_insertA_self] at hs
      injection hs with hs2
      cases hs2
      exact ⟨x, by rw [List.getElem?_set_eq hidx0], rfl⟩
    · rw [lookupA_insertA_ne _ _ _ _ (fun hh => hsx hh.symm)] at hs
      obtain ⟨r, hr, hstem⟩ := h2 s t i b hs
      have hii : idx0 ≠ i := by
        intro he
        subst he
        rw [hr0] at hr
        cases hr
        exact hsx (by rw [← hstem, hstem0])
      exact ⟨r, by rw [List.getElem?_set_ne hii]; exact hr, hstem⟩

theorem dedupStep_inv (ex : Option Int) (x : RDRecord) (ordered : List RDRecord)
    (ptt : List (String × (ArchiveType × Nat × Bool)))
    (hInv : DedupInv ex ordered ptt)
    (st' : List RDRecord × List (String × (ArchiveType × Nat × Bool)))
    (hstep : dedupStep ex (ordered, ptt) x = Except.ok st') :
    DedupInv ex st'.1 st'.2 := by
  obtain ⟨h1, h2⟩ := hInv
  cases hl : lookupA ptt (stemOf x) with
  | none =>
    rw [dedupStep_lookup_none ex ordered ptt x hl] at hstep
    cases hstep
    constructor
    · intro r idx hr
      by_cases hidx : idx < ordered.length
      · rw [List.getElem?_append_left hidx] at hr
        have hold := h1 r idx hr
        have hne : stemOf r ≠ stemOf x := by
          intro he
          rw [he, hl] at hold
          exact absurd hold (by simp)
        rw [lookupA_insertA_ne _ _ _ _ (fun hh => hne hh.symm)]
        exact hold
      · have hge : ordered.length ≤ idx := Nat.le_of_not_lt hidx
        rw [List.getElem?_append_right hge] at hr
        have hlt := (List.getElem?_eq_some.mp hr).1
        simp only [List.length_singleton] at hlt
        have h0 : idx - ordered.length = 0 := by omega
        rw [h0] at hr
        simp only [List.getElem?_cons_zero] at hr
        cases hr
        have hidxeq : idx = ordered.length := by omega
        rw [hidxeq, lookupA_insertA_self]
    · intro s t i b hs
      by_cases hsx : s = stemOf x
      · subst hsx
        rw [lookupA_insertA_self] at hs
        injection hs with hs2
        cases hs2
        exact ⟨x, List.getElem?_concat_length ordered x, rfl⟩
      · rw [lookupA_insertA_ne _ _ _ _ (fun hh => hsx hh.symm)] at hs
        obtain ⟨r, hr, hstem⟩ := h2 s t i b hs
        have hi : i < ordered.length := (List.getElem?_eq_some.mp hr).1
        exact ⟨r, by rw [List.getElem?_append_left hi]; exact hr, hstem⟩
  | some v =>
    obtain ⟨t0, idx0, b0⟩ := v
    rw [dedupStep_lookup_some ex ordered ptt x t0 idx0 b0 hl] at hstep
    by_cases hc1 : b0 = true ∧ ¬(recordExcluded ex x) = true
    · rw [if_pos hc1] at hstep
      cases hstep
      exact dedupInv_replace ex x ordered ptt t0 idx0 b0 false ⟨h1, h2⟩ hl
        (by cases hrec : recordExcluded ex x
            · rfl
            · exact absurd hrec hc1.2)
    · rw [if_neg hc1] at hstep
      by_cases hc2 : (recordExcluded ex x) = true ∧ ¬b0 = true
      · rw [if_pos hc2] at hstep
        cases hstep
        exact ⟨h1, h2⟩
      · rw [if_neg hc2] at hstep
        cases hcmp : archiveCmp (typeOf x) t0 with
        | gt =>
          rw [hcmp] at hstep
          cases hstep
          exact dedupInv_replace ex x ordered ptt t0 idx0 b0 (recordExcluded ex x)
            ⟨h1, h2⟩ hl rfl
        | lt =>
          rw [hcmp] at hstep
          cases hstep
          exact ⟨h1, h2⟩
        | eq =>
          rw [hcmp] at hstep
          exact absurd hstep (by simp)

theorem dedupStep_avoid (ex : Option Int) (s : String) (x : RDRecord)
    (ordered : List RDRecord) (ptt : List (String × (ArchiveType × Nat × Bool)))
    (hx : stemOf x ≠ s) (hInv : DedupInv ex ordered ptt)
    (st1 : List RDRecord × List (String × (ArchiveType × Nat × Bool)))
    (hstep : dedupStep ex (ordered, ptt) x = Except.ok st1) :
    lookupA st1.2 s = lookupA ptt s ∧
    (∀ idx t b, lookupA ptt s = some (t, idx, b) → st1.1[idx]? = ordered[idx]?) := by
  obtain ⟨h1, h2⟩ := hInv
  cases hl : lookupA ptt (stemOf x) with
  | none =>
    rw [dedupStep_lookup_none ex ordered ptt x hl] at hstep
    cases hstep
    refine ⟨lookupA_insertA_ne _ _ _ _ hx, ?_⟩
    intro idx t b hs
    obtain ⟨r, hr, hstem⟩ := h2 s t idx b hs
    have hi : idx < ordered.length := (List.getElem?_eq_some.mp hr).1
    exact List.getElem?_append_left hi
  | some v =>
    obtain ⟨t0, idx0, b0⟩ := v
    have hslot : ∀ idx t b, lookupA ptt s = some (t, idx, b) → idx0 ≠ idx := by
      intro idx t b hs he
      subst he
      obtain ⟨r, hr, hstem⟩ := h2 s t idx0 b hs
      obtain ⟨r0, hr0, hstem0⟩ := h2 (stemOf x) t0 idx0 b0 hl
      rw [hr0] at hr
      cases hr
      exact hx (by rw [← hstem, hstem0])
    rw [dedupStep_lookup_some ex ordered ptt x t0 idx0 b0 hl] at hstep
    by_cases hc1 : b0 = true ∧ ¬(recordExcluded ex x) = true
    · rw [if_pos hc1] at hstep
      cases hstep
      refine ⟨lookupA_insertA_ne _ _ _ _ hx, ?_⟩
      intro idx t b hs
      exact List.getElem?_set_ne (hslot idx t b hs)
    · rw [if_neg hc1] at hstep
      by_cases hc2 : (recordExcluded ex x) = true ∧ ¬b0 = true
      · rw [if_pos hc2] at hstep
        cases hstep
        exact ⟨rfl, fun _ _ _ _ => rfl⟩
      · rw [if_neg hc2] at hstep
        cases hcmp : archiveCmp (typeOf x) t0 with
        | gt =>
          rw [hcmp] at hstep
          cases hstep
          refine ⟨lookupA_insertA_ne _ _ _ _ hx, ?_⟩
          intro idx t b hs
          exact List.getElem?_set_ne (hslot idx t b hs)
        | lt =>
          rw [hcmp] at hstep
          cases hstep
          exact ⟨rfl, fun _ _ _ _ => rfl⟩
        | eq =>
          rw [hcmp] at hstep
          exact absurd hstep (by simp)

theorem dedupGo_avoid (ex : Option Int) (s : String) :
    ∀ (rest : List RDRecord) (ordered : List RDRecord)
      (ptt : List (String × (ArchiveType × Nat × Bool))),
      (∀ x ∈ rest, stemOf x ≠ s) → DedupInv ex ordered ptt →
      ∀ st', dedupGo ex rest (ordered, ptt) = Except.ok st' →
        DedupInv ex st'.1 st'.2 ∧
        lookupA st'.2 s = lookupA ptt s ∧
        (∀ idx t b, lookupA ptt s = some (t, idx, b) → st'.1[idx]? = ordered[idx]?) := by
  intro rest
  induction rest with
  | nil =>
    intro ordered ptt havoid hInv st' hgo
    simp only [dedupGo] at hgo
    cases hgo
    exact ⟨hInv, rfl, fun _ _ _ _ => rfl⟩
  | cons x rest' ih =>
    intro ordered ptt havoid hInv st' hgo
    simp only [dedupGo] at hgo
    cases hstep : dedupStep ex (ordered, ptt) x with
    | error e => rw [hstep] at hgo; exact absurd hgo (by simp)
    | ok st1 =>
      rw [hstep] at hgo
      have hInv1 := dedupStep_inv ex x ordered ptt hInv st1 hstep
      have havoid1 := dedupStep_avoid ex s x ordered ptt
        (havoid x (List.mem_cons_self x rest')) hInv st1 hstep
      obtain ⟨st1a, st1b⟩ := st1
      have hres := ih st1a st1b (fun y hy => havoid y (List.mem_cons_of_mem x hy)) hInv1 st' hgo
      refine ⟨hres.1, ?_, ?_⟩
      · rw [hres.2.1, havoid1.1]
      · intro idx t b hs
        have hs1 : lookupA st1b s = some (t, idx, b) := by rw [havoid1.1]; exact hs
        rw [hres.2.2 idx t b hs1, havoid1.2 idx t b hs]

theorem dedupGo_append (ex : Option Int) :
    ∀ (A B : List RDRecord) (st : List RDRecord × List (String × (ArchiveType × Nat × Bool))),
      dedupGo ex (A ++ B) st =
        (match dedupGo ex A st with
         | Except.error e => Except.error e
         | Except.ok st1 => dedupGo ex B st1) := by
  intro A
  induction A with
  | nil => intro B st; rfl
  | cons x rest ih =>
    intro B st
    simp only [List.cons_append, dedupGo]
    cases dedupStep ex st x with
    | error e => rfl
    | ok st1 => exact ih B st1

theorem c8_mid (ex : Option Int) (pre mid : List RDRecord) (r1 : RDRecord)
    (hpre : ∀ x ∈ pre, stemOf x ≠ stemOf r1)
    (hmid : ∀ x ∈ mid, stemOf x ≠ stemOf r1) :
    ∀ stb, dedupGo ex (pre ++ r1 :: mid) ([], []) = Except.ok stb →
      DedupInv ex stb.1 stb.2 ∧
      ∃ lenP, lookupA stb.2 (stemOf r1) =
          some (typeOf r1, lenP, recordExcluded ex r1) ∧
        stb.1[lenP]? = some r1 := by
  intro stb hgo
  rw [dedupGo_append] at hgo
  cases hpr : dedupGo ex pre ([], []) with
  | error e => rw [hpr] at hgo; exact absurd hgo (by simp)
  | ok stp =>
    rw [hpr] at hgo
    have hInv0 : DedupInv ex ([] : List RDRecord) [] := by
      constructor
      · intro r idx h; simp at h
      · intro s t i b h; simp [lookupA] at h
    obtain ⟨hInvP, hlookP, -⟩ :=
      dedupGo_avoid ex (stemOf r1) pre [] [] hpre hInv0 stp hpr
    obtain ⟨spa, spb⟩ := stp
    have hlookP' : lookupA spb (stemOf r1) = none := by
      rw [hlookP]; rfl
    simp only [dedupGo] at hgo
    rw [dedupStep_lookup_none ex spa spb r1 hlookP'] at hgo
    have hInvA := dedupStep_inv ex r1 spa spb hInvP
      (spa ++ [r1], insertA spb (stemOf r1) (typeOf r1, spa.length, recordExcluded ex r1))
      (dedupStep_lookup_none ex spa spb r1 hlookP')
    obtain ⟨hInvB, hlookB, hslotB⟩ :=
      dedupGo_avoid ex (stemOf r1) mid (spa ++ [r1])
        (insertA spb (stemOf r1) (typeOf r1, spa.length, recordExcluded ex r1))
        hmid hInvA stb hgo
    refine ⟨hInvB, spa.length, ?_, ?_⟩
    · rw [hlookB, lookupA_insertA_self]
    · rw [hslotB spa.length (typeOf r1) (recordExcluded ex r1) (lookupA_insertA_self _ _ _)]
      exact List.getElem?_concat_length spa r1

theorem c8_post (ex : Option Int) (post : List RDRecord) (s : String)
    (hpost : ∀ x ∈ post, stemOf x ≠ s)
    (stc : List RDRecord × List (String × (ArchiveType × Nat × Bool)))
    (hInvC : DedupInv ex stc.1 stc.2)
    (tK : ArchiveType) (lenP : Nat) (bK : Bool) (kept : RDRecord)
    (hlookC : lookupA stc.2 s = some (tK, lenP, bK))
    (hslotC : stc.1[lenP]? = some kept)
    (stF : List RDRecord × List (String × (ArchiveType × Nat × Bool)))
    (hgo : dedupGo ex post stc = Except.ok stF) :
    kept ∈ stF.1 ∧
    ∀ r', stemOf r' = s → (typeOf r' ≠ tK ∨ recordExcluded ex r' ≠ bK) →
      r' ∉ stF.1 := by
  obtain ⟨stca, stcb⟩ := stc
  obtain ⟨hInvF, hlookF, hslotF⟩ :=
    dedupGo_avoid ex s post stca stcb hpost hInvC stF hgo
  constructor
  · have : stF.1[lenP]? = some kept := by
      rw [hslotF lenP tK bK hlookC]; exact hslotC
    exact List.getElem?_mem this
  · intro r' hstem' hdiff hmem
    obtain ⟨n, hn, hget⟩ := List.getElem_of_mem hmem
    have hget? : stF.1[n]? = some r' := by
      rw [List.getElem?_eq_getElem hn, hget]
    have hlook' := hInvF.1 r' n hget?
    rw [hstem', hlookF, hlookC] at hlook'
    injection hlook' with h3
    cases h3
    rcases hdiff with h | h
    · exact h rfl
    · exact h rfl

theorem c8_run (ex : Option Int) (pre mid post : List RDRecord) (r1 r2 : RDRecord)
    (hpre : ∀ x ∈ pre, stemOf x ≠ stemOf r1)
    (hmid : ∀ x ∈ mid, stemOf x ≠ stemOf r1)
    (out : List RDRecord)
    (hout : dedupRecords ex ((pre ++ r1 :: mid) ++ r2 :: post) = Except.ok out) :
    ∃ stb lenP stc stF,
      dedupGo ex (pre ++ r1 :: mid) ([], []) = Except.ok stb ∧
      DedupInv ex stb.1 stb.2 ∧
      lookupA stb.2 (stemOf r1) = some (typeOf r1, lenP, recordExcluded ex r1) ∧
      stb.1[lenP]? = some r1 ∧
      dedupStep ex stb r2 = Except.ok stc ∧
      dedupGo ex post stc = Except.ok stF ∧
      out = stF.1 := by
  simp only [dedupRecords] at hout
  cases hall : dedupGo ex ((pre ++ r1 :: mid) ++ r2 :: post) ([], []) with
  | error e => rw [hall] at hout; exact absurd hout (by simp)
  | ok stF =>
    rw [hall] at hout
    have hout1 : out = stF.1 := by
      injection hout with h; exact h.symm
    rw [dedupGo_append] at hall
    cases hA : dedupGo ex (pre ++ r1 :: mid) ([], []) with
    | error e => rw [hA] at hall; exact absurd hall (by simp)
    | ok stb =>
      rw [hA] at hall
      simp only [dedupGo] at hall
      cases hstep : dedupStep ex stb r2 with
      | error e => rw [hstep] at hall; exact absurd hall (by simp)
      | ok stc =>
        rw [hstep] at hall
        obtain ⟨hInvB, lenP, hlookB, hslotB⟩ := c8_mid ex pre mid r1 hpre hmid stb hA
        exact ⟨stb, lenP, stc, stF, rfl, hInvB, hlookB, hslotB, hstep, hall, hout1⟩

/-- C8: in one repodata set, when exactly two records share a file stem, the
dedup loop keeps the `.conda` variant and drops the `.tar.bz2` variant when
their exclusion statuses agree; a non-excluded variant is preferred over an
excluded one regardless of archive type; and when the two records tie on
archive type and neither is excluded, candidate construction fails with
`DuplicateRecords` naming the second record's file. -/
theorem c8_archive_dedup (ex : Option Int) (pre mid post : List RDRecord)
    (r1 r2 : RDRecord)
    (hstem : stemOf r2 = stemOf r1)
    (hpre : ∀ x ∈ pre, stemOf x ≠ stemOf r1)
    (hmid : ∀ x ∈ mid, stemOf x ≠ stemOf r1)
    (hpost : ∀ x ∈ post, stemOf x ≠ stemOf r1) :
    (typeOf r1 ≠ typeOf r2 → recordExcluded ex r1 = recordExcluded ex r2 →
      ∀ out, dedupRecords ex ((pre ++ r1 :: mid) ++ r2 :: post) = Except.ok out →
        (typeOf r1 = ArchiveType.conda → r1 ∈ out ∧ r2 ∉ out)
        ∧ (typeOf r2 = ArchiveType.conda → r2 ∈ out ∧ r1 ∉ out))
    ∧ (recordExcluded ex r1 = false → recordExcluded ex r2 = true →
      ∀ out, dedupRecords ex ((pre ++ r1 :: mid) ++ r2 :: post) = Except.ok out →
        r1 ∈ out ∧ r2 ∉ out)
    ∧ (recordExcluded ex r1 = true → recordExcluded ex r2 = false →
      ∀ out, dedupRecords ex ((pre ++ r1 :: mid) ++ r2 :: post) = Except.ok out →
        r2 ∈ out ∧ r1 ∉ out)
    ∧ (typeOf r1 = typeOf r2 → recordExcluded ex r1 = false →
        recordExcluded ex r2 = false →
      ∀ stb, dedupGo ex (pre ++ r1 :: mid) ([], []) = Except.ok stb →
        dedupRecords ex ((pre ++ r1 :: mid) ++ r2 :: post) =
          Except.error (SolveError.duplicateRecords r2.file_name)) := by
  refine ⟨?_, ?_, ?_, ?_⟩
  · -- different archive types, equal exclusion status
    intro htype hexcl out hout
    obtain ⟨stb, lenP, stc, stF, hA, hInvB, hlookB, hslotB, hstep, hall, hout1⟩ :=
      c8_run ex pre mid post r1 r2 hpre hmid out hout
    obtain ⟨sba, sbb⟩ := stb
    have hlook2 : lookupA sbb (stemOf r2) =
        some (typeOf r1, lenP, recordExcluded ex r1) := by
      rw [hstem]; exact hlookB
    rw [dedupStep_lookup_some ex sba sbb r2 (typeOf r1) lenP
      (recordExcluded ex r1) hlook2] at hstep
    rw [if_neg (by rintro ⟨ha, hb⟩; rw [hexcl] at ha; exact hb ha)] at hstep
    rw [if_neg (by rintro ⟨ha, hb⟩; rw [← hexcl] at ha; exact hb ha)] at hstep
    have hlen : lenP < sba.length := (List.getElem?_eq_some.mp hslotB).1
    constructor
    · intro hc1
      have hc2 : typeOf r2 = ArchiveType.tarBz2 := by
        cases ht2 : typeOf r2
        · rfl
        · exact absurd (hc1.trans ht2.symm) htype
      rw [show archiveCmp (typeOf r2) (typeOf r1) = Ordering.lt from
        by rw [hc1, hc2]; rfl] at hstep
      cases hstep
      obtain ⟨hkept, hloser⟩ := c8_post ex post (stemOf r1) hpost (sba, sbb)
        hInvB (typeOf r1) lenP (recordExcluded ex r1) r1 hlookB hslotB stF hall
      rw [hout1]
      exact ⟨hkept, hloser r2 hstem (Or.inl (fun h => htype h.symm))⟩
    · intro hc2
      have hc1 : typeOf r1 = ArchiveType.tarBz2 := by
        cases ht1 : typeOf r1
        · rfl
        · exact absurd (ht1.trans hc2.symm) htype
      rw [show archiveCmp (typeOf r2) (typeOf r1) = Ordering.gt from
        by rw [hc1, hc2]; rfl] at hstep
      cases hstep
      obtain ⟨hkept, hloser⟩ := c8_post ex post (stemOf r1) hpost
        (sba.set lenP r2, insertA sbb (stemOf r2)
          (typeOf r2, lenP, recordExcluded ex r2))
        (dedupStep_inv ex r2 sba sbb hInvB _
          (by rw [dedupStep_lookup_some ex sba sbb r2 (typeOf r1) lenP
                (recordExcluded ex r1) hlook2]
              rw [if_neg (by rintro ⟨ha, hb⟩; rw [hexcl] at ha; exact hb ha)]
              rw [if_neg (by rintro ⟨ha, hb⟩; rw [← hexcl] at ha; exact hb ha)]
              rw [show archiveCmp (typeOf r2) (typeOf r1) = Ordering.gt from
                by rw [hc1, hc2]; rfl]))
        (typeOf r2) lenP (recordExcluded ex r2) r2
        (by rw [hstem, lookupA_insertA_self])
        (by exact List.getElem?_set_eq hlen) stF hall
      rw [hout1]
      exact ⟨hkept, hloser r1 rfl (Or.inl (fun h => htype h))⟩
  · -- first non-excluded, second excluded: keep the first
    intro hb1 hb2 out hout
    obtain ⟨stb, lenP, stc, stF, hA, hInvB, hlookB, hslotB, hstep, hall, hout1⟩ :=
      c8_run ex pre mid post r1 r2 hpre hmid out hout
    obtain ⟨sba, sbb⟩ := stb
    have hlook2 : lookupA sbb (stemOf r2) =
        some (typeOf r1, lenP, recordExcluded ex r1) := by
      rw [hstem]; exact hlookB
    rw [dedupStep_lookup_some ex sba sbb r2 (typeOf r1) lenP
      (recordExcluded ex r1) hlook2] at hstep
    rw [if_neg (by rintro ⟨ha, hb⟩; rw [hb1] at ha; exact absurd ha (by simp))] at hstep
    rw [if_pos ⟨hb2, by rw [hb1]; simp⟩] at hstep
    cases hstep
    obtain ⟨hkept, hloser⟩ := c8_post ex post (stemOf r1) hpost (sba, sbb)
      hInvB (typeOf r1) lenP (recordExcluded ex r1) r1 hlookB hslotB stF hall
    rw [hout1]
    refine ⟨hkept, hloser r2 hstem (Or.inr ?_)⟩
    rw [hb1, hb2]
    simp
  · -- first excluded, second non-excluded: replace with the second
    intro hb1 hb2 out hout
    obtain ⟨stb, lenP, stc, stF, hA, hInvB, hlookB, hslotB, hstep, hall, hout1⟩ :=
      c8_run ex pre mid post r1 r2 hpre hmid out hout
    obtain ⟨sba, sbb⟩ := stb
    have hlook2 : lookupA sbb (stemOf r2) =
        some (typeOf r1, lenP, recordExcluded ex r1) := by
      rw [hstem]; exact hlookB
    have hlen : lenP < sba.length := (List.getElem?_eq_some.mp hslotB).1
    rw [dedupStep_lookup_some ex sba sbb r2 (typeOf r1) lenP
      (recordExcluded ex r1) hlook2] at hstep
    rw [if_pos ⟨hb1, by rw [hb2]; simp⟩] at hstep
    cases hstep
    obtain ⟨hkept, hloser⟩ := c8_post ex post (stemOf r1) hpost
      (sba.set lenP r2, insertA sbb (stemOf r2) (typeOf r2, lenP, false))
      (dedupStep_inv ex r2 sba sbb hInvB _
        (by rw [dedupStep_lookup_some ex sba sbb r2 (typeOf r1) lenP
              (recordExcluded ex r1) hlook2]
            rw [if_pos ⟨hb1, by rw [hb2]; simp⟩]))
      (typeOf r2) lenP false r2
      (by rw [hstem, lookupA_insertA_self])
      (by exact List.getElem?_set_eq hlen) stF hall
    rw [hout1]
    refine ⟨hkept, hloser r1 rfl (Or.inr ?_)⟩
    rw [hb1]
    simp
  · -- tie with neither excluded: DuplicateRecords
    intro htype hb1 hb2 stb hA
    obtain ⟨hInvB, lenP, hlookB, hslotB⟩ := c8_mid ex pre mid r1 hpre hmid stb hA
    obtain ⟨sba, sbb⟩ := stb
    have hlook2 : lookupA sbb (stemOf r2) =
        some (typeOf r1, lenP, recordExcluded ex r1) := by
      rw [hstem]; exact hlookB
    have hstep : dedupStep ex (sba, sbb) r2 =
        Except.error (SolveError.duplicateRecords r2.file_name) := by
      rw [dedupStep_lookup_some ex sba sbb r2 (typeOf r1) lenP
        (recordExcluded ex r1) hlook2]
      rw [if_neg (by rintro ⟨ha, hb⟩; rw [hb1] at ha; exact absurd ha (by simp))]
      rw [if_neg (by rintro ⟨ha, hb⟩; rw [hb2] at ha; exact absurd ha (by simp))]
      rw [show archiveCmp (typeOf r2) (typeOf r1) = Ordering.eq from
        by rw [← htype]; cases typeOf r1 <;> rfl]
    simp only [dedupRecords]
    rw [dedupGo_append, hA]
    simp only [dedupGo]
    rw [hstep]

/-- C8 witness: a `.tar.bz2` / `.conda` pair with the same stem: the `.conda`
variant is kept, the `.tar.bz2` variant dropped. -/
theorem c8_archive_dedup_witness :
    (⟨"zstd", "c", "zstd-1.conda", none⟩ : RDRecord) ∈
      [(⟨"zstd", "c", "zstd-1.conda", none⟩ : RDRecord)] ∧
    (⟨"zstd", "c", "zstd-1.tar.bz2", none⟩ : RDRecord) ∉
      [(⟨"zstd", "c", "zstd-1.conda", none⟩ : RDRecord)] := by
  have h := c8_archive_dedup none [] [] []
    ⟨"zstd", "c", "zstd-1.tar.bz2", none⟩ ⟨"zstd", "c", "zstd-1.conda", none⟩
    (by decide) (by decide) (by decide) (by decide)
  exact (h.1 (by decide) (by decide)
    [⟨"zstd", "c", "zstd-1.conda", none⟩] (by decide)).2 (by decide)


theorem registerPathsStep_eq_skip (i : Nat) (name : String)
    (st : ClobberRegistry × List (String × String)) (q : String)
    (h : lookupA st.1.paths_registry q = some i) :
    registerPathsStep i name st q = st := by
  simp only [registerPathsStep]
  rw [h]
  simp

theorem registerPathsStep_eq_clobber (i : Nat) (name : String)
    (st : ClobberRegistry × List (String × String)) (q : String) (e : Nat)
    (h : lookupA st.1.paths_registry q = some e) (hne : e ≠ i) :
    registerPathsStep i name st q =
      ({ st.1 with clobbers := pushClobber st.1.clobbers q [e] i },
       insertA st.2 q (clobberNameOf q name)) := by
  simp only [registerPathsStep]
  rw [h]
  simp [hne]

theorem registerPathsStep_eq_new (i : Nat) (name : String)
    (st : ClobberRegistry × List (String × String)) (q : String)
    (h : lookupA st.1.paths_registry q = none) :
    registerPathsStep i name st q =
      ({ st.1 with paths_registry := insertA st.1.paths_registry q i }, st.2) := by
  simp only [registerPathsStep]
  rw [h]

theorem registerPathsStep_char (reg : ClobberRegistry) (i : Nat) (name : String)
    (done : List String) (st : ClobberRegistry × List (String × String))
    (q : String) (hq : q ∉ done) (hchar : RegChar reg i name done st) :
    RegChar reg i name (done ++ [q]) (registerPathsStep i name st q) := by
  obtain ⟨hpk, hx⟩ := hchar
  obtain ⟨hqp, hqc, hqr⟩ := (hx q).1 hq
  have hshape : ∀ x, x ∈ done ++ [q] → x ≠ q → x ∈ done := by
    intro x hxin hxq
    rcases List.mem_append.mp hxin with hh | hh
    · exact hh
    · exact absurd (by simpa using hh) hxq
  cases ho : lookupA reg.paths_registry q with
  | some e =>
    by_cases hei : e = i
    · rw [registerPathsStep_eq_skip i name st q (by rw [hqp, ho, hei])]
      refine ⟨hpk, ?_⟩
      intro x
      refine ⟨fun hxn => (hx x).1 (fun hh => hxn (List.mem_append_left [q] hh)), ?_⟩
      intro hxin
      by_cases hxq : x = q
      · subst hxq
        refine ⟨?_, ?_, ?_⟩
        · intro e' he' hne
          rw [ho] at he'
          injection he' with h
          rw [← h, hei] at hne
          exact absurd rfl hne
        · intro _
          exact ⟨by rw [hqp, ho, hei], hqc, hqr⟩
        · intro hnone
          rw [hnone] at ho
          exact absurd ho (by simp)
      · exact (hx x).2 (hshape x hxin hxq)
    · rw [registerPathsStep_eq_clobber i name st q e (by rw [hqp, ho]) hei]
      refine ⟨hpk, ?_⟩
      intro x
      by_cases hxq : x = q
      · subst hxq
        constructor
        · intro hxn
          exact absurd (List.mem_append_right done (by simp)) hxn
        · intro _
          refine ⟨?_, ?_, ?_⟩
          · intro e' he' hne
            rw [ho] at he'
            injection he' with h
            subst h
            refine ⟨hqp.trans ho, ?_, by rw [lookupA_insertA_self]⟩
            simp only [pushClobber, hqc]
            cases hc : lookupA reg.clobbers x with
            | some lcl =>
              dsimp only
              rw [lookupA_insertA_self]
              rfl
            | none =>
              dsimp only
              rw [lookupA_insertA_self]
              rfl
          · intro hsome
            rw [hsome] at ho
            injection ho with h
            exact absurd h.symm hei
          · intro hnone
            rw [hnone] at ho
            exact absurd ho (by simp)
      · have hne' : q ≠ x := fun hh => hxq hh.symm
        have hmoves :
            lookupA (pushClobber st.1.clobbers q [e] i) x = lookupA st.1.clobbers x := by
          simp only [pushClobber]
          cases lookupA st.1.clobbers q with
          | some lcl => exact lookupA_insertA_ne _ _ _ _ hne'
          | none => exact lookupA_insertA_ne _ _ _ _ hne'
        constructor
        · intro hxn
          have hold := (hx x).1 (fun hh => hxn (List.mem_append_left [q] hh))
          exact ⟨hold.1, by rw [hmoves]; exact hold.2.1,
            by rw [lookupA_insertA_ne _ _ _ _ hne']; exact hold.2.2⟩
        · intro hxin
          have hold := (hx x).2 (hshape x hxin hxq)
          refine ⟨?_, ?_, ?_⟩
          · intro e' he' hnei
            obtain ⟨ha, hb, hc⟩ := hold.1 e' he' hnei
            exact ⟨ha, by rw [hmoves]; exact hb,
              by rw [lookupA_insertA_ne _ _ _ _ hne']; exact hc⟩
          · intro hsome
            obtain ⟨ha, hb, hc⟩ := hold.2.1 hsome
            exact ⟨ha, by rw [hmoves]; exact hb,
              by rw [lookupA_insertA_ne _ _ _ _ hne']; exact hc⟩
          · intro hnone
            obtain ⟨ha, hb, hc⟩ := hold.2.2 hnone
            exact ⟨ha, by rw [hmoves]; exact hb,
              by rw [lookupA_insertA_ne _ _ _ _ hne']; exact hc⟩
  | none =>
    rw [registerPathsStep_eq_new i name st q (by rw [hqp, ho])]
    refine ⟨hpk, ?_⟩
    intro x
    by_cases hxq : x = q
    · subst hxq
      constructor
      · intro hxn
        exact absurd (List.mem_append_right done (by simp)) hxn
      · intro _
        refine ⟨?_, ?_, ?_⟩
        · intro e' he' hne
          rw [ho] at he'
          exact absurd he' (by simp)
        · intro hsome
          rw [hsome] at ho
          exact absurd ho (by simp)
        · intro _
          exact ⟨by rw [lookupA_insertA_self], hqc, hqr⟩
    · have hne' : q ≠ x := fun hh => hxq hh.symm
      constructor
      · intro hxn
        have hold := (hx x).1 (fun hh => hxn (List.mem_append_left [q] hh))
        exact ⟨by rw [lookupA_insertA_ne _ _ _ _ hne']; exact hold.1,
          hold.2.1, hold.2.2⟩
      · intro hxin
        have hold := (hx x).2 (hshape x hxin hxq)
        refine ⟨?_, ?_, ?_⟩
        · intro e' he' hnei
          obtain ⟨ha, hb, hc⟩ := hold.1 e' he' hnei
          exact ⟨by rw [lookupA_insertA_ne _ _ _ _ hne']; exact ha, hb, hc⟩
        · intro hsome
          obtain ⟨ha, hb, hc⟩ := hold.2.1 hsome
          exact ⟨by rw [lookupA_insertA_ne _ _ _ _ hne']; exact ha, hb, hc⟩
        · intro hnone
          obtain ⟨ha, hb, hc⟩ := hold.2.2 hnone
          exact ⟨by rw [lookupA_insertA_ne _ _ _ _ hne']; exact ha, hb, hc⟩

theorem registerPathsGo_char (reg : ClobberRegistry) (i : Nat) (name : String) :
    ∀ (todo done : List String) (st : ClobberRegistry × List (String × String)),
      (∀ x ∈ todo, x ∉ done) → todo.Nodup →
      RegChar reg i name done st →
      RegChar reg i name (done ++ todo) (todo.foldl (registerPathsStep i name) st) := by
  intro todo
  induction todo with
  | nil =>
    intro done st hdisj hnd hchar
    simpa using hchar
  | cons q todo' ih =>
    intro done st hdisj hnd hchar
    have hstep := registerPathsStep_char reg i name done st q
      (hdisj q (List.mem_cons_self q todo')) hchar
    have hdisj' : ∀ x ∈ todo', x ∉ done ++ [q] := by
      intro x hx hmem
      rcases List.mem_append.mp hmem with hh | hh
      · exact hdisj x (List.mem_cons_of_mem q hx) hh
      · have : x = q := by simpa using hh
        subst this
        exact (List.nodup_cons.mp hnd).1 hx
    have := ih (done ++ [q]) (registerPathsStep i name st q) hdisj'
      (List.nodup_cons.mp hnd).2 hstep
    simpa [List.append_assoc] using this

/-- C3: `register_paths` returns a rename `p -> p__clobber-from-<name>` for
exactly the input paths already owned by a different package; for those
paths the `clobbers` list is seeded with the owner's index if absent and the
registering index appended, with the owner unchanged; an input path not yet
owned is recorded under the registering index with no rename and no
`clobbers` entry; an input path owned by the registering name's own index
(self-clobber during an update) is skipped silently - no rename, no
`clobbers` change, no owner change.  `(resolveNameIdx reg name).2` is the
registering package's index. -/
theorem c3_register_paths (reg : ClobberRegistry) (name : String)
    (paths : List String) (hnodup : paths.Nodup) :
    (∀ x q, lookupA (registerPaths reg name paths).2 x = some q ↔
      (x ∈ paths ∧ ∃ e, lookupA reg.paths_registry x = some e ∧
        e ≠ (resolveNameIdx reg name).2 ∧ q = clobberNameOf x name))
    ∧ (∀ x e, x ∈ paths → lookupA reg.paths_registry x = some e →
        e ≠ (resolveNameIdx reg name).2 →
        lookupA (registerPaths reg name paths).1.paths_registry x = some e ∧
        lookupA (registerPaths reg name paths).1.clobbers x =
          some ((lookupA reg.clobbers x).getD [e] ++ [(resolveNameIdx reg name).2]))
    ∧ (∀ x, x ∈ paths → lookupA reg.paths_registry x = none →
        lookupA (registerPaths reg name paths).1.paths_registry x =
          some (resolveNameIdx reg name).2 ∧
        lookupA (registerPaths reg name paths).1.clobbers x =
          lookupA reg.clobbers x)
    ∧ (∀ x, x ∈ paths →
        lookupA reg.paths_registry x = some (resolveNameIdx reg name).2 →
        lookupA (registerPaths reg name paths).1.paths_registry x =
          some (resolveNameIdx reg name).2 ∧
        lookupA (registerPaths reg name paths).1.clobbers x =
          lookupA reg.clobbers x ∧
        lookupA (registerPaths reg name paths).2 x = none)
    ∧ (∀ x, x ∉ paths →
        lookupA (registerPaths reg name paths).1.paths_registry x =
          lookupA reg.paths_registry x ∧
        lookupA (registerPaths reg name paths).1.clobbers x =
          lookupA reg.clobbers x ∧
        lookupA (registerPaths reg name paths).2 x = none) := by
  have hbase : RegChar (resolveNameIdx reg name).1 (resolveNameIdx reg name).2 name []
      ((resolveNameIdx reg name).1, []) := by
    refine ⟨rfl, ?_⟩
    intro x
    exact ⟨fun _ => ⟨rfl, rfl, rfl⟩, fun hx => absurd hx (by simp)⟩
  have hchar := registerPathsGo_char (resolveNameIdx reg name).1
    (resolveNameIdx reg name).2 name paths [] ((resolveNameIdx reg name).1, [])
    (by intro x hx; simp) hnodup hbase
  have hrfl : registerPaths reg name paths =
      paths.foldl (registerPathsStep (resolveNameIdx reg name).2 name)
        ((resolveNameIdx reg name).1, []) := rfl
  have hpr : ∀ x, lookupA (resolveNameIdx reg name).1.paths_registry x =
      lookupA reg.paths_registry x := by
    intro x
    simp only [resolveNameIdx]
    cases reg.package_names.findIdx? (fun n => n == name) <;> rfl
  have hcl : ∀ x, lookupA (resolveNameIdx reg name).1.clobbers x =
      lookupA reg.clobbers x := by
    intro x
    simp only [resolveNameIdx]
    cases reg.package_names.findIdx? (fun n => n == name) <;> rfl
  rw [hrfl]
  obtain ⟨-, hx⟩ := hchar
  simp only [List.nil_append] at hx
  set R := paths.foldl (registerPathsStep (resolveNameIdx reg name).2 name)
    ((resolveNameIdx reg name).1, []) with hR
  refine ⟨?_, ?_, ?_, ?_, ?_⟩
  · intro x q
    constructor
    · intro hlook
      by_cases hmem : x ∈ paths
      · refine ⟨hmem, ?_⟩
        cases ho : lookupA reg.paths_registry x with
        | none =>
          obtain ⟨-, -, hr⟩ := (hx x).2 hmem |>.2.2 ((hpr x).trans ho)
          rw [hr] at hlook
          exact absurd hlook (by simp)
        | some e =>
          by_cases hei : e = (resolveNameIdx reg name).2
          · obtain ⟨-, -, hr⟩ := (hx x).2 hmem |>.2.1 (by rw [hpr x, ho, hei])
            rw [hr] at hlook
            exact absurd hlook (by simp)
          · obtain ⟨-, -, hr⟩ := (hx x).2 hmem |>.1 e (by rw [hpr x, ho]) hei
            rw [hr] at hlook
            injection hlook with hq
            exact ⟨e, rfl, hei, hq.symm⟩
      · obtain ⟨-, -, hr⟩ := (hx x).1 hmem
        rw [hr] at hlook
        exact absurd hlook (by simp)
    · rintro ⟨hmem, e, ho, hei, hq⟩
      obtain ⟨-, -, hr⟩ := (hx x).2 hmem |>.1 e (by rw [hpr x, ho]) hei
      rw [hr, hq]
  · intro x e hmem ho hei
    obtain ⟨ha, hb, -⟩ := (hx x).2 hmem |>.1 e (by rw [hpr x, ho]) hei
    exact ⟨ha, by rw [hb, hcl x]⟩
  · intro x hmem ho
    obtain ⟨ha, hb, -⟩ := (hx x).2 hmem |>.2.2 (by rw [hpr x, ho])
    exact ⟨ha, by rw [hb, hcl x]⟩
  · intro x hmem ho
    obtain ⟨ha, hb, hc⟩ := (hx x).2 hmem |>.2.1 (by rw [hpr x, ho])
    exact ⟨ha, by rw [hb, hcl x], hc⟩
  · intro x hmem
    obtain ⟨ha, hb, hc⟩ := (hx x).1 hmem
    exact ⟨by rw [ha, hpr x], by rw [hb, hcl x], hc⟩

/-- C3 witness: registering `b` over a path owned by `a` returns the rename
and appends `b`'s index; a fresh path and a self-owned path are untouched. -/
theorem c3_register_paths_witness :
    lookupA (registerPaths ⟨[("f", 0)], [], ["a"]⟩ "b" ["f", "g"]).2 "f" =
      some "f__clobber-from-b" ∧
    lookupA (registerPaths ⟨[("f", 0)], [], ["a"]⟩ "b" ["f", "g"]).1.clobbers "f" =
      some [0, 1] ∧
    lookupA (registerPaths ⟨[("f", 0)], [], ["a"]⟩ "b" ["f", "g"]).1.paths_registry "g" =
      some 1 := by
  have h := c3_register_paths ⟨[("f", 0)], [], ["a"]⟩ "b" ["f", "g"] (by decide)
  refine ⟨?_, ?_, ?_⟩
  · exact (h.1 "f" "f__clobber-from-b").mpr ⟨by decide, 0, by decide, by decide, by decide⟩
  · exact ((h.2.1 "f" 0 (by decide) (by decide) (by decide)).2.trans (by decide))
  · exact (h.2.2.1 "g" (by decide) (by decide)).1

theorem enumFrom_filter_map_snd {α : Type} (f : α → Bool) :
    ∀ (l : List α) (i : Nat),
      ((List.enumFrom i l).filter (fun q => f q.2)).map Prod.snd = l.filter f := by
  intro l
  induction l with
  | nil => intro i; rfl
  | cons a l ih =>
    intro i
    simp only [List.enumFrom, List.filter_cons]
    by_cases hf : f a
    · simp [hf, ih (i + 1)]
    · simp [hf, ih (i + 1)]

theorem enum_filter_map_snd {α : Type} (f : α → Bool) (l : List α) :
    ((l.enum).filter (fun q => f q.2)).map Prod.snd = l.filter f :=
  enumFrom_filter_map_snd f l 0

/-- C2: for a path with a non-empty `clobbers` list, `unclobber` projects the
sorted names onto the clobbering packages preserving the sorted order; the
name of the winner the code picks is the last element of that projection; if
the winner equals the first element of the clobbers list (the provisional
holder) nothing happens; otherwise the holder's file is renamed to its
clobber name and its prefix record rewritten with `original_path = p`, and
the winner's clobber file is renamed to the canonical path with its record's
`original_path` cleared - the `true`/`false` flag of
`renamePathInPrefixRecord` realizes exactly that, as the last conjunct
states. -/
theorem c2_unclobber_entry (reg : ClobberRegistry) (sortedRecords : List PrefixRecord)
    (st : UcState) (p : String) (clobbered_by : List Nat)
    (cns sNames proj : List String)
    (hcns : cns = clobbered_by.map (fun idx => reg.package_names.getD idx ""))
    (hsn : sNames = sortedRecords.map PrefixRecord.name)
    (hproj : proj = sNames.filter (fun n => cns.contains n)) :
    ((sNames.enum.filter (fun q => cns.contains q.2)).getLast?.map Prod.snd =
      proj.getLast?)
    ∧ (∀ w, proj.getLast? = some w → w = cns.headD "" →
        unclobberEntry reg sortedRecords st p clobbered_by = Except.ok st)
    ∧ (∀ w vc vw, proj.getLast? = some w → w ≠ cns.headD "" →
        cns.headD "" ∈ sNames →
        lookupA st.fs p = some vc →
        lookupA st.fs (clobberNameOf p w) = some vw →
        clobberNameOf p w ≠ p →
        clobberNameOf p (cns.headD "") ≠ clobberNameOf p w →
        ∃ li wi,
          (sNames.enum.filter (fun q => cns.contains q.2)).find?
              (fun q => q.2 == cns.headD "") = some (li, cns.headD "") ∧
          (sNames.enum.filter (fun q => cns.contains q.2)).getLast? = some (wi, w) ∧
          unclobberEntry reg sortedRecords st p clobbered_by = Except.ok
            ⟨insertA (eraseA (insertA (eraseA st.fs p)
                (clobberNameOf p (cns.headD "")) vc) (clobberNameOf p w)) p vw,
             insertA (insertA st.meta
               (renamePathInPrefixRecord (sortedRecords.getD li default) p
                 (clobberNameOf p (cns.headD "")) true).name
               (renamePathInPrefixRecord (sortedRecords.getD li default) p
                 (clobberNameOf p (cns.headD "")) true))
               (renamePathInPrefixRecord (sortedRecords.getD wi default)
                 (clobberNameOf p w) p false).name
               (renamePathInPrefixRecord (sortedRecords.getD wi default)
                 (clobberNameOf p w) p false)⟩)
    ∧ (∀ (record : PrefixRecord) (old new : String) (b : Bool),
        ∀ entry ∈ record.paths_data, entry.relative_path = old →
          (⟨new, if b then some old else none⟩ : PathsEntry) ∈
            (renamePathInPrefixRecord record old new b).paths_data) := by
  have h0 : (sNames.enum.filter (fun q => cns.contains q.2)).getLast?.map Prod.snd =
      proj.getLast? := by
    rw [hproj, ← enum_filter_map_snd (fun n => cns.contains n) sNames,
      List.getLast?_map]
  refine ⟨h0, ?_, ?_, ?_⟩
  · intro w hw hweq
    obtain ⟨pair, hpairEq, hsnd⟩ := Option.map_eq_some'.mp (h0.trans hw)
    simp only [unclobberEntry]
    rw [← hsn, ← hcns, hpairEq]
    dsimp only
    rw [if_pos (by rw [hsnd, hweq])]
  · intro w vc vw hw hwne hHold hvc hvw hne1 hne2
    obtain ⟨pair, hpairEq, hsnd⟩ := Option.map_eq_some'.mp (h0.trans hw)
    obtain ⟨wi, wsnd⟩ := pair
    dsimp only at hsnd
    rw [hsnd] at hpairEq
    have hcnsne : cns ≠ [] := by
      intro hc
      rw [hc] at hproj
      simp at hproj
      rw [hproj] at hw
      exact absurd hw (by simp)
    have hheadmem : cns.headD "" ∈ cns := by
      cases cns with
      | nil => exact absurd rfl hcnsne
      | cons c cs => exact List.mem_cons_self c cs
    have hmemflt : cns.headD "" ∈
        ((sNames.enum.filter (fun q => cns.contains q.2)).map Prod.snd) := by
      rw [enum_filter_map_snd]
      rw [List.mem_filter]
      exact ⟨hHold, by simpa using hheadmem⟩
    obtain ⟨fpr, hfprMem, hfprSnd⟩ := List.mem_map.mp hmemflt
    have hfindSome : ((sNames.enum.filter (fun q => cns.contains q.2)).find?
        (fun q => q.2 == cns.headD "")).isSome := by
      rw [List.find?_isSome]
      exact ⟨fpr, hfprMem, by simp [hfprSnd]⟩
    obtain ⟨gpr, hgprEq⟩ := Option.isSome_iff_exists.mp hfindSome
    have hgprSnd : gpr.2 = cns.headD "" := by
      have := List.find?_some hgprEq
      simpa using this
    obtain ⟨li, gsnd⟩ := gpr
    dsimp only at hgprSnd
    subst hgprSnd
    refine ⟨li, wi, hgprEq, hpairEq, ?_⟩
    have hlook2 : lookupA (insertA (eraseA st.fs p)
        (clobberNameOf p (cns.headD "")) vc) (clobberNameOf p w) = some vw := by
      rw [lookupA_insertA_ne _ _ _ _ hne2,
        lookupA_eraseA_ne _ _ _ (fun hh => hne1 hh.symm)]
      exact hvw
    simp only [unclobberEntry]
    rw [← hsn, ← hcns, hpairEq]
    dsimp only
    rw [if_neg hwne]
    rw [hvc]
    simp only [Option.isSome_some, if_true]
    simp only [fsRename]
    rw [hvc, hgprEq]
    dsimp only
    rw [hlook2]
  · intro record old new b entry hmem hrel
    simp only [renamePathInPrefixRecord]
    refine List.mem_map.mpr ⟨entry, hmem, ?_⟩
    rw [if_pos hrel]

/-- C2 witness: packages `a` (holder) and `b` clobber `f` with sorted order
`[a, b]`: the winner `b` is moved onto the canonical path, `a`'s file is
displaced with `original_path = f` recorded, and `b`'s record is rewritten
with `original_path` cleared. -/
theorem c2_unclobber_entry_witness :
    unclobberEntry ⟨[("f", 0)], [("f", [0, 1])], ["a", "b"]⟩
        [⟨"a", ["f"], [⟨"f", none⟩]⟩,
         ⟨"b", ["f__clobber-from-b"], [⟨"f__clobber-from-b", some "f"⟩]⟩]
        ⟨[("f", "a"), ("f__clobber-from-b", "b")], []⟩ "f" [0, 1] =
      Except.ok
        ⟨[("f__clobber-from-a", "a"), ("f", "b")],
         [("a", ⟨"a", ["f__clobber-from-a"], [⟨"f__clobber-from-a", some "f"⟩]⟩),
          ("b", ⟨"b", ["f"], [⟨"f", none⟩]⟩)]⟩ := by
  obtain ⟨li, wi, hfind, hlast, heq⟩ :=
    (c2_unclobber_entry ⟨[("f", 0)], [("f", [0, 1])], ["a", "b"]⟩
      [⟨"a", ["f"], [⟨"f", none⟩]⟩,
       ⟨"b", ["f__clobber-from-b"], [⟨"f__clobber-from-b", some "f"⟩]⟩]
      ⟨[("f", "a"), ("f__clobber-from-b", "b")], []⟩ "f" [0, 1]
      ["a", "b"] ["a", "b"] ["a", "b"] (by decide) (by decide) (by decide)).2.2.1
      "b" "a" "b" (by decide) (by decide) (by decide) (by decide) (by decide)
      (by decide) (by decide)
  have hfind0 : (((["a", "b"] : List String).enum).filter
      (fun q => (["a", "b"] : List String).contains q.2)).find?
      (fun q => q.2 == (["a", "b"] : List String).headD "") = some (0, "a") := by decide
  have hlast0 : (((["a", "b"] : List String).enum).filter
      (fun q => (["a", "b"] : List String).contains q.2)).getLast? = some (1, "b") := by
    decide
  rw [hfind0] at hfind
  rw [hlast0] at hlast
  injection hfind with hfind1
  injection hlast with hlast1
  have hli : li = 0 := congrArg Prod.fst hfind1.symm
  have hwi : wi = 1 := congrArg Prod.fst hlast1.symm
  rw [hli, hwi] at heq
  rw [heq]
  decide

/-- C9 (amended): when the computed winner differs from the provisional
holder and the canonical file is absent, `unclobber` skips the holder's
rename and the loser's conda-meta rewrite, and - provided the winner's
clobber file is present - moves it into place and continues with the
remaining paths; if the winner's clobber file is also absent, the rename
error propagates and the whole post-process fails (see the
counterexample). -/
theorem c9_absent_canonical (reg : ClobberRegistry)
    (sortedRecords : List PrefixRecord) (st : UcState) (p : String)
    (clobbered_by : List Nat) (rest : List (String × List Nat))
    (wi : Nat) (w vw : String)
    (hlast : ((sortedRecords.map PrefixRecord.name).enum.filter
        (fun q => (clobbered_by.map
          (fun idx => reg.package_names.getD idx "")).contains q.2)).getLast? =
      some (wi, w))
    (hne : w ≠ (clobbered_by.map
        (fun idx => reg.package_names.getD idx "")).headD "")
    (habsent : lookupA st.fs p = none)
    (hvw : lookupA st.fs (clobberNameOf p w) = some vw) :
    unclobberEntry reg sortedRecords st p clobbered_by =
      Except.ok
        ⟨insertA (eraseA st.fs (clobberNameOf p w)) p vw,
         insertA st.meta
           (renamePathInPrefixRecord (sortedRecords.getD wi default)
             (clobberNameOf p w) p false).name
           (renamePathInPrefixRecord (sortedRecords.getD wi default)
             (clobberNameOf p w) p false)⟩
    ∧ unclobberGo reg sortedRecords ((p, clobbered_by) :: rest) st =
        unclobberGo reg sortedRecords rest
          ⟨insertA (eraseA st.fs (clobberNameOf p w)) p vw,
           insertA st.meta
             (renamePathInPrefixRecord (sortedRecords.getD wi default)
               (clobberNameOf p w) p false).name
             (renamePathInPrefixRecord (sortedRecords.getD wi default)
               (clobberNameOf p w) p false)⟩ := by
  have hmain : unclobberEntry reg sortedRecords st p clobbered_by =
      Except.ok
        ⟨insertA (eraseA st.fs (clobberNameOf p w)) p vw,
         insertA st.meta
           (renamePathInPrefixRecord (sortedRecords.getD wi default)
             (clobberNameOf p w) p false).name
           (renamePathInPrefixRecord (sortedRecords.getD wi default)
             (clobberNameOf p w) p false)⟩ := by
    simp only [unclobberEntry]
    rw [hlast]
    dsimp only
    rw [if_neg hne, habsent]
    simp only [Option.isSome_none, Bool.false_eq_true, if_false]
    simp only [fsRename]
    rw [hvw]
  refine ⟨hmain, ?_⟩
  simp only [unclobberGo]
  rw [hmain]

/-- C9 counterexample: the canonical file of the clobbered path is indeed
absent, yet `unclobber` does not continue - the winner's clobber file is
also missing and the rename error fails the whole post-process, refuting the
claim's "a missing source file never fails the whole post-process". -/
theorem c9_counterexample :
    lookupA (([] : List (String × String))) "f" = none ∧
    unclobber ⟨[("f", 0)], [("f", [0, 1])], ["a", "b"]⟩
        [⟨"a", [], []⟩, ⟨"b", [], []⟩] ⟨[], []⟩ =
      Except.error "rename: source not found" := by decide

/-- C9 witness: canonical file absent but the winner's clobber file present:
the entry is processed without error, only the winner's rename and record
rewrite happen, and the walk continues. -/
theorem c9_absent_canonical_witness :
    unclobberEntry ⟨[("f", 0)], [("f", [0, 1])], ["a", "b"]⟩
        [⟨"a", ["f"], [⟨"f", none⟩]⟩,
         ⟨"b", ["f__clobber-from-b"], [⟨"f__clobber-from-b", some "f"⟩]⟩]
        ⟨[("f__clobber-from-b", "b")], []⟩ "f" [0, 1] =
      Except.ok ⟨[("f", "b")], [("b", ⟨"b", ["f"], [⟨"f", none⟩]⟩)]⟩ := by
  have h := (c9_absent_canonical ⟨[("f", 0)], [("f", [0, 1])], ["a", "b"]⟩
    [⟨"a", ["f"], [⟨"f", none⟩]⟩,
     ⟨"b", ["f__clobber-from-b"], [⟨"f__clobber-from-b", some "f"⟩]⟩]
    ⟨[("f__clobber-from-b", "b")], []⟩ "f" [0, 1] [] 1 "b" "b"
    (by decide) (by decide) (by decide) (by decide)).1
  rw [h]
  decide

/-! Helper lemmas for the clobber-determinism claim (C1). -/

theorem containsS_iff (xs : List String) (x : String) :
    xs.contains x = true ↔ x ∈ xs := List.elem_iff

theorem containsS_eq_false (xs : List String) (x : String) (h : x ∉ xs) :
    xs.contains x = false := by
  cases hc : xs.contains x
  · rfl
  · exact absurd ((containsS_iff xs x).mp hc) h

theorem mem_keys_insertA {β : Type} (l : List (String × β)) (k x : String) (v : β) :
    x ∈ (insertA l k v).map Prod.fst ↔ x = k ∨ x ∈ l.map Prod.fst := by
  induction l with
  | nil => simp [insertA]
  | cons kv rest ih =>
    obtain ⟨k0, w⟩ := kv
    by_cases h0 : k0 = k
    · subst h0
      have he : insertA ((k0, w) :: rest) k0 v = (k0, v) :: rest := by
        simp [insertA]
      rw [he]
      simp only [List.map_cons, List.mem_cons]
      tauto
    · have he : insertA ((k0, w) :: rest) k v = (k0, w) :: insertA rest k v := by
        simp [insertA, h0]
      rw [he]
      simp only [List.map_cons, List.mem_cons, ih]
      tauto

theorem insertA_keys_nodup {β : Type} (l : List (String × β)) (k : String) (v : β)
    (h : (l.map Prod.fst).Nodup) : ((insertA l k v).map Prod.fst).Nodup := by
  induction l with
  | nil => simp [insertA]
  | cons kv rest ih =>
    obtain ⟨k0, w⟩ := kv
    simp only [List.map_cons, List.nodup_cons] at h
    by_cases h0 : k0 = k
    · subst h0
      have he : insertA ((k0, w) :: rest) k0 v = (k0, v) :: rest := by
        simp [insertA]
      rw [he]
      simp only [List.map_cons, List.nodup_cons]
      exact h
    · have he : insertA ((k0, w) :: rest) k v = (k0, w) :: insertA rest k v := by
        simp [insertA, h0]
      rw [he]
      simp only [List.map_cons, List.nodup_cons]
      refine ⟨?_, ih h.2⟩
      intro hmem
      rcases (mem_keys_insertA rest k k0 v).mp hmem with hh | hh
      · exact h0 hh
      · exact h.1 hh

theorem mem_keys_of_lookupA {β : Type} :
    ∀ (l : List (String × β)) (k : String) (v : β),
      lookupA l k = some v → k ∈ l.map Prod.fst := by
  intro l
  induction l with
  | nil => intro k v h; simp [lookupA] at h
  | cons kv rest ih =>
    intro k v h
    obtain ⟨k0, w⟩ := kv
    by_cases h0 : k0 = k
    · subst h0
      exact List.mem_cons_self _ _
    · simp only [lookupA, if_neg h0] at h
      exact List.mem_cons_of_mem _ (ih k v h)

theorem lookupA_of_mem_keys {β : Type} :
    ∀ (l : List (String × β)) (k : String) (v : β),
      (l.map Prod.fst).Nodup → (k, v) ∈ l → lookupA l k = some v := by
  intro l
  induction l with
  | nil => intro k v _ hmem; simp at hmem
  | cons kv rest ih =>
    intro k v h hmem
    obtain ⟨k0, w⟩ := kv
    simp only [List.map_cons, List.nodup_cons] at h
    rcases List.mem_cons.mp hmem with hh | hh
    · have hk : k = k0 := congrArg Prod.fst hh
      have hv : v = w := congrArg Prod.snd hh
      subst hk
      simp [lookupA, hv]
    · by_cases hk : k0 = k
      · exfalso
        apply h.1
        rw [hk]
        exact List.mem_map_of_mem Prod.fst hh
      · simp only [lookupA, if_neg hk]
        exact ih k v h.2 hh

theorem findIdx?_eq_none_of_not_mem (ns : List String) (nm : String)
    (h : nm ∉ ns) : ns.findIdx? (fun n => n == nm) = none := by
  induction ns with
  | nil => rfl
  | cons a rest ih =>
    have ha : ¬(a = nm) := fun hh => h (hh ▸ List.mem_cons_self a rest)
    have hr : nm ∉ rest := fun hh => h (List.mem_cons_of_mem a hh)
    simp [List.findIdx?_cons, ha, ih hr]

theorem getD_append_left {α : Type} (xs ys : List α) (j : Nat) (d : α)
    (h : j < xs.length) : (xs ++ ys).getD j d = xs.getD j d := by
  simp [List.getD_eq_getElem?_getD, List.getElem?_append_left h]

theorem getD_concat_self {α : Type} (xs : List α) (a d : α) :
    (xs ++ [a]).getD xs.length d = a := by
  simp [List.getD_eq_getElem?_getD, List.getElem?_concat_length]

theorem getD_of_getElem? {α : Type} (xs : List α) (j : Nat) (a d : α)
    (h : xs[j]? = some a) : xs.getD j d = a := by
  simp [List.getD_eq_getElem?_getD, h]

theorem getD_names_concat (l : List Pkg) (k : Pkg) :
    ((l ++ [k]).map Pkg.name).getD l.length "" = k.name := by
  rw [List.map_append]
  have hlm : (l.map Pkg.name).length = l.length := by simp
  rw [← hlm]
  exact getD_concat_self (l.map Pkg.name) k.name ""

theorem getD_names_lift (l : List Pkg) (k : Pkg) (e : Nat) (he : e < l.length) :
    ((l ++ [k]).map Pkg.name).getD e "" = (l.map Pkg.name).getD e "" := by
  rw [List.map_append]
  exact getD_append_left _ _ _ _ (by simpa using he)

theorem getD_names_of_getElem? (l : List Pkg) (e : Nat) (k0 : Pkg)
    (h : l[e]? = some k0) : (l.map Pkg.name).getD e "" = k0.name := by
  apply getD_of_getElem?
  rw [List.getElem?_map, h]
  rfl

theorem contributorsOf_append_single (l : List Pkg) (k : Pkg) (p : String) :
    contributorsOf (l ++ [k]) p =
      contributorsOf l p ++ if k.paths.contains p then [k] else [] := by
  simp only [contributorsOf, List.filter_append]
  congr 1
  cases h : k.paths.contains p
  · simp only [List.filter_cons, List.filter_nil, h]
  · simp only [List.filter_cons, List.filter_nil, h]

theorem contribNames_append_single (l : List Pkg) (k : Pkg) (p : String) :
    contribNames (l ++ [k]) p =
      contribNames l p ++ if k.paths.contains p then [k.name] else [] := by
  simp only [contribNames, contributorsOf_append_single, List.map_append]
  congr 1
  cases h : k.paths.contains p
  · simp
  · simp

theorem allPaths_append_single (l : List Pkg) (k : Pkg) :
    allPaths (l ++ [k]) = allPaths l ++ k.paths := by
  simp [allPaths]

theorem mem_allPaths (l : List Pkg) (x : String) :
    x ∈ allPaths l ↔ ∃ kk, kk ∈ l ∧ x ∈ kk.paths := by
  constructor
  · intro hx
    simp only [allPaths] at hx
    rcases List.mem_flatten.mp hx with ⟨ps, hps, hxps⟩
    rcases List.mem_map.mp hps with ⟨kk, hkk, hEq⟩
    exact ⟨kk, hkk, hEq ▸ hxps⟩
  · rintro ⟨kk, hkk, hx⟩
    simp only [allPaths]
    exact List.mem_flatten.mpr ⟨kk.paths, List.mem_map_of_mem Pkg.paths hkk, hx⟩

theorem contribNames_sublist_names (l : List Pkg) (p : String) :
    ∀ n ∈ contribNames l p, n ∈ l.map Pkg.name := by
  intro n hn
  simp only [contribNames] at hn
  rcases List.mem_map.mp hn with ⟨kk, hkk, hEq⟩
  exact hEq ▸ List.mem_map_of_mem Pkg.name (List.mem_of_mem_filter hkk)

theorem contribNames_nodup (l : List Pkg) (p : String)
    (h : (l.map Pkg.name).Nodup) : (contribNames l p).Nodup :=
  h.sublist (List.Sublist.map Pkg.name (List.filter_sublist l))

theorem head?_append_of_some (xs ys : List String) (v : String)
    (h : xs.head? = some v) : (xs ++ ys).head? = some v := by
  cases xs with
  | nil => simp at h
  | cons a t => simpa using h

theorem mem_tail_append (xs ys : List String) (n : String)
    (h : n ∈ xs.tail) : n ∈ (xs ++ ys).tail := by
  cases xs with
  | nil => simp at h
  | cons a t =>
    simp only [List.cons_append, List.tail_cons] at *
    exact List.mem_append_left ys h

theorem mem_allPaths_of_contrib (l : List Pkg) (p : String) (k0 : Pkg)
    (rest : List Pkg) (hc : contributorsOf l p = k0 :: rest) :
    p ∈ allPaths l := by
  have hk0 : k0 ∈ contributorsOf l p := by
    rw [hc]
    exact List.mem_cons_self _ _
  simp only [contributorsOf, List.mem_filter] at hk0
  exact (mem_allPaths l p).mpr ⟨k0, hk0.1, (containsS_iff _ _).mp hk0.2⟩

theorem registerPathsStep_keys_nodup (i : Nat) (name : String)
    (st : ClobberRegistry × List (String × String)) (q : String)
    (h : (st.1.clobbers.map Prod.fst).Nodup) :
    (((registerPathsStep i name st q).1.clobbers).map Prod.fst).Nodup := by
  cases ho : lookupA st.1.paths_registry q with
  | none =>
    rw [registerPathsStep_eq_new i name st q ho]
    exact h
  | some e =>
    by_cases hei : e = i
    · rw [registerPathsStep_eq_skip i name st q (hei ▸ ho)]
      exact h
    · rw [registerPathsStep_eq_clobber i name st q e ho hei]
      simp only [pushClobber]
      cases hc : lookupA st.1.clobbers q with
      | none => exact insertA_keys_nodup _ _ _ h
      | some cur => exact insertA_keys_nodup _ _ _ h

theorem registerPathsGo_keys_nodup (i : Nat) (name : String) :
    ∀ (todo : List String) (st : ClobberRegistry × List (String × String)),
      (st.1.clobbers.map Prod.fst).Nodup →
      ((todo.foldl (registerPathsStep i name) st).1.clobbers.map Prod.fst).Nodup := by
  intro todo
  induction todo with
  | nil => intro st h; exact h
  | cons q rest ih =>
    intro st h
    exact ih _ (registerPathsStep_keys_nodup i name st q h)

theorem linkFiles_go_lookup :
    ∀ (paths : List String) (k : Pkg) (renames fs : List (String × String))
      (x : String),
      lookupA (paths.foldl (fun fs p =>
          match lookupA renames p with
          | some q => insertA fs q k.name
          | none => insertA fs p k.name) fs) x =
        if ∃ q, q ∈ paths ∧ (lookupA renames q).getD q = x then some k.name
        else lookupA fs x := by
  intro paths
  induction paths with
  | nil =>
    intro k renames fs x
    simp
  | cons p rest ih =>
    intro k renames fs x
    rw [List.foldl_cons, ih]
    have hstep : lookupA
        (match lookupA renames p with
         | some q => insertA fs q k.name
         | none => insertA fs p k.name) x =
        if (lookupA renames p).getD p = x then some k.name else lookupA fs x := by
      cases hr : lookupA renames p with
      | none =>
        simp only [Option.getD_none]
        by_cases hx : p = x
        · subst hx
          simp [lookupA_insertA_self]
        · simp [lookupA_insertA_ne _ _ _ _ hx, hx]
      | some q =>
        simp only [Option.getD_some]
        by_cases hx : q = x
        · subst hx
          simp [lookupA_insertA_self]
        · simp [lookupA_insertA_ne _ _ _ _ hx, hx]
    by_cases hmem : ∃ q, q ∈ rest ∧ (lookupA renames q).getD q = x
    · rw [if_pos hmem]
      obtain ⟨q, hq, ht⟩ := hmem
      rw [if_pos ⟨q, List.mem_cons_of_mem p hq, ht⟩]
    · rw [if_neg hmem, hstep]
      by_cases htp : (lookupA renames p).getD p = x
      · rw [if_pos htp, if_pos ⟨p, List.mem_cons_self p rest, htp⟩]
      · rw [if_neg htp, if_neg ?_]
        rintro ⟨q, hq, ht⟩
        rcases List.mem_cons.mp hq with hh | hh
        · exact htp (hh ▸ ht)
        · exact hmem ⟨q, hh, ht⟩

theorem lookupA_linkFiles (fs : List (String × String)) (k : Pkg)
    (renames : List (String × String)) (x : String) :
    lookupA (linkFiles fs k renames) x =
      if ∃ q, q ∈ k.paths ∧ (lookupA renames q).getD q = x then some k.name
      else lookupA fs x :=
  linkFiles_go_lookup k.paths k renames fs x

theorem swap_fs_lookup (fs : List (String × String)) (p lp wp vc vw : String)
    (hne1 : wp ≠ p) (hne2 : lp ≠ wp) (hne3 : lp ≠ p) :
    ∀ x, lookupA (insertA (eraseA (insertA (eraseA fs p) lp vc) wp) p vw) x =
      if x = p then some vw
      else if x = wp then none
      else if x = lp then some vc
      else lookupA fs x := by
  intro x
  by_cases hxp : x = p
  · subst hxp
    rw [if_pos rfl]
    exact lookupA_insertA_self _ _ _
  · rw [if_neg hxp]
    rw [lookupA_insertA_ne _ _ _ _ (fun hh => hxp hh.symm)]
    by_cases hxw : x = wp
    · subst hxw
      rw [if_pos rfl]
      exact lookupA_eraseA_self _ _
    · rw [if_neg hxw]
      rw [lookupA_eraseA_ne _ _ _ (fun hh => hxw hh.symm)]
      by_cases hxl : x = lp
      · subst hxl
        rw [if_pos rfl]
        exact lookupA_insertA_self _ _ _
      · rw [if_neg hxl]
        rw [lookupA_insertA_ne _ _ _ _ (fun hh => hxl hh.symm)]
        rw [lookupA_eraseA_ne _ _ _ (fun hh => hxp hh.symm)]

theorem installInv_nil : InstallInv [] (emptyRegistry, []) := by
  refine ⟨rfl, ?_, ?_, ?_, ?_⟩
  · intro p
    exact ⟨fun _ => rfl, fun k0 rest0 h => by simp [contributorsOf] at h⟩
  · intro p
    exact ⟨fun _ => rfl, fun h => by simp [contributorsOf] at h⟩
  · simp [emptyRegistry]
  · intro x v
    simp [lookupA, allPaths]

theorem installInv_step (l : List Pkg) (k : Pkg)
    (st : ClobberRegistry × List (String × String))
    (hsep : WellSep (l ++ [k])) (hinv : InstallInv l st) :
    InstallInv (l ++ [k]) (installPkg st k) := by
  obtain ⟨hnames, hOwn, hClob, hKeys, hFs⟩ := hinv
  have hnd := hsep.namesNodup
  rw [List.map_append] at hnd
  have hfresh : k.name ∉ l.map Pkg.name := by
    intro hmem
    rcases List.nodup_append.mp hnd with ⟨h1, h2, hdisj⟩
    exact hdisj hmem (by simp)
  have hlen : st.1.package_names.length = l.length := by
    rw [hnames, List.length_map]
  have hidx : st.1.package_names.findIdx? (fun n => n == k.name) = none := by
    rw [hnames]
    exact findIdx?_eq_none_of_not_mem _ _ hfresh
  have hres : resolveNameIdx st.1 k.name =
      ({ st.1 with package_names := st.1.package_names ++ [k.name] }, l.length) := by
    simp only [resolveNameIdx]
    rw [hidx, hlen]
  have hknodup : k.paths.Nodup := hsep.pathsNodup k (by simp)
  have hbase : RegChar { st.1 with package_names := st.1.package_names ++ [k.name] }
      l.length k.name []
      ({ st.1 with package_names := st.1.package_names ++ [k.name] }, []) :=
    ⟨rfl, fun x => ⟨fun _ => ⟨rfl, rfl, rfl⟩, fun hx => absurd hx (List.not_mem_nil x)⟩⟩
  have hchar := registerPathsGo_char
    { st.1 with package_names := st.1.package_names ++ [k.name] }
    l.length k.name k.paths []
    ({ st.1 with package_names := st.1.package_names ++ [k.name] }, [])
    (fun x _ => List.not_mem_nil x) hknodup hbase
  rw [List.nil_append] at hchar
  set F := k.paths.foldl (registerPathsStep l.length k.name)
    ({ st.1 with package_names := st.1.package_names ++ [k.name] }, []) with hF
  have hreg : registerPaths st.1 k.name k.paths = F := by
    rw [hF]
    simp only [registerPaths]
    rw [hres]
  have hinst : installPkg st k = (F.1, linkFiles st.2 k F.2) := by
    simp only [installPkg]
    rw [hreg]
  rw [hinst]
  have hFpn : F.1.package_names = st.1.package_names ++ [k.name] := hchar.1
  have hFout : ∀ x, x ∉ k.paths →
      lookupA F.1.paths_registry x = lookupA st.1.paths_registry x ∧
      lookupA F.1.clobbers x = lookupA st.1.clobbers x ∧
      lookupA F.2 x = none := fun x hx => (hchar.2 x).1 hx
  have hFcl : ∀ x, x ∈ k.paths → ∀ e, lookupA st.1.paths_registry x = some e →
      e ≠ l.length →
      lookupA F.1.paths_registry x = some e ∧
      lookupA F.1.clobbers x =
        some ((lookupA st.1.clobbers x).getD [e] ++ [l.length]) ∧
      lookupA F.2 x = some (clobberNameOf x k.name) :=
    fun x hx e he hne => ((hchar.2 x).2 hx).1 e he hne
  have hFnew : ∀ x, x ∈ k.paths → lookupA st.1.paths_registry x = none →
      lookupA F.1.paths_registry x = some l.length ∧
      lookupA F.1.clobbers x = lookupA st.1.clobbers x ∧
      lookupA F.2 x = none :=
    fun x hx he => ((hchar.2 x).2 hx).2.2 he
  have hkAll : ∀ q ∈ k.paths, q ∈ allPaths (l ++ [k]) := by
    intro q hq
    exact (mem_allPaths _ _).mpr ⟨k, by simp, hq⟩
  have hallSub : ∀ x ∈ allPaths l, x ∈ allPaths (l ++ [k]) := by
    intro x hx
    rw [allPaths_append_single]
    exact List.mem_append_left _ hx
  have hnameSub : ∀ n ∈ l.map Pkg.name, n ∈ (l ++ [k]).map Pkg.name := by
    intro n hn
    rw [List.map_append]
    exact List.mem_append_left _ hn
  have hkname : k.name ∈ (l ++ [k]).map Pkg.name := by simp
  refine ⟨?_, ?_, ?_, ?_, ?_⟩
  · dsimp only
    rw [hFpn, hnames, List.map_append]
    rfl
  · intro p
    dsimp only
    by_cases hpk : p ∈ k.paths
    · have hct : k.paths.contains p = true := (containsS_iff _ _).mpr hpk
      have hcon : contributorsOf (l ++ [k]) p = contributorsOf l p ++ [k] := by
        rw [contributorsOf_append_single, if_pos hct]
      cases hc : contributorsOf l p with
      | nil =>
        have hnone := (hOwn p).1 hc
        obtain ⟨ho1, ho2, ho3⟩ := hFnew p hpk hnone
        constructor
        · intro hE
          rw [hcon, hc, List.nil_append] at hE
          simp at hE
        · intro k0 rest0 hE
          rw [hcon, hc, List.nil_append] at hE
          have hk0 : k = k0 := by simpa using congrArg List.head? hE
          refine ⟨l.length, ho1,
            by simp only [List.length_append, List.length_cons, List.length_nil]; omega, ?_⟩
          rw [← hk0]
          exact List.getElem?_concat_length l k
      | cons k0 rest =>
        obtain ⟨e, he, helt, hel⟩ := (hOwn p).2 k0 rest hc
        obtain ⟨ho1, ho2, ho3⟩ := hFcl p hpk e he (Nat.ne_of_lt helt)
        constructor
        · intro hE
          rw [hcon, hc] at hE
          simp at hE
        · intro k0' rest0' hE
          rw [hcon, hc] at hE
          have hk0 : k0 = k0' := by simpa using congrArg List.head? hE
          refine ⟨e, ho1,
            by simp only [List.length_append, List.length_cons, List.length_nil]; omega, ?_⟩
          rw [← hk0, List.getElem?_append_left helt]
          exact hel
    · have hcf : k.paths.contains p = false := containsS_eq_false _ _ hpk
      have hcon : contributorsOf (l ++ [k]) p = contributorsOf l p := by
        rw [contributorsOf_append_single,
          if_neg (by rw [hcf]; exact Bool.false_ne_true), List.append_nil]
      obtain ⟨ho1, ho2, ho3⟩ := hFout p hpk
      constructor
      · intro hE
        rw [hcon] at hE
        rw [ho1]
        exact (hOwn p).1 hE
      · intro k0 rest0 hE
        rw [hcon] at hE
        obtain ⟨e, he, helt, hel⟩ := (hOwn p).2 k0 rest0 hE
        refine ⟨e, by rw [ho1]; exact he,
          by simp only [List.length_append, List.length_cons, List.length_nil]; omega, ?_⟩
        rw [List.getElem?_append_left helt]
        exact hel
  · intro p
    dsimp only
    by_cases hpk : p ∈ k.paths
    · have hct : k.paths.contains p = true := (containsS_iff _ _).mpr hpk
      have hcon : contributorsOf (l ++ [k]) p = contributorsOf l p ++ [k] := by
        rw [contributorsOf_append_single, if_pos hct]
      have hconN : contribNames (l ++ [k]) p = contribNames l p ++ [k.name] := by
        rw [contribNames_append_single, if_pos hct]
      cases hc : contributorsOf l p with
      | nil =>
        have hnone := (hOwn p).1 hc
        obtain ⟨ho1, ho2, ho3⟩ := hFnew p hpk hnone
        constructor
        · intro hle
          rw [ho2]
          exact (hClob p).1 (by rw [hc]; simp)
        · intro h2
          rw [hcon, hc, List.nil_append] at h2
          simp at h2
      | cons k0 rest =>
        obtain ⟨e, he, helt, hel⟩ := (hOwn p).2 k0 rest hc
        obtain ⟨ho1, ho2, ho3⟩ := hFcl p hpk e he (Nat.ne_of_lt helt)
        constructor
        · intro hle
          rw [hcon, hc] at hle
          simp only [List.length_append, List.length_cons, List.length_nil] at hle
          omega
        · intro h2
          cases rest with
          | nil =>
            have hcnone : lookupA st.1.clobbers p = none :=
              (hClob p).1 (by rw [hc]; simp)
            refine ⟨_, ho2, ?_, ?_⟩
            · intro j hj
              rw [hcnone] at hj
              simp only [Option.getD_none, List.cons_append, List.nil_append,
                List.mem_cons, List.not_mem_nil, or_false] at hj
              simp only [List.length_append, List.length_cons, List.length_nil]
              rcases hj with hj | hj
              · omega
              · omega
            · rw [hcnone, hconN]
              simp only [Option.getD_none, List.cons_append, List.nil_append,
                List.map_cons, List.map_nil, getD_names_concat,
                getD_names_lift l k e helt, getD_names_of_getElem? l e k0 hel]
              rw [show contribNames l p = [k0.name] from by simp [contribNames, hc]]
              rfl
          | cons r1 rest' =>
            have h2old : 2 ≤ (contributorsOf l p).length := by
              rw [hc]
              simp only [List.length_cons]
              omega
            obtain ⟨idxs, hci, hbnd, hmapN⟩ := (hClob p).2 h2old
            refine ⟨_, ho2, ?_, ?_⟩
            · intro j hj
              rw [hci] at hj
              simp only [Option.getD_some] at hj
              simp only [List.length_append, List.length_cons, List.length_nil]
              rcases List.mem_append.mp hj with hj | hj
              · have := hbnd j hj
                omega
              · have : j = l.length := by simpa using hj
                omega
            · rw [hci, hconN]
              simp only [Option.getD_some]
              rw [List.map_append]
              congr 1
              · rw [← hmapN]
                exact List.map_congr_left (fun j hj => getD_names_lift l k j (hbnd j hj))
              · simp only [List.map_cons, List.map_nil, getD_names_concat]
    · have hcf : k.paths.contains p = false := containsS_eq_false _ _ hpk
      have hcon : contributorsOf (l ++ [k]) p = contributorsOf l p := by
        rw [contributorsOf_append_single,
          if_neg (by rw [hcf]; exact Bool.false_ne_true), List.append_nil]
      have hconN : contribNames (l ++ [k]) p = contribNames l p := by
        rw [contribNames_append_single,
          if_neg (by rw [hcf]; exact Bool.false_ne_true), List.append_nil]
      obtain ⟨ho1, ho2, ho3⟩ := hFout p hpk
      constructor
      · intro hle
        rw [hcon] at hle
        rw [ho2]
        exact (hClob p).1 hle
      · intro h2
        rw [hcon] at h2
        obtain ⟨idxs, hci, hbnd, hmapN⟩ := (hClob p).2 h2
        refine ⟨idxs, by rw [ho2]; exact hci, ?_, ?_⟩
        · intro j hj
          have := hbnd j hj
          simp only [List.length_append, List.length_cons, List.length_nil]
          omega
        · rw [hconN, ← hmapN]
          exact List.map_congr_left (fun j hj => getD_names_lift l k j (hbnd j hj))
  · dsimp only
    rw [hF]
    exact registerPathsGo_keys_nodup l.length k.name k.paths _ hKeys
  · intro x v
    dsimp only
    rw [lookupA_linkFiles]
    have htgt : ∀ q, q ∈ k.paths →
        (lookupA F.2 q).getD q =
          if contributorsOf l q = [] then q else clobberNameOf q k.name := by
      intro q hq
      cases hcq : contributorsOf l q with
      | nil =>
        obtain ⟨h1, h2, h3⟩ := hFnew q hq ((hOwn q).1 hcq)
        rw [h3, if_pos rfl]
        rfl
      | cons k0 rest =>
        obtain ⟨e, he, helt, hel⟩ := (hOwn q).2 k0 rest hcq
        obtain ⟨h1, h2, h3⟩ := hFcl q hq e he (Nat.ne_of_lt helt)
        rw [h3, if_neg (by simp)]
        rfl
    constructor
    · intro hlook
      by_cases hT : ∃ q, q ∈ k.paths ∧ (lookupA F.2 q).getD q = x
      · rw [if_pos hT] at hlook
        have hv : v = k.name := by
          injection hlook with hh
          exact hh.symm
        obtain ⟨q, hq, htq⟩ := hT
        rw [htgt q hq] at htq
        by_cases hcq : contributorsOf l q = []
        · rw [if_pos hcq] at htq
          refine ⟨q, hkAll q hq, Or.inl ⟨htq.symm, ?_⟩⟩
          rw [contribNames_append_single, if_pos ((containsS_iff _ _).mpr hq),
            show contribNames l q = [] from by simp [contribNames, hcq],
            List.nil_append, hv]
          rfl
        · rw [if_neg hcq] at htq
          refine ⟨q, hkAll q hq, Or.inr ⟨k.name, ?_, htq.symm, hv⟩⟩
          rw [contribNames_append_single, if_pos ((containsS_iff _ _).mpr hq)]
          cases hcq2 : contributorsOf l q with
          | nil => exact absurd hcq2 hcq
          | cons k0 rest =>
            rw [show contribNames l q = k0.name :: rest.map Pkg.name from
              by simp [contribNames, hcq2]]
            simp
      · rw [if_neg hT] at hlook
        obtain ⟨p', hall, hInit⟩ := (hFs x v).mp hlook
        refine ⟨p', hallSub p' hall, ?_⟩
        rcases hInit with ⟨hxp, hhead⟩ | ⟨n, hn, hkey, hvn⟩
        · exact Or.inl ⟨hxp, by
            rw [contribNames_append_single]
            exact head?_append_of_some _ _ _ hhead⟩
        · exact Or.inr ⟨n, by
            rw [contribNames_append_single]
            exact mem_tail_append _ _ _ hn, hkey, hvn⟩
    · rintro ⟨p', hall, hInit⟩
      rcases hInit with ⟨hxp, hhead⟩ | ⟨n, hn, hkey, hvn⟩
      · rw [hxp]
        rw [contribNames_append_single] at hhead
        by_cases hpk' : p' ∈ k.paths
        · rw [if_pos ((containsS_iff _ _).mpr hpk')] at hhead
          cases hcq : contributorsOf l p' with
          | nil =>
            have hcn : contribNames l p' = [] := by simp [contribNames, hcq]
            rw [hcn, List.nil_append] at hhead
            have hv : v = k.name := by simpa using hhead.symm
            rw [if_pos ⟨p', hpk', by rw [htgt p' hpk', if_pos hcq]⟩, hv]
          | cons k0 rest =>
            have hcn : contribNames l p' = k0.name :: rest.map Pkg.name := by
              simp [contribNames, hcq]
            rw [hcn] at hhead
            have hv : v = k0.name := by simpa using hhead.symm
            have hnT : ¬∃ q, q ∈ k.paths ∧ (lookupA F.2 q).getD q = p' := by
              rintro ⟨q, hq, htq⟩
              rw [htgt q hq] at htq
              by_cases hcq2 : contributorsOf l q = []
              · rw [if_pos hcq2] at htq
                rw [htq, hcq] at hcq2
                exact List.noConfusion hcq2
              · rw [if_neg hcq2] at htq
                have hd := hsep.disj q (hkAll q hq) k.name hkname
                rw [htq] at hd
                exact hd (hallSub p' (mem_allPaths_of_contrib l p' k0 rest hcq))
            rw [if_neg hnT]
            apply (hFs p' v).mpr
            refine ⟨p', mem_allPaths_of_contrib l p' k0 rest hcq, Or.inl ⟨rfl, ?_⟩⟩
            rw [hcn, hv]
            rfl
        · rw [if_neg (by rw [containsS_eq_false _ _ hpk']; exact Bool.false_ne_true),
            List.append_nil] at hhead
          have hallL : p' ∈ allPaths l := by
            rw [allPaths_append_single] at hall
            rcases List.mem_append.mp hall with hh | hh
            · exact hh
            · exact absurd hh hpk'
          have hnT : ¬∃ q, q ∈ k.paths ∧ (lookupA F.2 q).getD q = p' := by
            rintro ⟨q, hq, htq⟩
            rw [htgt q hq] at htq
            by_cases hcq2 : contributorsOf l q = []
            · rw [if_pos hcq2] at htq
              exact hpk' (htq ▸ hq)
            · rw [if_neg hcq2] at htq
              have hd := hsep.disj q (hkAll q hq) k.name hkname
              rw [htq] at hd
              exact hd (hallSub p' hallL)
          rw [if_neg hnT]
          exact (hFs p' v).mpr ⟨p', hallL, Or.inl ⟨rfl, hhead⟩⟩
      · rw [contribNames_append_single] at hn
        by_cases hpk' : p' ∈ k.paths
        · rw [if_pos ((containsS_iff _ _).mpr hpk')] at hn
          cases hcq : contributorsOf l p' with
          | nil =>
            have hcn : contribNames l p' = [] := by simp [contribNames, hcq]
            rw [hcn, List.nil_append] at hn
            simp at hn
          | cons k0 rest =>
            have hcn : contribNames l p' = k0.name :: rest.map Pkg.name := by
              simp [contribNames, hcq]
            rw [hcn, List.cons_append, List.tail_cons] at hn
            rcases List.mem_append.mp hn with hnr | hnk
            · have hnL : n ∈ l.map Pkg.name :=
                contribNames_sublist_names l p' n
                  (by rw [hcn]; exact List.mem_cons_of_mem _ hnr)
              have hnT : ¬∃ q, q ∈ k.paths ∧ (lookupA F.2 q).getD q = x := by
                rintro ⟨q, hq, htq⟩
                rw [htgt q hq] at htq
                by_cases hcq2 : contributorsOf l q = []
                · rw [if_pos hcq2] at htq
                  have hd := hsep.disj p'
                    (hallSub p' (mem_allPaths_of_contrib l p' k0 rest hcq)) n
                    (hnameSub n hnL)
                  rw [← hkey] at hd
                  exact hd (htq ▸ hkAll q hq)
                · rw [if_neg hcq2] at htq
                  rw [hkey] at htq
                  have hinj := hsep.inj q (hkAll q hq) k.name hkname p'
                    (hallSub p' (mem_allPaths_of_contrib l p' k0 rest hcq)) n
                    (hnameSub n hnL) htq
                  rw [← hinj.2] at hnL
                  exact hfresh hnL
              rw [if_neg hnT, hvn]
              exact (hFs x n).mpr ⟨p', mem_allPaths_of_contrib l p' k0 rest hcq,
                Or.inr ⟨n, by rw [hcn]; exact hnr, hkey, rfl⟩⟩
            · have hnk' : n = k.name := by simpa using hnk
              have hT : ∃ q, q ∈ k.paths ∧ (lookupA F.2 q).getD q = x := by
                refine ⟨p', hpk', ?_⟩
                rw [htgt p' hpk',
                  if_neg (by rw [hcq]; exact fun hh => List.noConfusion hh),
                  hkey, hnk']
              rw [if_pos hT, hvn, hnk']
        · rw [if_neg (by rw [containsS_eq_false _ _ hpk']; exact Bool.false_ne_true),
            List.append_nil] at hn
          have hallL : p' ∈ allPaths l := by
            rw [allPaths_append_single] at hall
            rcases List.mem_append.mp hall with hh | hh
            · exact hh
            · exact absurd hh hpk'
          have hnL : n ∈ l.map Pkg.name :=
            contribNames_sublist_names l p' n (List.mem_of_mem_tail hn)
          have hnT : ¬∃ q, q ∈ k.paths ∧ (lookupA F.2 q).getD q = x := by
            rintro ⟨q, hq, htq⟩
            rw [htgt q hq] at htq
            by_cases hcq2 : contributorsOf l q = []
            · rw [if_pos hcq2] at htq
              have hd := hsep.disj p' (hallSub p' hallL) n (hnameSub n hnL)
              rw [← hkey] at hd
              exact hd (htq ▸ hkAll q hq)
            · rw [if_neg hcq2] at htq
              rw [hkey] at htq
              have hinj := hsep.inj q (hkAll q hq) k.name hkname p'
                (hallSub p' hallL) n (hnameSub n hnL) htq
              rw [← hinj.2] at hnL
              exact hfresh hnL
          rw [if_neg hnT, hvn]
          exact (hFs x n).mpr ⟨p', hallL, Or.inr ⟨n, hn, hkey, rfl⟩⟩

theorem wellSep_sublist (L s : List Pkg) (hs : s.Sublist L) (h : WellSep L) :
    WellSep s := by
  have hps : ∀ x ∈ allPaths s, x ∈ allPaths L := by
    intro x hx
    rcases (mem_allPaths s x).mp hx with ⟨kk, hkk, hxk⟩
    exact (mem_allPaths L x).mpr ⟨kk, hs.subset hkk, hxk⟩
  have hns : ∀ n ∈ s.map Pkg.name, n ∈ L.map Pkg.name :=
    fun n hn => (hs.map Pkg.name).subset hn
  refine ⟨h.namesNodup.sublist (hs.map Pkg.name), ?_, ?_, ?_⟩
  · exact fun k hk => h.pathsNodup k (hs.subset hk)
  · intro p hp n hn hmem
    exact h.disj p (hps p hp) n (hns n hn) (hps _ hmem)
  · intro p1 h1 n1 h2 p2 h3 n2 h4 heq
    exact h.inj p1 (hps p1 h1) n1 (hns n1 h2) p2 (hps p2 h3) n2 (hns n2 h4) heq

theorem installInv_all : ∀ (l : List Pkg), WellSep l → InstallInv l (installAll l) := by
  intro l
  induction l using List.reverseRecOn with
  | nil => intro _; exact installInv_nil
  | append_singleton l k ih =>
    intro hsep
    have hsl : WellSep l :=
      wellSep_sublist (l ++ [k]) l (List.sublist_append_left l [k]) hsep
    have hstep := installInv_step l k (installAll l) hsep (ih hsl)
    have hfold : installAll (l ++ [k]) = installPkg (installAll l) k := by
      simp only [installAll, List.foldl_append, List.foldl_cons, List.foldl_nil]
    rw [hfold]
    exact hstep

theorem unclobberEntry_noop (reg : ClobberRegistry) (sr : List PrefixRecord)
    (st : UcState) (p : String) (clobbered_by : List Nat) (cns : List String)
    (hcns : cns = clobbered_by.map (fun idx => reg.package_names.getD idx ""))
    (w : String)
    (hw : ((sr.map PrefixRecord.name).filter (fun n => cns.contains n)).getLast? =
      some w)
    (hweq : w = cns.headD "") :
    unclobberEntry reg sr st p clobbered_by = Except.ok st := by
  have h0 : ((sr.map PrefixRecord.name).enum.filter
      (fun q => cns.contains q.2)).getLast?.map Prod.snd =
      ((sr.map PrefixRecord.name).filter (fun n => cns.contains n)).getLast? := by
    rw [← enum_filter_map_snd (fun n => cns.contains n), List.getLast?_map]
  obtain ⟨pair, hpairEq, hsnd⟩ := Option.map_eq_some'.mp (h0.trans hw)
  simp only [unclobberEntry]
  rw [← hcns, hpairEq]
  dsimp only
  rw [if_pos (by rw [hsnd, hweq])]

theorem unclobberEntry_swap (reg : ClobberRegistry) (sr : List PrefixRecord)
    (st : UcState) (p : String) (clobbered_by : List Nat) (cns : List String)
    (hcns : cns = clobbered_by.map (fun idx => reg.package_names.getD idx ""))
    (w vc vw : String)
    (hw : ((sr.map PrefixRecord.name).filter (fun n => cns.contains n)).getLast? =
      some w)
    (hwne : w ≠ cns.headD "")
    (hHold : cns.headD "" ∈ sr.map PrefixRecord.name)
    (hvc : lookupA st.fs p = some vc)
    (hvw : lookupA st.fs (clobberNameOf p w) = some vw)
    (hne1 : clobberNameOf p w ≠ p)
    (hne2 : clobberNameOf p (cns.headD "") ≠ clobberNameOf p w) :
    ∃ mrec, unclobberEntry reg sr st p clobbered_by = Except.ok
      ⟨insertA (eraseA (insertA (eraseA st.fs p)
          (clobberNameOf p (cns.headD "")) vc) (clobberNameOf p w)) p vw, mrec⟩ := by
  have h0 : ((sr.map PrefixRecord.name).enum.filter
      (fun q => cns.contains q.2)).getLast?.map Prod.snd =
      ((sr.map PrefixRecord.name).filter (fun n => cns.contains n)).getLast? := by
    rw [← enum_filter_map_snd (fun n => cns.contains n), List.getLast?_map]
  obtain ⟨pair, hpairEq, hsnd⟩ := Option.map_eq_some'.mp (h0.trans hw)
  obtain ⟨wi, wsnd⟩ := pair
  dsimp only at hsnd
  rw [hsnd] at hpairEq
  have hcnsne : cns ≠ [] := by
    intro hcE
    rw [hcE] at hw
    simp at hw
  have hheadmem : cns.headD "" ∈ cns := by
    cases cns with
    | nil => exact absurd rfl hcnsne
    | cons c cs => exact List.mem_cons_self c cs
  have hmemflt : cns.headD "" ∈
      (((sr.map PrefixRecord.name).enum.filter (fun q => cns.contains q.2)).map
        Prod.snd) := by
    rw [enum_filter_map_snd, List.mem_filter]
    exact ⟨hHold, by simpa using hheadmem⟩
  obtain ⟨fpr, hfprMem, hfprSnd⟩ := List.mem_map.mp hmemflt
  have hfindSome : (((sr.map PrefixRecord.name).enum.filter
      (fun q => cns.contains q.2)).find? (fun q => q.2 == cns.headD "")).isSome := by
    rw [List.find?_isSome]
    exact ⟨fpr, hfprMem, by simp [hfprSnd]⟩
  obtain ⟨gpr, hgprEq⟩ := Option.isSome_iff_exists.mp hfindSome
  have hgprSnd : gpr.2 = cns.headD "" := by
    have := List.find?_some hgprEq
    simpa using this
  obtain ⟨li, gsnd⟩ := gpr
  dsimp only at hgprSnd
  subst hgprSnd
  have hlook2 : lookupA (insertA (eraseA st.fs p)
      (clobberNameOf p (cns.headD "")) vc) (clobberNameOf p w) = some vw := by
    rw [lookupA_insertA_ne _ _ _ _ hne2,
      lookupA_eraseA_ne _ _ _ (fun hh => hne1 hh.symm)]
    exact hvw
  refine ⟨insertA (insertA st.meta
      (renamePathInPrefixRecord (sr.getD li default) p
        (clobberNameOf p (cns.headD "")) true).name
      (renamePathInPrefixRecord (sr.getD li default) p
        (clobberNameOf p (cns.headD "")) true))
      (renamePathInPrefixRecord (sr.getD wi default)
        (clobberNameOf p w) p false).name
      (renamePathInPrefixRecord (sr.getD wi default)
        (clobberNameOf p w) p false), ?_⟩
  simp only [unclobberEntry]
  rw [← hcns, hpairEq]
  dsimp only
  rw [if_neg hwne]
  rw [hvc]
  simp only [Option.isSome_some, if_true]
  simp only [fsRename]
  rw [hvc, hgprEq]
  dsimp only
  rw [hlook2]

theorem winnerFor_single (sn : List String) (n : String) (hn : n ∈ sn) :
    winnerFor sn [n] = some n := by
  have hmem : n ∈ sn.filter (fun m => ([n] : List String).contains m) := by
    rw [List.mem_filter]
    exact ⟨hn, by simp⟩
  have hne : sn.filter (fun m => ([n] : List String).contains m) ≠ [] := by
    intro hE
    rw [hE] at hmem
    simp at hmem
  obtain ⟨w, hwEq⟩ := Option.isSome_iff_exists.mp ((List.getLast?_isSome).mpr hne)
  have hwmem := List.mem_of_mem_getLast? hwEq
  have hwn : w = n := by
    have := (List.mem_filter.mp hwmem).2
    simpa using this
  show (sn.filter (fun m => ([n] : List String).contains m)).getLast? = some n
  rw [hwEq, hwn]

theorem initAt_iff_finalAt_head (l : List Pkg) (sn : List String) (p : String)
    (n0 : String) (ct : List String)
    (hcc : contribNames l p = n0 :: ct)
    (hnd : (contribNames l p).Nodup)
    (hw0 : winnerFor sn (contribNames l p) = some n0) :
    ∀ x v, InitAt l p x v ↔ FinalAt l sn p x v := by
  intro x v
  have hnd' : n0 ∉ ct := by
    rw [hcc] at hnd
    exact (List.nodup_cons.mp hnd).1
  have hw' : winnerFor sn (n0 :: ct) = some n0 := by
    rw [← hcc]
    exact hw0
  simp only [InitAt, FinalAt, hcc, hw', List.head?_cons, List.tail_cons]
  constructor
  · rintro (⟨hxp, hv⟩ | ⟨n, hn, hkey, hvn⟩)
    · exact Or.inl ⟨hxp, hv⟩
    · refine Or.inr ⟨n, List.mem_cons_of_mem _ hn, ?_, hkey, hvn⟩
      intro hsome
      injection hsome with hh
      rw [← hh] at hn
      exact hnd' hn
  · rintro (⟨hxp, hv⟩ | ⟨n, hn, hwn, hkey, hvn⟩)
    · exact Or.inl ⟨hxp, hv⟩
    · rcases List.mem_cons.mp hn with hh | hh
      · exact absurd (by rw [hh]) hwn
      · exact Or.inr ⟨n, hh, hkey, hvn⟩

theorem unclobberEntry_mixed (l : List Pkg) (sr : List PrefixRecord)
    (reg : ClobberRegistry) (st : UcState) (p : String) (idxs : List Nat)
    (pending : List String)
    (hsep : WellSep l)
    (hregnames : reg.package_names = l.map Pkg.name)
    (hmap : idxs.map (fun j => (l.map Pkg.name).getD j "") = contribNames l p)
    (hlen2 : 2 ≤ (contribNames l p).length)
    (hsorted : ∀ n ∈ l.map Pkg.name, n ∈ sr.map PrefixRecord.name)
    (hpend : p ∈ pending)
    (hpendnd : pending.Nodup)
    (hmix : FsMixed l (sr.map PrefixRecord.name) pending st.fs) :
    ∃ st', unclobberEntry reg sr st p idxs = Except.ok st' ∧
      FsMixed l (sr.map PrefixRecord.name) (pending.erase p) st'.fs := by
  have hcns : contribNames l p = idxs.map (fun j => reg.package_names.getD j "") := by
    rw [hregnames]
    exact hmap.symm
  obtain ⟨n0, ct, hcc⟩ : ∃ n0 ct, contribNames l p = n0 :: ct := by
    cases hc : contribNames l p with
    | nil =>
      rw [hc] at hlen2
      simp at hlen2
    | cons a b => exact ⟨a, b, rfl⟩
  have hndn : (contribNames l p).Nodup := contribNames_nodup l p hsep.namesNodup
  have hheadD : (contribNames l p).headD "" = n0 := by
    rw [hcc]
    rfl
  have hn0mem : n0 ∈ contribNames l p := by
    rw [hcc]
    exact List.mem_cons_self _ _
  have hsubsn : ∀ n ∈ contribNames l p, n ∈ sr.map PrefixRecord.name :=
    fun n hn => hsorted n (contribNames_sublist_names l p n hn)
  have hpAll : p ∈ allPaths l := by
    cases hco : contributorsOf l p with
    | nil =>
      rw [show contribNames l p = [] from by simp [contribNames, hco]] at hcc
      exact List.noConfusion hcc
    | cons a b => exact mem_allPaths_of_contrib l p a b hco
  have hprojmem : n0 ∈ (sr.map PrefixRecord.name).filter
      (fun n => (contribNames l p).contains n) := by
    rw [List.mem_filter]
    exact ⟨hsubsn n0 hn0mem, (containsS_iff _ _).mpr hn0mem⟩
  have hprojne : (sr.map PrefixRecord.name).filter
      (fun n => (contribNames l p).contains n) ≠ [] := by
    intro hE
    rw [hE] at hprojmem
    simp at hprojmem
  obtain ⟨w, hw⟩ := Option.isSome_iff_exists.mp ((List.getLast?_isSome).mpr hprojne)
  have hwmem : w ∈ contribNames l p :=
    (containsS_iff _ _).mp (List.mem_filter.mp (List.mem_of_mem_getLast? hw)).2
  have hwinner : winnerFor (sr.map PrefixRecord.name) (contribNames l p) = some w := hw
  by_cases hwe : w = n0
  · have hw0 : winnerFor (sr.map PrefixRecord.name) (contribNames l p) = some n0 := by
      rw [← hwe]
      exact hwinner
    have hconv := initAt_iff_finalAt_head l (sr.map PrefixRecord.name) p n0 ct hcc hndn hw0
    refine ⟨st, unclobberEntry_noop reg sr st p idxs (contribNames l p) hcns w hw
      (by rw [hheadD]; exact hwe), ?_⟩
    intro x v
    rw [hmix x v]
    constructor
    · rintro ⟨p', hall, hm⟩
      refine ⟨p', hall, ?_⟩
      by_cases hpp : p' = p
      · subst hpp
        rcases hm with ⟨hin, hInit⟩ | ⟨hnin, hFin⟩
        · exact Or.inr ⟨hpendnd.not_mem_erase, (hconv x v).mp hInit⟩
        · exact absurd hpend hnin
      · rcases hm with ⟨hin, hInit⟩ | ⟨hnin, hFin⟩
        · exact Or.inl ⟨(List.mem_erase_of_ne hpp).mpr hin, hInit⟩
        · exact Or.inr ⟨fun hc => hnin (List.mem_of_mem_erase hc), hFin⟩
    · rintro ⟨p', hall, hm⟩
      refine ⟨p', hall, ?_⟩
      by_cases hpp : p' = p
      · subst hpp
        rcases hm with ⟨hin, hInit⟩ | ⟨hnin, hFin⟩
        · exact absurd hin hpendnd.not_mem_erase
        · exact Or.inl ⟨hpend, (hconv x v).mpr hFin⟩
      · rcases hm with ⟨hin, hInit⟩ | ⟨hnin, hFin⟩
        · exact Or.inl ⟨List.mem_of_mem_erase hin, hInit⟩
        · exact Or.inr ⟨fun hc => hnin ((List.mem_erase_of_ne hpp).mpr hc), hFin⟩
  · have hn0name : n0 ∈ l.map Pkg.name := contribNames_sublist_names l p n0 hn0mem
    have hwname : w ∈ l.map Pkg.name := contribNames_sublist_names l p w hwmem
    have hwp_nall : clobberNameOf p w ∉ allPaths l := hsep.disj p hpAll w hwname
    have hlp_nall : clobberNameOf p n0 ∉ allPaths l := hsep.disj p hpAll n0 hn0name
    have hne1 : clobberNameOf p w ≠ p := fun hh => hwp_nall (by rw [hh]; exact hpAll)
    have hne3 : clobberNameOf p n0 ≠ p := fun hh => hlp_nall (by rw [hh]; exact hpAll)
    have hne2 : clobberNameOf p n0 ≠ clobberNameOf p w := by
      intro hh
      have hinj := hsep.inj p hpAll n0 hn0name p hpAll w hwname hh
      exact hwe hinj.2.symm
    have hvc : lookupA st.fs p = some n0 := by
      apply (hmix p n0).mpr
      refine ⟨p, hpAll, Or.inl ⟨hpend, Or.inl ⟨rfl, ?_⟩⟩⟩
      rw [hcc]
      rfl
    have hwct : w ∈ ct := by
      have hx := hwmem
      rw [hcc] at hx
      rcases List.mem_cons.mp hx with hh | hh
      · exact absurd hh hwe
      · exact hh
    have hvw : lookupA st.fs (clobberNameOf p w) = some w := by
      apply (hmix _ w).mpr
      refine ⟨p, hpAll, Or.inl ⟨hpend, Or.inr ⟨w, ?_, rfl, rfl⟩⟩⟩
      rw [hcc]
      exact hwct
    obtain ⟨mrec, heval⟩ := unclobberEntry_swap reg sr st p idxs (contribNames l p)
      hcns w n0 w hw (by rw [hheadD]; exact hwe)
      (by rw [hheadD]; exact hsubsn n0 hn0mem) hvc hvw hne1
      (by rw [hheadD]; exact hne2)
    rw [hheadD] at heval
    refine ⟨_, heval, ?_⟩
    intro x v
    dsimp only
    rw [swap_fs_lookup st.fs p (clobberNameOf p n0) (clobberNameOf p w) n0 w
      hne1 hne2 hne3 x]
    by_cases hxp : x = p
    · subst hxp
      rw [if_pos rfl]
      constructor
      · intro hsome
        have hv : v = w := by
          injection hsome with hh
          exact hh.symm
        refine ⟨x, hpAll, Or.inr ⟨hpendnd.not_mem_erase, Or.inl ⟨rfl, ?_⟩⟩⟩
        rw [hwinner, hv]
      · rintro ⟨p', hall, hm⟩
        rcases hm with ⟨hin, hInit⟩ | ⟨hnin, hFin⟩
        · rcases hInit with ⟨hkey, hhead⟩ | ⟨n, hn, hkey, hvn⟩
          · rw [← hkey] at hin
            exact absurd hin hpendnd.not_mem_erase
          · have hnn : n ∈ l.map Pkg.name :=
              contribNames_sublist_names l p' n (List.mem_of_mem_tail hn)
            rw [hkey] at hpAll
            exact absurd hpAll (hsep.disj p' hall n hnn)
        · rcases hFin with ⟨hkey, hwv⟩ | ⟨n, hn, hwn, hkey, hvn⟩
          · rw [← hkey] at hwv
            rw [hwinner] at hwv
            injection hwv with hh
            rw [hh]
          · have hnn : n ∈ l.map Pkg.name := contribNames_sublist_names l p' n hn
            rw [hkey] at hpAll
            exact absurd hpAll (hsep.disj p' hall n hnn)
    · rw [if_neg hxp]
      by_cases hxw : x = clobberNameOf p w
      · subst hxw
        rw [if_pos rfl]
        constructor
        · intro hsome
          exact absurd hsome (by simp)
        · rintro ⟨p', hall, hm⟩
          rcases hm with ⟨hin, hInit⟩ | ⟨hnin, hFin⟩
          · rcases hInit with ⟨hkey, hhead⟩ | ⟨n, hn, hkey, hvn⟩
            · rw [← hkey] at hall
              exact absurd hall hwp_nall
            · have hnn : n ∈ l.map Pkg.name :=
                contribNames_sublist_names l p' n (List.mem_of_mem_tail hn)
              have hinj := hsep.inj p hpAll w hwname p' hall n hnn hkey
              rw [← hinj.1] at hin
              exact absurd hin hpendnd.not_mem_erase
          · rcases hFin with ⟨hkey, hwv⟩ | ⟨n, hn, hwn, hkey, hvn⟩
            · rw [← hkey] at hall
              exact absurd hall hwp_nall
            · have hnn : n ∈ l.map Pkg.name := contribNames_sublist_names l p' n hn
              have hinj := hsep.inj p hpAll w hwname p' hall n hnn hkey
              rw [← hinj.1] at hwn
              exact absurd (by rw [hwinner, hinj.2]) hwn
      · rw [if_neg hxw]
        by_cases hxl : x = clobberNameOf p n0
        · subst hxl
          rw [if_pos rfl]
          constructor
          · intro hsome
            have hv : v = n0 := by
              injection hsome with hh
              exact hh.symm
            refine ⟨p, hpAll, Or.inr ⟨hpendnd.not_mem_erase,
              Or.inr ⟨n0, hn0mem, ?_, rfl, hv⟩⟩⟩
            rw [hwinner]
            intro hcon
            injection hcon with hh
            exact hwe hh
          · rintro ⟨p', hall, hm⟩
            rcases hm with ⟨hin, hInit⟩ | ⟨hnin, hFin⟩
            · rcases hInit with ⟨hkey, hhead⟩ | ⟨n, hn, hkey, hvn⟩
              · rw [← hkey] at hall
                exact absurd hall hlp_nall
              · have hnn : n ∈ l.map Pkg.name :=
                  contribNames_sublist_names l p' n (List.mem_of_mem_tail hn)
                have hinj := hsep.inj p hpAll n0 hn0name p' hall n hnn hkey
                rw [← hinj.1] at hin
                exact absurd hin hpendnd.not_mem_erase
            · rcases hFin with ⟨hkey, hwv⟩ | ⟨n, hn, hwn, hkey, hvn⟩
              · rw [← hkey] at hall
                exact absurd hall hlp_nall
              · have hnn : n ∈ l.map Pkg.name := contribNames_sublist_names l p' n hn
                have hinj := hsep.inj p hpAll n0 hn0name p' hall n hnn hkey
                rw [hvn, ← hinj.2]
        · rw [if_neg hxl]
          rw [hmix x v]
          constructor
          · rintro ⟨p', hall, hm⟩
            refine ⟨p', hall, ?_⟩
            by_cases hpp : p' = p
            · subst hpp
              rcases hm with ⟨hin, hInit⟩ | ⟨hnin, hFin⟩
              · refine Or.inr ⟨hpendnd.not_mem_erase, ?_⟩
                rcases hInit with ⟨hkey, hhead⟩ | ⟨n, hn, hkey, hvn⟩
                · exact absurd hkey hxp
                · have hnct : n ∈ ct := by
                    rw [hcc] at hn
                    exact hn
                  have hnw : n ≠ w := fun hh => hxw (by rw [hkey, hh])
                  refine Or.inr ⟨n, ?_, ?_, hkey, hvn⟩
                  · rw [hcc]
                    exact List.mem_cons_of_mem _ hnct
                  · rw [hwinner]
                    intro hcon
                    injection hcon with hh
                    exact hnw hh.symm
              · exact absurd hpend hnin
            · rcases hm with ⟨hin, hInit⟩ | ⟨hnin, hFin⟩
              · exact Or.inl ⟨(List.mem_erase_of_ne hpp).mpr hin, hInit⟩
              · exact Or.inr ⟨fun hc => hnin (List.mem_of_mem_erase hc), hFin⟩
          · rintro ⟨p', hall, hm⟩
            refine ⟨p', hall, ?_⟩
            by_cases hpp : p' = p
            · subst hpp
              rcases hm with ⟨hin, hInit⟩ | ⟨hnin, hFin⟩
              · exact absurd hin hpendnd.not_mem_erase
              · refine Or.inl ⟨hpend, ?_⟩
                rcases hFin with ⟨hkey, hwv⟩ | ⟨n, hn, hwn, hkey, hvn⟩
                · exact absurd hkey hxp
                · have hnn0 : n ≠ n0 := fun hh => hxl (by rw [hkey, hh])
                  have hnct : n ∈ ct := by
                    rw [hcc] at hn
                    rcases List.mem_cons.mp hn with hh | hh
                    · exact absurd hh hnn0
                    · exact hh
                  exact Or.inr ⟨n, by rw [hcc]; exact hnct, hkey, hvn⟩
            · rcases hm with ⟨hin, hInit⟩ | ⟨hnin, hFin⟩
              · exact Or.inl ⟨List.mem_of_mem_erase hin, hInit⟩
              · exact Or.inr ⟨fun hc => hnin ((List.mem_erase_of_ne hpp).mpr hc), hFin⟩

theorem contribNames_length (l : List Pkg) (p : String) :
    (contribNames l p).length = (contributorsOf l p).length := by
  simp [contribNames]

theorem unclobberGo_mixed (l : List Pkg) (sr : List PrefixRecord)
    (reg : ClobberRegistry)
    (hsep : WellSep l)
    (hregnames : reg.package_names = l.map Pkg.name)
    (hsorted : ∀ n ∈ l.map Pkg.name, n ∈ sr.map PrefixRecord.name) :
    ∀ (entries : List (String × List Nat)) (st : UcState),
      (entries.map Prod.fst).Nodup →
      (∀ p idxs, (p, idxs) ∈ entries →
        idxs.map (fun j => (l.map Pkg.name).getD j "") = contribNames l p ∧
        2 ≤ (contribNames l p).length) →
      FsMixed l (sr.map PrefixRecord.name) (entries.map Prod.fst) st.fs →
      ∃ st', unclobberGo reg sr entries st = Except.ok st' ∧
        FsMixed l (sr.map PrefixRecord.name) [] st'.fs := by
  intro entries
  induction entries with
  | nil =>
    intro st hnd hent hmix
    exact ⟨st, rfl, by simpa using hmix⟩
  | cons e rest ih =>
    intro st hnd hent hmix
    obtain ⟨p, idxs⟩ := e
    simp only [List.map_cons] at hnd
    have hfacts := hent p idxs (List.mem_cons_self _ _)
    have hpend : p ∈ ((p, idxs) :: rest).map Prod.fst := by simp
    obtain ⟨st1, heval, hmix1⟩ := unclobberEntry_mixed l sr reg st p idxs
      (((p, idxs) :: rest).map Prod.fst) hsep hregnames hfacts.1 hfacts.2 hsorted
      hpend (by simpa using hnd) hmix
    have herase : (((p, idxs) :: rest).map Prod.fst).erase p = rest.map Prod.fst := by
      simp only [List.map_cons]
      exact List.erase_cons_head p (rest.map Prod.fst)
    rw [herase] at hmix1
    obtain ⟨st2, hgo, hmix2⟩ := ih st1 (List.nodup_cons.mp hnd).2
      (fun q i hqi => hent q i (List.mem_cons_of_mem _ hqi)) hmix1
    refine ⟨st2, ?_, hmix2⟩
    simp only [unclobberGo]
    rw [heval]
    exact hgo

theorem initial_fsMixed (l : List Pkg) (sr : List PrefixRecord)
    (reg : ClobberRegistry) (fs : List (String × String))
    (hsep : WellSep l)
    (hsorted : ∀ n ∈ l.map Pkg.name, n ∈ sr.map PrefixRecord.name)
    (hClob : ∀ p, ((contributorsOf l p).length ≤ 1 → lookupA reg.clobbers p = none)
      ∧ (2 ≤ (contributorsOf l p).length →
          ∃ idxs, lookupA reg.clobbers p = some idxs ∧
            (∀ j ∈ idxs, j < l.length) ∧
            idxs.map (fun j => (l.map Pkg.name).getD j "") = contribNames l p))
    (hFs : ∀ x v, lookupA fs x = some v ↔ ∃ p, p ∈ allPaths l ∧ InitAt l p x v) :
    FsMixed l (sr.map PrefixRecord.name) (reg.clobbers.map Prod.fst) fs := by
  have hsingle : ∀ p, p ∈ allPaths l → p ∉ reg.clobbers.map Prod.fst →
      ∃ n, contribNames l p = [n] ∧ n ∈ sr.map PrefixRecord.name := by
    intro p hall hpp
    rcases (mem_allPaths l p).mp hall with ⟨kk, hkk, hpk⟩
    have hkc : kk ∈ contributorsOf l p := by
      rw [contributorsOf, List.mem_filter]
      exact ⟨hkk, (containsS_iff _ _).mpr hpk⟩
    cases hco : contributorsOf l p with
    | nil =>
      rw [hco] at hkc
      simp at hkc
    | cons a b =>
      cases hb : b with
      | nil =>
        rw [hb] at hco
        have hamem : a ∈ l := by
          have : a ∈ contributorsOf l p := by
            rw [hco]
            exact List.mem_cons_self _ _
          exact List.mem_of_mem_filter this
        exact ⟨a.name, by simp [contribNames, hco],
          hsorted a.name (List.mem_map_of_mem Pkg.name hamem)⟩
      | cons c d =>
        exfalso
        have h2 : 2 ≤ (contributorsOf l p).length := by
          rw [hco, hb]
          simp only [List.length_cons]
          omega
        obtain ⟨idxs, hci, hb1, hb2⟩ := (hClob p).2 h2
        exact hpp (mem_keys_of_lookupA _ _ _ hci)
  have hconvS : ∀ p, p ∈ allPaths l → p ∉ reg.clobbers.map Prod.fst →
      ∀ x v, InitAt l p x v ↔ FinalAt l (sr.map PrefixRecord.name) p x v := by
    intro p hall hpp
    obtain ⟨n, hcn, hnsn⟩ := hsingle p hall hpp
    have hw0 : winnerFor (sr.map PrefixRecord.name) (contribNames l p) = some n := by
      rw [hcn]
      exact winnerFor_single _ n hnsn
    exact initAt_iff_finalAt_head l (sr.map PrefixRecord.name) p n [] hcn
      (contribNames_nodup l p hsep.namesNodup) hw0
  intro x v
  rw [hFs x v]
  constructor
  · rintro ⟨p, hall, hInit⟩
    refine ⟨p, hall, ?_⟩
    by_cases hpp : p ∈ reg.clobbers.map Prod.fst
    · exact Or.inl ⟨hpp, hInit⟩
    · exact Or.inr ⟨hpp, (hconvS p hall hpp x v).mp hInit⟩
  · rintro ⟨p, hall, hm⟩
    rcases hm with ⟨hin, hInit⟩ | ⟨hnin, hFin⟩
    · exact ⟨p, hall, hInit⟩
    · exact ⟨p, hall, (hconvS p hall hnin x v).mpr hFin⟩

theorem run_final_char (l : List Pkg) (sr : List PrefixRecord)
    (hsep : WellSep l)
    (hsorted : ∀ n ∈ l.map Pkg.name, n ∈ sr.map PrefixRecord.name) :
    ∃ st', runInstall l sr = Except.ok st' ∧
      ∀ x v, lookupA st'.fs x = some v ↔
        ∃ p, p ∈ allPaths l ∧ FinalAt l (sr.map PrefixRecord.name) p x v := by
  obtain ⟨hnames, hOwn, hClob, hKeys, hFs⟩ := installInv_all l hsep
  have hmix0 := initial_fsMixed l sr (installAll l).1 (installAll l).2 hsep hsorted
    hClob hFs
  have hent : ∀ p idxs, (p, idxs) ∈ (installAll l).1.clobbers →
      idxs.map (fun j => (l.map Pkg.name).getD j "") = contribNames l p ∧
      2 ≤ (contribNames l p).length := by
    intro p idxs hmem
    have hlook : lookupA (installAll l).1.clobbers p = some idxs :=
      lookupA_of_mem_keys _ _ _ hKeys hmem
    by_cases h2 : 2 ≤ (contributorsOf l p).length
    · obtain ⟨idxs', hci, hbnd, hmapN⟩ := (hClob p).2 h2
      rw [hlook] at hci
      injection hci with hh
      subst hh
      exact ⟨hmapN, by rw [contribNames_length]; exact h2⟩
    · have hnone := (hClob p).1 (by omega)
      rw [hlook] at hnone
      exact absurd hnone (by simp)
  obtain ⟨st', hgo, hmixF⟩ := unclobberGo_mixed l sr (installAll l).1 hsep hnames
    hsorted (installAll l).1.clobbers ⟨(installAll l).2, []⟩ hKeys hent hmix0
  refine ⟨st', hgo, ?_⟩
  intro x v
  rw [hmixF x v]
  constructor
  · rintro ⟨p, hall, hm⟩
    rcases hm with ⟨hin, hInit⟩ | ⟨hnin, hFin⟩
    · simp at hin
    · exact ⟨p, hall, hFin⟩
  · rintro ⟨p, hall, hFin⟩
    exact ⟨p, hall, Or.inr ⟨by simp, hFin⟩⟩

theorem contribNames_perm (l1 l2 : List Pkg) (h : l1.Perm l2) (p : String) :
    (contribNames l1 p).Perm (contribNames l2 p) := by
  simp only [contribNames, contributorsOf]
  exact (h.filter (fun k => k.paths.contains p)).map Pkg.name

theorem winnerFor_perm (sn : List String) (cns1 cns2 : List String)
    (h : cns1.Perm cns2) : winnerFor sn cns1 = winnerFor sn cns2 := by
  unfold winnerFor
  congr 1
  apply List.filter_congr
  intro n hn
  by_cases hm : n ∈ cns1
  · rw [(containsS_iff _ _).mpr hm, (containsS_iff _ _).mpr (h.mem_iff.mp hm)]
  · rw [containsS_eq_false _ _ hm,
      containsS_eq_false _ _ (fun hh => hm (h.mem_iff.mpr hh))]

theorem finalAt_perm (l1 l2 : List Pkg) (hperm : l1.Perm l2) (sn : List String)
    (p x v : String) : FinalAt l1 sn p x v ↔ FinalAt l2 sn p x v := by
  have hp := contribNames_perm l1 l2 hperm p
  have hwin : winnerFor sn (contribNames l1 p) = winnerFor sn (contribNames l2 p) :=
    winnerFor_perm sn _ _ hp
  simp only [FinalAt, hwin]
  constructor
  · rintro (⟨hk, hw⟩ | ⟨n, hn, hwn, hk, hv⟩)
    · exact Or.inl ⟨hk, hw⟩
    · exact Or.inr ⟨n, hp.mem_iff.mp hn, hwn, hk, hv⟩
  · rintro (⟨hk, hw⟩ | ⟨n, hn, hwn, hk, hv⟩)
    · exact Or.inl ⟨hk, hw⟩
    · exact Or.inr ⟨n, hp.mem_iff.mpr hn, hwn, hk, hv⟩

theorem allPaths_perm_mem (l1 l2 : List Pkg) (h : l1.Perm l2) (x : String) :
    x ∈ allPaths l1 ↔ x ∈ allPaths l2 := by
  rw [mem_allPaths, mem_allPaths]
  constructor
  · rintro ⟨kk, hkk, hx⟩
    exact ⟨kk, h.mem_iff.mp hkk, hx⟩
  · rintro ⟨kk, hkk, hx⟩
    exact ⟨kk, h.mem_iff.mpr hkk, hx⟩

theorem wellSep_perm (l1 l2 : List Pkg) (h : l1.Perm l2) (hs : WellSep l1) :
    WellSep l2 := by
  refine ⟨?_, ?_, ?_, ?_⟩
  · exact (h.map Pkg.name).nodup_iff.mp hs.namesNodup
  · exact fun k hk => hs.pathsNodup k (h.mem_iff.mpr hk)
  · intro p hp n hn hmem
    exact hs.disj p ((allPaths_perm_mem l1 l2 h p).mpr hp) n
      ((h.map Pkg.name).mem_iff.mpr hn)
      ((allPaths_perm_mem l1 l2 h _).mpr hmem)
  · intro p1 h1 n1 h2 p2 h3 n2 h4 heq
    exact hs.inj p1 ((allPaths_perm_mem l1 l2 h p1).mpr h1) n1
      ((h.map Pkg.name).mem_iff.mpr h2) p2 ((allPaths_perm_mem l1 l2 h p2).mpr h3)
      n2 ((h.map Pkg.name).mem_iff.mpr h4) heq

/-- C1: clobber resolution is deterministic.  For a well-separated package set
(distinct names, duplicate-free path lists, clobber names colliding with
nothing) whose names all appear in the sorted prefix records, installing any
permutation of the set and running the `unclobber` post-process succeeds and
produces the same on-disk state at every path: the canonical path holds the
winner computed from the sorted records only, and the set of
`__clobber-from-*` files (the losers' payloads) is likewise
order-independent. -/
theorem c1_clobber_determinism (l1 l2 : List Pkg)
    (sortedRecords : List PrefixRecord)
    (hperm : l1.Perm l2) (hsep : WellSep l1)
    (hsorted : ∀ kk ∈ l1, kk.name ∈ sortedRecords.map PrefixRecord.name) :
    ∃ st1 st2, runInstall l1 sortedRecords = Except.ok st1 ∧
      runInstall l2 sortedRecords = Except.ok st2 ∧
      ∀ key, lookupA st1.fs key = lookupA st2.fs key := by
  have hsorted1 : ∀ n ∈ l1.map Pkg.name, n ∈ sortedRecords.map PrefixRecord.name := by
    intro n hn
    rcases List.mem_map.mp hn with ⟨kk, hkk, hEq⟩
    exact hEq ▸ hsorted kk hkk
  have hsep2 : WellSep l2 := wellSep_perm l1 l2 hperm hsep
  have hsorted2 : ∀ n ∈ l2.map Pkg.name, n ∈ sortedRecords.map PrefixRecord.name :=
    fun n hn => hsorted1 n ((hperm.map Pkg.name).mem_iff.mpr hn)
  obtain ⟨st1, hrun1, hchar1⟩ := run_final_char l1 sortedRecords hsep hsorted1
  obtain ⟨st2, hrun2, hchar2⟩ := run_final_char l2 sortedRecords hsep2 hsorted2
  refine ⟨st1, st2, hrun1, hrun2, ?_⟩
  intro key
  cases h1 : lookupA st1.fs key with
  | some v =>
    obtain ⟨p, hall, hFin⟩ := (hchar1 key v).mp h1
    exact ((hchar2 key v).mpr ⟨p, (allPaths_perm_mem l1 l2 hperm p).mp hall,
      (finalAt_perm l1 l2 hperm _ p key v).mp hFin⟩).symm
  | none =>
    cases h2 : lookupA st2.fs key with
    | none => rfl
    | some v =>
      obtain ⟨p, hall, hFin⟩ := (hchar2 key v).mp h2
      have hcontra := (hchar1 key v).mpr ⟨p,
        (allPaths_perm_mem l1 l2 hperm p).mpr hall,
        (finalAt_perm l1 l2 hperm _ p key v).mpr hFin⟩
      rw [h1] at hcontra
      exact absurd hcontra (by simp)

/-- C1 witness: packages `a` and `b` both providing `f`, installed in the two
orders, with sorted records `[a, b]`: both runs succeed and agree on every
path. -/
theorem c1_clobber_determinism_witness :
    ∃ st1 st2,
      runInstall [⟨"a", ["f"]⟩, ⟨"b", ["f"]⟩]
        [⟨"a", ["f"], [⟨"f", none⟩]⟩, ⟨"b", ["f"], [⟨"f", none⟩]⟩] =
        Except.ok st1 ∧
      runInstall [⟨"b", ["f"]⟩, ⟨"a", ["f"]⟩]
        [⟨"a", ["f"], [⟨"f", none⟩]⟩, ⟨"b", ["f"], [⟨"f", none⟩]⟩] =
        Except.ok st2 ∧
      ∀ key, lookupA st1.fs key = lookupA st2.fs key :=
  c1_clobber_determinism [⟨"a", ["f"]⟩, ⟨"b", ["f"]⟩]
    [⟨"b", ["f"]⟩, ⟨"a", ["f"]⟩]
    [⟨"a", ["f"], [⟨"f", none⟩]⟩, ⟨"b", ["f"], [⟨"f", none⟩]⟩]
    (List.Perm.swap (⟨"b", ["f"]⟩ : Pkg) (⟨"a", ["f"]⟩ : Pkg) [])
    ⟨by decide, by decide, by decide, by decide⟩
    (by decide)
